import Mathlib

/-!
The orbit tracker and the graph compaction of pysaucy (`saucywrap.c`).

A shallow embedding of the algorithms of `src/pysaucy/saucywrap.c`:

* the orbit tracker (`initialize_saucy_data`, `update_orbits`, `finalize_orbits`);
* the graph builder (`shift_indices`, `rewind_indices`, `make_graph`): `make_graph` is
  the construction on the converted attributes, `make_graph_object` the whole function
  with the conversions of the attributes and of every target by `PyInt_AsInt`;
* the glue around them (`PyInt_AsInt`, `initialize_color_partition`, `on_automorphism`).

Conventions.

* A C array is a `List`; every read and write is bounds checked and the enclosing
  function returns `none` (orbit tracker) or `Failure.fault` (graph builder) when an
  index falls outside the allocated block.
* C `int` values are mathematical integers (`Int`); sizes are assumed to fit a C `int`.
* `malloc`ed cells are `none` until written, `calloc`ed cells start at `0`.
* The `do ... while` of `update_orbits` takes a fuel argument bounding the number of
  iterations of one cycle walk; `none` is returned when it runs out.
* `perm` holds node indices and is a `List Nat`.
-/

namespace Pysaucy

/-! ## Generic `for (i = 0; i < n; i++)` loop -/

/-- The loop `for (i = start; i < start + rem; i++) body`, threaded through `Option`:
the loop stops with `none` as soon as one iteration does. -/
def forLoop {σ : Type} (body : Nat → σ → Option σ) : Nat → Nat → σ → Option σ
  | 0, _, s => some s
  | rem + 1, i, s => (body i s).bind (forLoop body rem (i + 1))

/-! ## Orbit tracker -/

/-- The two arrays `update_orbits` works on: the caller's `global_orbit` and the local
`touched` markers. -/
structure OrbState where
  global_orbit : List Int
  touched : List Bool
deriving DecidableEq, Repr

/-- The function `initialize_saucy_data(py_graph, py_callback, n)`, reduced to the field
`orbit_partition` it allocates: `n` cells, all set to `-1`. -/
def initialize_saucy_data (n : Nat) : List Int :=
  List.replicate n (-1)

/-- One iteration of the re-colouring loop of `update_orbits`:
`if (global_orbit[k] == old_oid) global_orbit[k] = oid;`. -/
def relabelBody (old_oid oid : Int) (k : Nat) (g : List Int) : Option (List Int) :=
  match g[k]? with
  | none => none
  | some v => if v = old_oid then some (g.set k oid) else some g

/-- The loop `for (k = 0; k < n; k++)` that re-colours every node carrying `old_oid`. -/
def relabel (old_oid oid : Int) (n : Nat) (g : List Int) : Option (List Int) :=
  forLoop (relabelBody old_oid oid) n 0 g

/-- The statements of the `do` body that update `global_orbit` for the node `j`. -/
def colorNode (oid : Int) (n j : Nat) (g : List Int) : Option (List Int) :=
  match g[j]? with
  | none => none
  | some gj =>
    if gj < 0 then some (g.set j oid)
    else if gj = oid then some g
    else relabel gj oid n g

/-- One pass through the body of the `do ... while`: colour `j`, mark it touched and move
to `perm[j]`.  Returns the new state and the new `j`. -/
def walkStep (oid : Int) (perm : List Nat) (n j : Nat) (s : OrbState) :
    Option (OrbState × Nat) :=
  match colorNode oid n j s.global_orbit with
  | none => none
  | some g =>
    if j < s.touched.length then
      match perm[j]? with
      | none => none
      | some j' => some (⟨g, s.touched.set j true⟩, j')
    else none

/-- The `do ... while (perm[j] != i)` loop, entered with the node `j`. -/
def walk (oid : Int) (perm : List Nat) (n i : Nat) : Nat → Nat → OrbState → Option OrbState
  | 0, _, _ => none
  | fuel + 1, j, s =>
    match walkStep oid perm n j s with
    | none => none
    | some (s', j') =>
      match perm[j']? with
      | none => none
      | some pj => if pj ≠ i then walk oid perm n i fuel j' s' else some s'

/-- The body of the outer loop of `update_orbits` for the node `i`. -/
def visit (fuel : Nat) (perm : List Nat) (n i : Nat) (s : OrbState) : Option OrbState :=
  match perm[i]? with
  | none => none
  | some pi =>
    if pi = i then some s
    else
      match s.touched[i]? with
      | none => none
      | some true => some s
      | some false =>
        match s.global_orbit[i]? with
        | none => none
        | some gi =>
          if 0 ≤ gi then
            walk gi perm n i fuel pi ⟨s.global_orbit, s.touched.set i true⟩
          else
            walk (i : Int) perm n i fuel pi ⟨s.global_orbit.set i (i : Int), s.touched.set i true⟩

/-- The function `update_orbits(global_orbit, perm, n)`; `fuel` bounds each cycle walk.
The result is the new content of `global_orbit`. -/
def update_orbits (fuel : Nat) (global_orbit : List Int) (perm : List Nat) (n : Nat) :
    Option (List Int) :=
  (forLoop (visit fuel perm n) n 0 ⟨global_orbit, List.replicate n false⟩).map
    OrbState.global_orbit

/-- The body of the loop of `finalize_orbits`. -/
def finalizeBody (i : Nat) (g : List Int) : Option (List Int) :=
  match g[i]? with
  | none => none
  | some v => if v < 0 then some (g.set i (i : Int)) else some g

/-- The function `finalize_orbits(global_orbit, n)`. -/
def finalize_orbits (global_orbit : List Int) (n : Nat) : Option (List Int) :=
  forLoop finalizeBody n 0 global_orbit

/-- The calls `update_orbits(orbit_partition, gamma, n)` made by `on_automorphism`, one per
generator, in the order the generators are delivered. -/
def apply_generators (fuel n : Nat) : List (List Nat) → List Int → Option (List Int)
  | [], p => some p
  | g :: gs, p => (update_orbits fuel p g n).bind (apply_generators fuel n gs)

/-- `perm` is a permutation of `[0, n)` in explicit form. -/
def IsPermutation (perm : List Nat) (n : Nat) : Prop :=
  perm.Perm (List.range n)

instance (perm : List Nat) (n : Nat) : Decidable (IsPermutation perm n) := by
  unfold IsPermutation; infer_instance

/-! ### Pure descriptions of the array updates -/

/-- What the re-colouring loop does to one cell. -/
def relabelFn (old_oid oid : Int) (v : Int) : Int :=
  if v = old_oid then oid else v

/-- Two nodes carry the same non-negative orbit id. -/
def Link (g : List Int) (x y : Nat) : Prop :=
  ∃ v : Int, 0 ≤ v ∧ g[x]? = some v ∧ g[y]? = some v

/-- The relation recorded by an orbit array: a node is related to itself and to the nodes
carrying the same non-negative id. -/
def Same (g : List Int) (x y : Nat) : Prop :=
  x = y ∨ Link g x y

/-- One generator step `a ↦ perm[a]`. -/
def Moves (perm : List Nat) (a b : Nat) : Prop :=
  perm[a]? = some b

/-- The orbit relation of a list of generators on `[0, n)`: the equivalence closure of
the pairs `(i, g[i])`. -/
def OrbitRel (gens : List (List Nat)) : Nat → Nat → Prop :=
  Relation.EqvGen (fun a b => ∃ g ∈ gens, Moves g a b)

/-- The representative invariant: every entry is `-1` or the index of a node that
carries its own index as id. -/
def RepInv (g : List Int) : Prop :=
  ∀ (k : Nat) (v : Int), g[k]? = some v → v = -1 ∨ (0 ≤ v ∧ g[v.toNat]? = some v)

/-! ### Vocabulary of the proofs -/

/-- The successor of `x` under `perm`; nodes outside the array are left where they are. -/
def nxt (perm : List Nat) (x : Nat) : Nat :=
  (perm[x]?).getD x

/-- A property of the orbit array that every write of `update_orbits` keeps: the minting
of a new id and the colouring of one node of a cycle. -/
structure Preserved (perm : List Nat) (n : Nat) (I : List Int → Prop) : Prop where
  mint : ∀ (g : List Int) (i i' : Nat) (v : Int), g.length = n → perm[i]? = some i' →
    i' ≠ i → g[i]? = some v → v < 0 → I g → I (g.set i (i : Int))
  color : ∀ (g g' : List Int) (oid : Int) (j y : Nat), g.length = n → j < n → 0 ≤ oid →
    perm[y]? = some j → y ≠ j → g[y]? = some oid → colorNode oid n j g = some g' →
    I g → I g'

/-- The touched node `x` is tied to its successor `x'`: they share an id when `x'` is
touched too, and otherwise `x` shares the id of the successor of `x'`. -/
def TiedTo (perm : List Nat) (s : OrbState) (x x' : Nat) : Prop :=
  (s.touched[x']? = some true → Link s.global_orbit x x') ∧
  (s.touched[x']? = some false →
    ∀ x2, perm[x']? = some x2 → Link s.global_orbit x x2)

/-- Every touched node is tied to its successor. -/
def AllTied (perm : List Nat) (s : OrbState) : Prop :=
  ∀ x x', s.touched[x]? = some true → perm[x]? = some x' → TiedTo perm s x x'

/-- The invariant at the head of the `do ... while` started at `i` with id `oid`, about to
colour the node `j`. -/
structure WalkInv (perm : List Nat) (n : Nat) (I : List Int → Prop) (i : Nat) (oid : Int)
    (s : OrbState) (j : Nat) : Prop where
  glen : s.global_orbit.length = n
  tlen : s.touched.length = n
  inv : I s.global_orbit
  jlt : j < n
  oid_nonneg : 0 ≤ oid
  gi : s.global_orbit[i]? = some oid
  ti : s.touched[i]? = some true
  prev : ∃ y, perm[y]? = some j ∧ y ≠ j ∧ s.touched[y]? = some true ∧
    s.global_orbit[y]? = some oid
  first : ∃ i', perm[i]? = some i' ∧ (j = i' ∨ s.global_orbit[i']? = some oid)
  tied : ∀ x x', s.touched[x]? = some true → perm[x]? = some x' → x' ≠ j → x' ≠ i →
    TiedTo perm s x x'
  tiedStart : ∀ x, s.touched[x]? = some true → perm[x]? = some i →
    s.global_orbit[x]? = some oid ∨ ∃ i', perm[i]? = some i' ∧ Link s.global_orbit x i'

/-- What a completed cycle walk guarantees. -/
structure WalkPost (perm : List Nat) (n : Nat) (I : List Int → Prop) (s s' : OrbState) :
    Prop where
  glen : s'.global_orbit.length = n
  tlen : s'.touched.length = n
  inv : I s'.global_orbit
  tied : AllTied perm s'
  mono : ∀ x : Nat, s.touched[x]? = some true → s'.touched[x]? = some true

/-- The invariant of the outer loop of `update_orbits` before the node `idx` is looked at. -/
structure OuterInv (perm : List Nat) (n : Nat) (I : List Int → Prop) (idx : Nat)
    (s : OrbState) : Prop where
  glen : s.global_orbit.length = n
  tlen : s.touched.length = n
  inv : I s.global_orbit
  tied : AllTied perm s
  done : ∀ x x', x < idx → perm[x]? = some x' → x' ≠ x → s.touched[x]? = some true

/-- The representative invariant together with soundness for an equivalence `E` that
contains every step of the permutation. -/
def SoundFor (E : Nat → Nat → Prop) (g : List Int) : Prop :=
  RepInv g ∧ ∀ x y : Nat, Link g x y → E x y

/-- What `finalize_orbits` does to the cell of node `k`. -/
def finalizeFn (k : Nat) (v : Int) : Int :=
  if v < 0 then (k : Int) else v

/-! ## Graph builder -/

/-- How `make_graph` can fail to deliver a graph: the four ways it returns `NULL`, and
`fault` for an access outside the allocated arrays. -/
inductive Failure where
  | emptyGraph
  | memory
  | lengthMismatch
  | invalidNodeId
  | fault
deriving DecidableEq, Repr

/-- The attributes `n`, `m` and `adjacency_list` of the Python graph object, after their
conversion to C integers. -/
structure PyGraph where
  n : Int
  m : Int
  adjacency_list : List (List Int)
deriving DecidableEq, Repr

/-- The `struct saucy_graph` filled by `make_graph`.  A cell of `edg` is `none` until it
is written. -/
structure SaucyGraph where
  n : Int
  e : Int
  adj : List Int
  edg : List (Option Int)
deriving DecidableEq, Repr

/-- Read of `a[i]`; a `fault` when `i` is outside the block. -/
def readCell {α : Type} (a : List α) (i : Int) : Except Failure α :=
  if 0 ≤ i then
    match a[i.toNat]? with
    | some v => .ok v
    | none => .error .fault
  else .error .fault

/-- Write `a[i] = v`; a `fault` when `i` is outside the block. -/
def writeCell {α : Type} (a : List α) (i : Int) (v : α) : Except Failure (List α) :=
  if 0 ≤ i ∧ i.toNat < a.length then .ok (a.set i.toNat v) else .error .fault

/-- The loop of `shift_indices`, from index `i` on, with `s` the count saved from the
previous cell; `off` is where the array starts inside the shared block. -/
def shiftLoop (off : Int) : Nat → Nat → Int → List Int → Except Failure (List Int)
  | 0, _, _, adj => .ok adj
  | rem + 1, i, s, adj => do
    let t ← readCell adj (off + i)
    let prev ← readCell adj (off + i - 1)
    let adj ← writeCell adj (off + i) (prev + s)
    shiftLoop off rem (i + 1) t adj

/-- The function `shift_indices(n, adj)` on the array that starts at `off`. -/
def shift_indices (n : Nat) (off : Int) (adj : List Int) : Except Failure (List Int) := do
  let s ← readCell adj off
  let adj ← writeCell adj off 0
  shiftLoop off (n - 1) 1 s adj

/-- The loop `for (i = n-1; i > 0; --i) adj[i] = adj[i-1];` of `rewind_indices`, entered
with `i = k`. -/
def rewindLoop (off : Int) : Nat → List Int → Except Failure (List Int)
  | 0, adj => .ok adj
  | k + 1, adj => do
    let v ← readCell adj (off + k)
    let adj ← writeCell adj (off + (k + 1 : Nat)) v
    rewindLoop off k adj

/-- The function `rewind_indices(n, e, adj)` on the array that starts at `off`. -/
def rewind_indices (n : Int) (e : Int) (off : Int) (adj : List Int) :
    Except Failure (List Int) := do
  let adj ← rewindLoop off (n - 1).toNat adj
  let adj ← writeCell adj off 0
  writeCell adj (off + n) e

/-- The inner loop of the counting pass over one edge list: reject a target `>= n`,
otherwise `++ain[to_node]`. -/
def countTargets (n : Int) (ainOff : Int) : List Int → List Int → Except Failure (List Int)
  | [], adj => .ok adj
  | to_node :: rest, adj =>
    if to_node ≥ n then .error .invalidNodeId
    else do
      let c ← readCell adj (ainOff + to_node)
      let adj ← writeCell adj (ainOff + to_node) (c + 1)
      countTargets n ainOff rest adj

/-- The counting pass, from node `i` on: `aout[i] += edge_list_length` and then the inner
loop. -/
def countPass (n : Int) (ainOff : Int) : Nat → List (List Int) → List Int →
    Except Failure (List Int)
  | _, [], adj => .ok adj
  | i, edge_list :: rest, adj => do
    let c ← readCell adj i
    let adj ← writeCell adj i (c + edge_list.length)
    let adj ← countTargets n ainOff edge_list adj
    countPass n ainOff (i + 1) rest adj

/-- The inner loop of the placement pass for the source `i`:
`eout[aout[i]++] = to_node; ein[ain[to_node]++] = i;`. -/
def placeTargets (ainOff einOff : Int) (i : Nat) :
    List Int → List Int × List (Option Int) → Except Failure (List Int × List (Option Int))
  | [], st => .ok st
  | to_node :: rest, (adj, edg) => do
    let a ← readCell adj i
    let edg ← writeCell edg a (some to_node)
    let adj ← writeCell adj i (a + 1)
    let b ← readCell adj (ainOff + to_node)
    let edg ← writeCell edg (einOff + b) (some (i : Int))
    let adj ← writeCell adj (ainOff + to_node) (b + 1)
    placeTargets ainOff einOff i rest (adj, edg)

/-- The placement pass, from node `i` on. -/
def placePass (ainOff einOff : Int) :
    Nat → List (List Int) → List Int × List (Option Int) →
      Except Failure (List Int × List (Option Int))
  | _, [], st => .ok st
  | i, edge_list :: rest, st => do
    let st ← placeTargets ainOff einOff i edge_list st
    placePass ainOff einOff (i + 1) rest st

/-- The function `make_graph(py_graph, directed)` from the test `g->n == 0` on, with the
attributes already converted (for the conversions see `make_graph_object`).  A request
for a negative number of cells, `calloc(2*n+2, ..)`, `calloc(n+1, ..)` or
`malloc(2*e*..)`, makes the allocation fail; every other allocation succeeds. -/
def make_graph (py_graph : PyGraph) (directed : Bool) : Except Failure SaucyGraph :=
  let gn := py_graph.n
  let ge := py_graph.m
  if gn = 0 then .error .emptyGraph
  else if (if directed then 2 * gn + 2 else gn + 1) < 0 ∨ 2 * ge < 0 then .error .memory
  else
    let aout : List Int := List.replicate (if directed then 2 * gn + 2 else gn + 1).toNat 0
    let eout : List (Option Int) := List.replicate (2 * ge).toNat none
    let ainOff : Int := if directed then gn + 1 else 0
    let einOff : Int := if directed then ge else 0
    let n := py_graph.adjacency_list.length
    if (n : Int) ≠ gn then .error .lengthMismatch
    else do
      let adj ← countPass n ainOff 0 py_graph.adjacency_list aout
      let adj ← shift_indices n 0 adj
      let adj ← if directed then shift_indices n ainOff adj else .ok adj
      let (adj, edg) ← placePass ainOff einOff 0 py_graph.adjacency_list (adj, eout)
      let adj ←
        if directed then do
          let adj ← rewind_indices gn ge 0 adj
          rewind_indices gn ge ainOff adj
        else rewind_indices gn (2 * ge) 0 adj
      .ok ⟨gn, ge, adj, edg⟩

/-! ### Vocabulary of the graph builder proofs -/

/-- The content of the cell `c` of an offset array (`0` outside the block). -/
def cellAt (a : List Int) (c : Nat) : Int :=
  (a[c]?).getD 0

/-- One step `edg[base + adj[c]++] = v` for every pair `(c, v)` of the list, in order;
`base c` is where the target region used with the cell `c` starts. -/
def pushAll (base : Nat → Int) :
    List (Nat × Int) → List Int × List (Option Int) →
      Except Failure (List Int × List (Option Int))
  | [], st => .ok st
  | (c, v) :: rest, (adj, edg) => do
    let a ← readCell adj c
    let edg ← writeCell edg (base c + a) (some v)
    let adj ← writeCell adj c (a + 1)
    pushAll base rest (adj, edg)

/-- The values pushed through the cell `c`, in order. -/
def valsAt (P : List (Nat × Int)) (c : Nat) : List Int :=
  (P.filter (fun p => p.1 = c)).map (fun p => p.2)

/-- The pushes made by the placement pass for the edge list `l` of the source `i`. -/
def pushesOf (ainOff i : Nat) (l : List Nat) : List (Nat × Int) :=
  l.flatMap (fun t => [(i, (t : Int)), (ainOff + t, (i : Int))])

/-- The pushes made by the placement pass from the source `i` on. -/
def allPushes (ainOff : Nat) : Nat → List (List Nat) → List (Nat × Int)
  | _, [] => []
  | i, l :: rest => pushesOf ainOff i l ++ allPushes ainOff (i + 1) rest

/-- The sum `f 0 + ... + f (k-1)`. -/
def psum (f : Nat → Int) : Nat → Int
  | 0 => 0
  | k + 1 => psum f k + f k

/-- The edges `(source, target)` listed by the adjacency lists, in the order of the two
nested loops; the first list belongs to the source `i`. -/
def edgesOf : Nat → List (List Nat) → List (Nat × Nat)
  | _, [] => []
  | i, l :: rest => l.map (fun t => (i, t)) ++ edgesOf (i + 1) rest

/-- The pushes made for a list of edges: the target through the cell of the source, the
source through the cell of the target. -/
def pushes (ainOff : Nat) (E : List (Nat × Nat)) : List (Nat × Int) :=
  E.flatMap (fun p => [(p.1, (p.2 : Int)), (ainOff + p.2, (p.1 : Int))])

/-! ### Reading a built graph -/

/-- A valid adjacency-list graph: at least one node, one edge list per node, every target
in `[0, n)`, and a declared edge count equal to the number of listed targets. -/
def ValidGraph (G : PyGraph) : Prop :=
  1 ≤ G.n ∧ (G.adjacency_list.length : Int) = G.n ∧
    (∀ l ∈ G.adjacency_list, ∀ t ∈ l, 0 ≤ t ∧ t < G.n) ∧
    G.m = ((G.adjacency_list.map List.length).sum : Nat)

instance (G : PyGraph) : Decidable (ValidGraph G) := by
  unfold ValidGraph; infer_instance

/-- The block `edg[adj[i] .. adj[i+1])` of the node `i`. -/
def outBlock (g : SaucyGraph) (i : Nat) : List (Option Int) :=
  (g.edg.drop (cellAt g.adj i).toNat).take (cellAt g.adj (i + 1) - cellAt g.adj i).toNat

/-- The in-block of the node `t` of a directed graph: the cells
`ein[ain[t] .. ain[t+1])` with `ain = adj + n + 1` and `ein = edg + e`. -/
def inBlock (g : SaucyGraph) (t : Nat) : List (Option Int) :=
  (g.edg.drop (g.e + cellAt g.adj (g.n.toNat + 1 + t)).toNat).take
    (cellAt g.adj (g.n.toNat + 1 + t + 1) - cellAt g.adj (g.n.toNat + 1 + t)).toNat

/-- The sources that list the target `t`, from the source `j` on, in ascending order, each
as many times as `t` occurs in its edge list. -/
def sourcesFrom : Nat → List (List Int) → Int → List Int
  | _, [], _ => []
  | j, l :: rest, t => List.replicate (l.count t) (j : Int) ++ sourcesFrom (j + 1) rest t

/-- The sources that list the target `t`. -/
def sourcesOf (adjacency_list : List (List Int)) (t : Int) : List Int :=
  sourcesFrom 0 adjacency_list t

/-- The invariant of a built graph: the offsets start at `0`, do not decrease and end at
the declared total, and every cell of the target array is written with a node id. -/
def GraphInvariant (directed : Bool) (g : SaucyGraph) : Prop :=
  g.adj.length = (if directed then 2 * g.n.toNat + 2 else g.n.toNat + 1) ∧
  cellAt g.adj 0 = 0 ∧
  (∀ i, i < g.n.toNat → cellAt g.adj i ≤ cellAt g.adj (i + 1)) ∧
  cellAt g.adj g.n.toNat = (if directed then g.e else 2 * g.e) ∧
  (g.edg.length : Int) = 2 * g.e ∧
  (∀ k, k < g.edg.length → ∃ v : Int, g.edg[k]? = some (some v) ∧ 0 ≤ v ∧ v < g.n)

/-- The build constraints of the graph builder: at least one node, an adjacency list of
length exactly `n`, every listed id in `[0, n)`, and a declared edge count `>= 0`. -/
def BuildConstraints (G : PyGraph) : Prop :=
  1 ≤ G.n ∧ (G.adjacency_list.length : Int) = G.n ∧
    (∀ l ∈ G.adjacency_list, ∀ t ∈ l, 0 ≤ t ∧ t < G.n) ∧ 0 ≤ G.m

instance (G : PyGraph) : Decidable (BuildConstraints G) := by
  unfold BuildConstraints; infer_instance

/-! ### Nodes a generator leaves alone -/

/-- The node `x` is moved by `perm`. -/
def Moved (perm : List Nat) (x : Nat) : Prop :=
  ∃ x', perm[x]? = some x' ∧ x' ≠ x

/-- The node `x` is moved by `perm` or shares its id in `p` with a moved node. -/
def Affected (p : List Int) (perm : List Nat) (x : Nat) : Prop :=
  Moved perm x ∨ ∃ y, Moved perm y ∧ Link p x y

/-- The ids `update_orbits` can write: the index of a moved node or the non-negative id
such a node carries in `p`. -/
def Writable (p : List Int) (perm : List Nat) (v : Int) : Prop :=
  0 ≤ v ∧ ∃ y, Moved perm y ∧ (v = (y : Int) ∨ p[y]? = some v)

/-- The nodes that are not affected keep their entry, and every changed entry holds a
writable id. -/
def Untouched (p : List Int) (perm : List Nat) (g : List Int) : Prop :=
  (∀ x : Nat, ¬ Affected p perm x → g[x]? = p[x]?) ∧
  (∀ (x : Nat) (v : Int), g[x]? = some v → p[x]? ≠ some v → Writable p perm v)

/-- The nodes `x` and `y` lie on the same cycle of `perm`. -/
def SameCycle (perm : List Nat) (x y : Nat) : Prop :=
  ∃ m : Nat, (nxt perm)^[m] x = y

/-! ## Python integers, the colour partition and the generator callback

A Python integer is converted through a C `long` of 64 bits and a C `int` of 32 bits
(`sizeof(int) == 4`); a conversion that does not fit wraps modulo `2^32`. -/

/-- A Python object handed to the wrapper: an object that passes `PyInt_Check`, with its
value, or anything else. -/
inductive PyObject where
  | int (v : Int)
  | other
deriving DecidableEq, Repr

/-- The Python exceptions set by the functions below; `fault` stands for an access
outside an allocated array. -/
inductive PyErr where
  | typeError
  | valueError
  | overflowError
  | fault
deriving DecidableEq, Repr

/-- The value of the cast `(int)x` of a C `long` `x`: `x` modulo `2^32`, taken in the
range of a signed 32-bit `int`. -/
def toCInt (x : Int) : Int :=
  (x + 2147483648) % 4294967296 - 2147483648

/-- The CPython call `PyInt_AsLong` on an integer object: its value when it fits a 64-bit
C `long`, and an error otherwise. -/
def PyInt_AsLong (v : Int) : Except PyErr Int :=
  if -9223372036854775808 ≤ v ∧ v ≤ 9223372036854775807 then .ok v
  else .error .overflowError

/-- The function `PyInt_AsInt(o)`.  An error stands for the return value `-1` with the
error indicator set.  `MAX_INT` is computed as in the source, `(1 << (W*8 - 1)) - 1` in
`int` arithmetic. -/
def PyInt_AsInt (o : PyObject) : Except PyErr Int :=
  match o with
  | .other => .error .typeError
  | .int v =>
    let W : Nat := 4
    let MAX_INT : Int := toCInt (toCInt (2 ^ (W * 8 - 1)) - 1)
    match PyInt_AsLong v with
    | .error e => .error e
    | .ok py_int_value =>
      if py_int_value > MAX_INT then .error .valueError
      else .ok (toCInt py_int_value)

/-- The argument `py_colors`: `Py_None`, a sequence with its items, or some other
object. -/
inductive PyColors where
  | none
  | seq (items : List PyObject)
  | notSeq
deriving DecidableEq, Repr

/-- The loop of `initialize_color_partition` that fills `colors`, from index `i` on:
`colors[i] = PyInt_AsInt(item)` and the test `colors[i] < 0`. -/
def fillColors : Nat → List PyObject → List Int → Except PyErr (List Int)
  | _, [], colors => .ok colors
  | i, item :: rest, colors =>
    match PyInt_AsInt item with
    | .error e => .error e
    | .ok c =>
      if i < colors.length then
        if c < 0 then .error .valueError
        else fillColors (i + 1) rest (colors.set i c)
      else .error .fault

/-- The function `initialize_color_partition(py_colors, n)`. -/
def initialize_color_partition (py_colors : PyColors) (n : Nat) : Except PyErr (List Int) :=
  let colors : List Int := List.replicate n 0
  match py_colors with
  | .none => .ok colors
  | .seq items =>
    if items.length = n then fillColors 0 items colors
    else .error .typeError
  | .notSeq => .error .typeError

/-- What the call of the Python callback leads to: it raised (`ret_val == NULL`), or it
returned `None`, a truthy value, a falsy value other than `None`, or an object whose
truth test fails (`PyObject_IsTrue(ret_val) == -1`, with the exception of the test
set). -/
inductive CallbackResult where
  | raised
  | returnedNone
  | returnedTruthy
  | returnedFalsy
  | returnedUntestable
deriving DecidableEq, Repr

/-- The `struct saucy_data` without the reference to the Python graph: the callback
(`none` for `Py_None`), which maps the permutation and its support to what the call leads
to, and the orbit partition. -/
structure saucy_data where
  py_callback : Option (List Nat → List Nat → CallbackResult)
  orbit_partition : List Int

/-- The function `on_automorphism(n, gamma, k, support, arg)`: the new content of `arg`
and the returned `int`.  The two lists given to the callback are read from `gamma[0..n)`
and `support[0..k)`.  The test `(ret_val == Py_None) || PyObject_IsTrue(ret_val)` takes
the `-1` of a failed truth test as true. -/
def on_automorphism (fuel n : Nat) (gamma : List Nat) (k : Nat) (support : List Nat)
    (arg : saucy_data) : Option (saucy_data × Int) :=
  match update_orbits fuel arg.orbit_partition gamma n with
  | none => none
  | some orbits =>
    let data : saucy_data := ⟨arg.py_callback, orbits⟩
    match arg.py_callback with
    | none => some (data, 1)
    | some callback =>
      if n ≤ gamma.length ∧ k ≤ support.length then
        match callback (gamma.take n) (support.take k) with
        | .raised => some (data, 0)
        | .returnedNone => some (data, 1)
        | .returnedTruthy => some (data, 1)
        | .returnedFalsy => some (data, 0)
        | .returnedUntestable => some (data, 1)
      else none

/-- The item is a non-negative integer that fits a C `int`. -/
def IsColor (o : PyObject) : Prop :=
  ∃ v : Int, o = .int v ∧ 0 ≤ v ∧ v ≤ 2147483647

/-- The item is not an integer below the range of a C `int`. -/
def NotBelowInt (o : PyObject) : Prop :=
  ∀ v : Int, o = .int v → -2147483648 ≤ v

/-- The argument is a sequence of exactly `n` non-negative integers that fit a C `int`. -/
def IsColorSeq (py_colors : PyColors) (n : Nat) : Prop :=
  ∃ items, py_colors = .seq items ∧ items.length = n ∧ ∀ o ∈ items, IsColor o

/-! ### The whole of `make_graph`, conversions included -/

/-- The Python graph object as `make_graph` receives it: the attributes `n` and `m` and
the items of the sequences of `adjacency_list`, before any conversion. -/
structure PyGraphObject where
  n : PyObject
  m : PyObject
  adjacency_list : List (List PyObject)
deriving DecidableEq, Repr

/-- How the whole of `make_graph` can fail: with the Python error of a conversion, or in
one of the ways of the construction. -/
inductive GraphError where
  | python (e : PyErr)
  | build (f : Failure)
deriving DecidableEq, Repr

/-- A failure of the construction, as an error of the whole function. -/
def liftBuild {α : Type} : Except Failure α → Except GraphError α
  | .ok a => .ok a
  | .error f => .error (.build f)

/-- The `int` that the unchecked call `to_node = PyInt_AsInt(py_to_node)` of the placement
pass yields: the converted value, and `-1` when the conversion fails. -/
def asInt (o : PyObject) : Int :=
  match PyInt_AsInt o with
  | .ok v => v
  | .error _ => -1

/-- The inner loop of the counting pass with its conversion
`to_node = PyInt_AsInt(py_to_node)`: a failed conversion and `to_node >= n` end the
construction, otherwise `++ain[to_node]`. -/
def countTargetsObj (n : Int) (ainOff : Int) :
    List PyObject → List Int → Except GraphError (List Int)
  | [], adj => .ok adj
  | py_to_node :: rest, adj =>
    match PyInt_AsInt py_to_node with
    | .error e => .error (.python e)
    | .ok to_node =>
      if to_node ≥ n then .error (.build .invalidNodeId)
      else do
        let c ← liftBuild (readCell adj (ainOff + to_node))
        let adj ← liftBuild (writeCell adj (ainOff + to_node) (c + 1))
        countTargetsObj n ainOff rest adj

/-- The counting pass over the Python sequences, from node `i` on:
`aout[i] += edge_list_length` and the inner loop. -/
def countPassObj (n : Int) (ainOff : Int) :
    Nat → List (List PyObject) → List Int → Except GraphError (List Int)
  | _, [], adj => .ok adj
  | i, py_edge_list :: rest, adj => do
    let c ← liftBuild (readCell adj i)
    let adj ← liftBuild (writeCell adj i (c + py_edge_list.length))
    let adj ← countTargetsObj n ainOff py_edge_list adj
    countPassObj n ainOff (i + 1) rest adj

/-- The function `make_graph(py_graph, directed)` from the conversion of the attributes
on: `g->n = PyInt_AsInt(nn)`, `g->e = PyInt_AsInt(nm)` and the test for a failed
conversion (when both fail, the error of the later one is the one left set), the test
`g->n == 0`, the allocations, the test of the length of the adjacency list, the counting
pass that converts every target, the shifts, the placement pass that converts the
targets again without a test, and the rewinds.  The allocations follow the rule of
`make_graph`. -/
def make_graph_object (py_graph : PyGraphObject) (directed : Bool) :
    Except GraphError SaucyGraph :=
  match PyInt_AsInt py_graph.n with
  | .error en =>
    match PyInt_AsInt py_graph.m with
    | .error em => .error (.python em)
    | .ok _ => .error (.python en)
  | .ok gn =>
    match PyInt_AsInt py_graph.m with
    | .error em => .error (.python em)
    | .ok ge =>
      if gn = 0 then .error (.build .emptyGraph)
      else if (if directed then 2 * gn + 2 else gn + 1) < 0 ∨ 2 * ge < 0 then
        .error (.build .memory)
      else
        let aout : List Int :=
          List.replicate (if directed then 2 * gn + 2 else gn + 1).toNat 0
        let eout : List (Option Int) := List.replicate (2 * ge).toNat none
        let ainOff : Int := if directed then gn + 1 else 0
        let einOff : Int := if directed then ge else 0
        let n := py_graph.adjacency_list.length
        if (n : Int) ≠ gn then .error (.build .lengthMismatch)
        else do
          let adj ← countPassObj n ainOff 0 py_graph.adjacency_list aout
          let adj ← liftBuild (shift_indices n 0 adj)
          let adj ← if directed then liftBuild (shift_indices n ainOff adj) else .ok adj
          let (adj, edg) ← liftBuild
            (placePass ainOff einOff 0 (py_graph.adjacency_list.map (fun l => l.map asInt))
              (adj, eout))
          let adj ← liftBuild
            (if directed then do
              let adj ← rewind_indices gn ge 0 adj
              rewind_indices gn ge ainOff adj
            else rewind_indices gn (2 * ge) 0 adj)
          .ok ⟨gn, ge, adj, edg⟩

/-- The Python graph object whose attributes are the integers of `G`. -/
def graphObject (G : PyGraph) : PyGraphObject :=
  ⟨.int G.n, .int G.m, G.adjacency_list.map (fun l => l.map PyObject.int)⟩

/-- The value fits a C `int`. -/
def FitsInt (v : Int) : Prop :=
  -2147483648 ≤ v ∧ v ≤ 2147483647

instance (v : Int) : Decidable (FitsInt v) := by
  unfold FitsInt; infer_instance

theorem forLoop_inv {σ : Type} (body : Nat → σ → Option σ) (Inv : Nat → σ → Prop) :
    ∀ (rem i : Nat) (s : σ), Inv i s →
      (∀ k t, i ≤ k → k < i + rem → Inv k t → ∃ t', body k t = some t' ∧ Inv (k + 1) t') →
      ∃ s', forLoop body rem i s = some s' ∧ Inv (i + rem) s' := by
  intro rem
  induction rem with
  | zero => intro i s h _; exact ⟨s, rfl, by simpa using h⟩
  | succ r ih =>
    intro i s h hb
    obtain ⟨t', ht', hi'⟩ := hb i s (Nat.le_refl i) (by omega) h
    obtain ⟨s', hs', hinv⟩ := ih (i + 1) t' hi' (fun k t hk1 hk2 hk3 =>
      hb k t (by omega) (by omega) hk3)
    refine ⟨s', ?_, ?_⟩
    · simp [forLoop, ht', hs']
    · have : i + (r + 1) = i + 1 + r := by omega
      rw [this]; exact hinv

theorem relabel_eq (old_oid oid : Int) (n : Nat) (g : List Int) (hlen : g.length = n) :
    relabel old_oid oid n g = some (g.map (relabelFn old_oid oid)) := by
  have key := forLoop_inv (relabelBody old_oid oid)
    (fun k t => t.length = n ∧
      ∀ m, t[m]? = if m < k then (g[m]?).map (relabelFn old_oid oid) else g[m]?)
    n 0 g ⟨hlen, by intro m; simp⟩
    (by
      intro k t _ hk ⟨htl, ht⟩
      have hkn : k < n := by omega
      have hgk : t[k]? = g[k]? := by rw [ht k]; simp
      have hgk' : g[k]? = some g[k] := List.getElem?_eq_getElem (by omega)
      rw [hgk'] at hgk
      by_cases hv : g[k] = old_oid
      · refine ⟨t.set k oid, by simp [relabelBody, hgk, hv], by simpa using htl, ?_⟩
        intro m
        rw [List.getElem?_set]
        by_cases hm : k = m
        · subst hm
          simp [htl, hkn, hgk', relabelFn, hv]
        · rw [if_neg hm, ht m]
          by_cases h1 : m < k
          · simp [h1, show m < k + 1 by omega]
          · simp [h1, show ¬ m < k + 1 by omega]
      · refine ⟨t, by simp [relabelBody, hgk, hv], htl, ?_⟩
        intro m
        by_cases hm : k = m
        · subst hm
          rw [hgk]; simp [hgk', relabelFn, hv]
        · rw [ht m]
          by_cases h1 : m < k
          · simp [h1, show m < k + 1 by omega]
          · simp [h1, show ¬ m < k + 1 by omega])
  obtain ⟨s', hs', _, hs⟩ := key
  unfold relabel
  rw [hs']
  congr 1
  apply List.ext_getElem?
  intro m
  rw [hs m, List.getElem?_map]
  by_cases hm : m < 0 + n
  · simp only [hm, if_true]
  · simp only [hm, if_false]
    rw [List.getElem?_eq_none (by omega)]; rfl

/-! ### Permutations in explicit form -/

theorem perm_length {perm : List Nat} {n : Nat} (h : IsPermutation perm n) :
    perm.length = n := by
  have := List.Perm.length_eq h
  simpa using this

theorem perm_lt {perm : List Nat} {n : Nat} (h : IsPermutation perm n) {x y : Nat}
    (hxy : perm[x]? = some y) : y < n := by
  have hm : y ∈ perm := List.getElem?_mem hxy
  have := (List.Perm.mem_iff h).1 hm
  simpa using this

theorem perm_dom {perm : List Nat} {n : Nat} (h : IsPermutation perm n) {x y : Nat}
    (hxy : perm[x]? = some y) : x < n := by
  obtain ⟨hx, _⟩ := List.getElem?_eq_some.1 hxy
  rw [perm_length h] at hx; exact hx

theorem perm_get {perm : List Nat} {n : Nat} (h : IsPermutation perm n) {x : Nat}
    (hx : x < n) : ∃ y, perm[x]? = some y ∧ y < n := by
  have hl : x < perm.length := by rw [perm_length h]; exact hx
  exact ⟨perm[x], List.getElem?_eq_getElem hl, perm_lt h (List.getElem?_eq_getElem hl)⟩

theorem perm_inj {perm : List Nat} {n : Nat} (h : IsPermutation perm n) {a b c : Nat}
    (ha : perm[a]? = some c) (hb : perm[b]? = some c) : a = b := by
  have hnd : perm.Nodup := (List.Perm.nodup_iff h).2 (List.nodup_range n)
  obtain ⟨hal, _⟩ := List.getElem?_eq_some.1 ha
  exact List.getElem?_inj hal hnd (ha.trans hb.symm)

theorem nxt_eq {perm : List Nat} {x y : Nat} (hxy : perm[x]? = some y) : nxt perm x = y := by
  simp [nxt, hxy]

theorem nxt_injective {perm : List Nat} {n : Nat} (h : IsPermutation perm n) :
    Function.Injective (nxt perm) := by
  intro a b hab
  by_cases ha : a < n
  · obtain ⟨a', ha', ha'n⟩ := perm_get h ha
    by_cases hb : b < n
    · obtain ⟨b', hb', _⟩ := perm_get h hb
      rw [nxt_eq ha', nxt_eq hb'] at hab
      subst hab
      exact perm_inj h ha' hb'
    · have : perm[b]? = none := List.getElem?_eq_none (by rw [perm_length h]; omega)
      rw [nxt_eq ha'] at hab
      simp [nxt, this] at hab
      omega
  · have hna : perm[a]? = none := List.getElem?_eq_none (by rw [perm_length h]; omega)
    by_cases hb : b < n
    · obtain ⟨b', hb', hb'n⟩ := perm_get h hb
      rw [nxt_eq hb'] at hab
      simp [nxt, hna] at hab
      omega
    · have : perm[b]? = none := List.getElem?_eq_none (by rw [perm_length h]; omega)
      simpa [nxt, hna, this] using hab

theorem nxt_iterate_lt {perm : List Nat} {n : Nat} (h : IsPermutation perm n) {x : Nat}
    (hx : x < n) (k : Nat) : (nxt perm)^[k] x < n := by
  induction k with
  | zero => simpa using hx
  | succ k ih =>
    rw [Function.iterate_succ_apply']
    obtain ⟨y, hy, hyn⟩ := perm_get h ih
    rw [nxt_eq hy]; exact hyn

/-- Every node of `[0, n)` returns to itself after at most `n` steps of a permutation. -/
theorem exists_period {perm : List Nat} {n : Nat} (h : IsPermutation perm n) {x : Nat}
    (hx : x < n) : ∃ P, 1 ≤ P ∧ P ≤ n ∧ (nxt perm)^[P] x = x := by
  have hcard : (Finset.range n).card < (Finset.range (n + 1)).card := by simp
  obtain ⟨a, ha, b, hb, hab, hfab⟩ :=
    Finset.exists_ne_map_eq_of_card_lt_of_maps_to hcard
      (f := fun k => (nxt perm)^[k] x)
      (fun k _ => Finset.mem_range.2 (nxt_iterate_lt h hx k))
  simp only [Finset.mem_range] at ha hb
  have main : ∀ a b : Nat, a < b → b < n + 1 → (nxt perm)^[a] x = (nxt perm)^[b] x →
      ∃ P, 1 ≤ P ∧ P ≤ n ∧ (nxt perm)^[P] x = x := by
    intro a b hlt hbn heq
    refine ⟨b - a, by omega, by omega, ?_⟩
    have hb' : b = a + (b - a) := by omega
    rw [hb', Function.iterate_add_apply] at heq
    exact ((nxt_injective h).iterate a heq).symm
  rcases Nat.lt_or_gt_of_ne hab with hlt | hgt
  · exact main a b hlt hb hfab
  · exact main b a hgt ha hfab.symm

/-! ### The colouring of one node -/

theorem colorNode_cases (oid : Int) (n j : Nat) (g : List Int) (hlen : g.length = n)
    (hj : j < n) :
    ∃ v, g[j]? = some v ∧
      ((v < 0 ∧ colorNode oid n j g = some (g.set j oid)) ∨
       (0 ≤ v ∧ v = oid ∧ colorNode oid n j g = some g) ∨
       (0 ≤ v ∧ v ≠ oid ∧ colorNode oid n j g = some (g.map (relabelFn v oid)))) := by
  have hg : g[j]? = some g[j] := List.getElem?_eq_getElem (by omega)
  refine ⟨g[j], hg, ?_⟩
  by_cases h1 : g[j] < 0
  · left; exact ⟨h1, by simp [colorNode, hg, h1]⟩
  · by_cases h2 : g[j] = oid
    · right; left
      refine ⟨by omega, h2, ?_⟩
      simp only [colorNode, hg]
      rw [if_neg h1, if_pos h2]
    · right; right
      refine ⟨by omega, h2, ?_⟩
      simp only [colorNode, hg, h1, h2, if_false]
      exact relabel_eq _ _ _ _ hlen

theorem link_set_neg {g : List Int} {j : Nat} {v w : Int} (hj : g[j]? = some v) (hv : v < 0)
    {x y : Nat} (h : Link g x y) : Link (g.set j w) x y := by
  obtain ⟨u, hu, hx, hy⟩ := h
  have hxj : j ≠ x := by
    rintro rfl; rw [hj] at hx; injection hx with hx; omega
  have hyj : j ≠ y := by
    rintro rfl; rw [hj] at hy; injection hy with hy; omega
  exact ⟨u, hu, by rw [List.getElem?_set_ne hxj]; exact hx,
    by rw [List.getElem?_set_ne hyj]; exact hy⟩

theorem link_map_relabel {g : List Int} (old_oid : Int) {oid : Int} (ho : 0 ≤ oid)
    {x y : Nat} (h : Link g x y) : Link (g.map (relabelFn old_oid oid)) x y := by
  obtain ⟨u, hu, hx, hy⟩ := h
  refine ⟨relabelFn old_oid oid u, ?_, by simp [hx], by simp [hy]⟩
  unfold relabelFn; split <;> assumption

theorem colorNode_length {oid : Int} {n j : Nat} {g g' : List Int} (hlen : g.length = n)
    (hj : j < n) (h : colorNode oid n j g = some g') : g'.length = n := by
  obtain ⟨v, _, h1 | h1 | h1⟩ := colorNode_cases oid n j g hlen hj
  · rw [h1.2] at h; injection h with h; subst h; simpa using hlen
  · rw [h1.2.2] at h; injection h with h; subst h; exact hlen
  · rw [h1.2.2] at h; injection h with h; subst h; simpa using hlen

theorem colorNode_self {oid : Int} {n j : Nat} {g g' : List Int} (hlen : g.length = n)
    (hj : j < n) (h : colorNode oid n j g = some g') : g'[j]? = some oid := by
  obtain ⟨v, hv, h1 | h1 | h1⟩ := colorNode_cases oid n j g hlen hj
  · rw [h1.2] at h; injection h with h; subst h
    simp [List.getElem?_set, hlen, hj]
  · rw [h1.2.2] at h; injection h with h; subst h; rw [hv, h1.2.1]
  · rw [h1.2.2] at h; injection h with h; subst h
    simp [hv, relabelFn]

theorem colorNode_keep {oid : Int} {n j : Nat} {g g' : List Int} (hlen : g.length = n)
    (hj : j < n) (ho : 0 ≤ oid) (h : colorNode oid n j g = some g') {x : Nat}
    (hx : g[x]? = some oid) : g'[x]? = some oid := by
  obtain ⟨v, hv, h1 | h1 | h1⟩ := colorNode_cases oid n j g hlen hj
  · rw [h1.2] at h; injection h with h; subst h
    have hxj : j ≠ x := by
      rintro rfl; rw [hv] at hx; injection hx with hx; omega
    rw [List.getElem?_set_ne hxj]; exact hx
  · rw [h1.2.2] at h; injection h with h; subst h; exact hx
  · rw [h1.2.2] at h; injection h with h; subst h
    simp [hx, relabelFn]

theorem colorNode_link {oid : Int} {n j : Nat} {g g' : List Int} (hlen : g.length = n)
    (hj : j < n) (ho : 0 ≤ oid) (h : colorNode oid n j g = some g') {x y : Nat}
    (hxy : Link g x y) : Link g' x y := by
  obtain ⟨v, hv, h1 | h1 | h1⟩ := colorNode_cases oid n j g hlen hj
  · rw [h1.2] at h; injection h with h; subst h
    exact link_set_neg hv h1.1 hxy
  · rw [h1.2.2] at h; injection h with h; subst h; exact hxy
  · rw [h1.2.2] at h; injection h with h; subst h
    exact link_map_relabel v ho hxy

theorem link_of_eq {g : List Int} {v : Int} (hv : 0 ≤ v) {x y : Nat}
    (hx : g[x]? = some v) (hy : g[y]? = some v) : Link g x y :=
  ⟨v, hv, hx, hy⟩

theorem link_left {g : List Int} {v : Int} {x y : Nat}
    (h : Link g x y) (hy : g[y]? = some v) : g[x]? = some v := by
  obtain ⟨u, _, hx, hy'⟩ := h
  rw [hy'] at hy; rw [hx, hy]

theorem touched_set_keep {t : List Bool} {j x : Nat} (h : t[x]? = some true) :
    (t.set j true)[x]? = some true := by
  rw [List.getElem?_set]
  split
  · rename_i hjx
    subst hjx
    obtain ⟨hl, _⟩ := List.getElem?_eq_some.1 h
    simp [hl]
  · exact h

theorem touched_set_self {t : List Bool} {j : Nat} (h : j < t.length) :
    (t.set j true)[j]? = some true := by
  simp [List.getElem?_set, h]

theorem touched_set_inv {t : List Bool} {j x : Nat} (h : (t.set j true)[x]? = some true) :
    x = j ∨ t[x]? = some true := by
  by_cases hx : j = x
  · left; exact hx.symm
  · right; rwa [List.getElem?_set_ne hx] at h

/-! ### Invariants of the cycle walk -/

theorem walkStep_inv {perm : List Nat} {n : Nat} (hperm : IsPermutation perm n)
    {I : List Int → Prop} (hI : Preserved perm n I) {i : Nat} {oid : Int} {s : OrbState}
    {j : Nat} (h : WalkInv perm n I i oid s j) :
    ∃ s1 j', walkStep oid perm n j s = some (s1, j') ∧ perm[j]? = some j' ∧
      WalkInv perm n I i oid s1 j' ∧
      (∀ i', perm[i]? = some i' → s1.global_orbit[i']? = some oid) ∧
      (∀ x : Nat, s.touched[x]? = some true → s1.touched[x]? = some true) := by
  obtain ⟨y, hyj, hyne, hyt, hyg⟩ := h.prev
  obtain ⟨j', hj', hj'n⟩ := perm_get hperm h.jlt
  have hcn : ∃ g', colorNode oid n j s.global_orbit = some g' := by
    obtain ⟨v, _, h1 | h1 | h1⟩ := colorNode_cases oid n j s.global_orbit h.glen h.jlt
    · exact ⟨_, h1.2⟩
    · exact ⟨_, h1.2.2⟩
    · exact ⟨_, h1.2.2⟩
  obtain ⟨g', hg'⟩ := hcn
  have hlen' := colorNode_length h.glen h.jlt hg'
  have hself := colorNode_self h.glen h.jlt hg'
  have hkeep := fun (x : Nat) hx => colorNode_keep (x := x) h.glen h.jlt h.oid_nonneg hg' hx
  have hlink := fun (x y : Nat) hxy => colorNode_link (x := x) (y := y) h.glen h.jlt h.oid_nonneg hg' hxy
  have hjt : j < s.touched.length := by rw [h.tlen]; exact h.jlt
  have hjj' : j ≠ j' := by
    intro e
    rw [← e] at hj'
    exact hyne (perm_inj hperm hyj hj')
  have hfirst : ∀ i', perm[i]? = some i' → g'[i']? = some oid := by
    intro i' hi'
    obtain ⟨i2, hi2, hor⟩ := h.first
    rw [hi'] at hi2; injection hi2 with hi2; subst hi2
    rcases hor with e | e
    · rw [← e]; exact hself
    · exact hkeep _ e
  refine ⟨⟨g', s.touched.set j true⟩, j', ?_, hj', ?_, hfirst, fun x hx => touched_set_keep hx⟩
  · simp [walkStep, hg', hjt, hj']
  · refine
      { glen := hlen'
        tlen := by simpa using h.tlen
        inv := hI.color _ _ _ _ _ h.glen h.jlt h.oid_nonneg hyj hyne hyg hg' h.inv
        jlt := hj'n
        oid_nonneg := h.oid_nonneg
        gi := hkeep _ h.gi
        ti := touched_set_keep h.ti
        prev := ⟨j, hj', hjj', touched_set_self hjt, hself⟩
        first := ?_
        tied := ?_
        tiedStart := ?_ }
    · obtain ⟨i', hi', _⟩ := h.first
      exact ⟨i', hi', Or.inr (hfirst i' hi')⟩
    · intro x x' hxt hxx' hx'j' hx'i
      rcases touched_set_inv hxt with e | hxt'
      · subst e
        rw [hj'] at hxx'; injection hxx' with hxx'
        exact absurd hxx'.symm hx'j'
      · by_cases hx'j : x' = j
        · subst hx'j
          have hxy : x = y := perm_inj hperm hxx' hyj
          subst hxy
          constructor
          · intro _
            exact link_of_eq h.oid_nonneg (hkeep _ hyg) hself
          · intro hf
            simp only [OrbState.touched] at hf
            rw [touched_set_self hjt] at hf
            cases hf
        · obtain ⟨t1, t2⟩ := h.tied x x' hxt' hxx' hx'j hx'i
          have hset : (s.touched.set j true)[x']? = s.touched[x']? :=
            List.getElem?_set_ne (fun e => hx'j e.symm)
          constructor
          · intro ht
            simp only [OrbState.touched] at ht
            rw [hset] at ht
            exact hlink _ _ (t1 ht)
          · intro ht x2 hx2
            simp only [OrbState.touched] at ht
            rw [hset] at ht
            exact hlink _ _ (t2 ht x2 hx2)
    · intro x hxt hxi
      rcases touched_set_inv hxt with e | hxt'
      · subst e
        left; exact hself
      · rcases h.tiedStart x hxt' hxi with e | ⟨i', hi', hl⟩
        · left; exact hkeep _ e
        · right; exact ⟨i', hi', hlink _ _ hl⟩

theorem walk_exit {perm : List Nat} {n : Nat} (hperm : IsPermutation perm n)
    {I : List Int → Prop} {i : Nat} {oid : Int} {s : OrbState} {j : Nat}
    (h : WalkInv perm n I i oid s j)
    (hfirst : ∀ i', perm[i]? = some i' → s.global_orbit[i']? = some oid)
    (hexit : perm[j]? = some i) : AllTied perm s := by
  obtain ⟨y, hyj, hyne, hyt, hyg⟩ := h.prev
  have hstart : ∀ x : Nat, s.touched[x]? = some true → perm[x]? = some i →
      s.global_orbit[x]? = some oid := by
    intro x hxt hxi
    rcases h.tiedStart x hxt hxi with e | ⟨i', hi', hl⟩
    · exact e
    · exact link_left hl (hfirst i' hi')
  intro x x' hxt hxx'
  by_cases hx'j : x' = j
  · subst hx'j
    have hxy : x = y := perm_inj hperm hxx' hyj
    subst hxy
    constructor
    · intro ht
      exact link_of_eq h.oid_nonneg hyg (hstart _ ht hexit)
    · intro _ x2 hx2
      rw [hexit] at hx2; injection hx2 with hx2; subst hx2
      exact link_of_eq h.oid_nonneg hyg h.gi
  · by_cases hx'i : x' = i
    · subst hx'i
      constructor
      · intro _
        exact link_of_eq h.oid_nonneg (hstart _ hxt hxx') h.gi
      · intro hf
        rw [h.ti] at hf; cases hf
    · exact h.tied x x' hxt hxx' hx'j hx'i

theorem walk_spec {perm : List Nat} {n : Nat} (hperm : IsPermutation perm n)
    {I : List Int → Prop} (hI : Preserved perm n I) {i : Nat} {oid : Int} :
    ∀ (k fuel j : Nat) (s : OrbState), k + 1 ≤ fuel → WalkInv perm n I i oid s j →
      (nxt perm)^[k + 2] j = i →
      ∃ s', walk oid perm n i fuel j s = some s' ∧ WalkPost perm n I s s' := by
  intro k
  induction k with
  | zero =>
    intro fuel j s hf h hk
    obtain ⟨s1, j', hstep, hj', h1, hfirst, hmono⟩ := walkStep_inv hperm hI h
    obtain ⟨f, rfl⟩ : ∃ f, fuel = f + 1 := ⟨fuel - 1, by omega⟩
    obtain ⟨pj, hpj, _⟩ := perm_get hperm h1.jlt
    have hpji : pj = i := by
      rw [Function.iterate_succ_apply, Function.iterate_succ_apply, nxt_eq hj',
        nxt_eq hpj] at hk
      simpa using hk
    subst hpji
    refine ⟨s1, by simp [walk, hstep, hpj], ?_⟩
    exact ⟨h1.glen, h1.tlen, h1.inv, walk_exit hperm h1 hfirst hpj, hmono⟩
  | succ k ih =>
    intro fuel j s hf h hk
    obtain ⟨s1, j', hstep, hj', h1, hfirst, hmono⟩ := walkStep_inv hperm hI h
    obtain ⟨f, rfl⟩ : ∃ f, fuel = f + 1 := ⟨fuel - 1, by omega⟩
    obtain ⟨pj, hpj, _⟩ := perm_get hperm h1.jlt
    by_cases hpji : pj = i
    · subst hpji
      refine ⟨s1, by simp [walk, hstep, hpj], ?_⟩
      exact ⟨h1.glen, h1.tlen, h1.inv, walk_exit hperm h1 hfirst hpj, hmono⟩
    · have hk' : (nxt perm)^[k + 2] j' = i := by
        rw [Function.iterate_succ_apply, nxt_eq hj'] at hk
        exact hk
      obtain ⟨s', hs', hpost⟩ := ih f j' s1 (by omega) h1 hk'
      refine ⟨s', by simp [walk, hstep, hpj, hpji, hs'], ?_⟩
      exact ⟨hpost.glen, hpost.tlen, hpost.inv, hpost.tied,
        fun x hx => hpost.mono x (hmono x hx)⟩

/-! ### The outer loop -/

theorem walk_start {perm : List Nat} {n : Nat} (hperm : IsPermutation perm n)
    {I : List Int → Prop} {idx pi : Nat} {s : OrbState} (h : OuterInv perm n I idx s)
    (hpi : perm[idx]? = some pi) (hne : pi ≠ idx) (ht : s.touched[idx]? = some false)
    {g0 : List Int} {oid : Int} (hg0len : g0.length = n) (hg0I : I g0)
    (hg0 : g0[idx]? = some oid) (ho : 0 ≤ oid)
    (hmono : ∀ x y : Nat, Link s.global_orbit x y → Link g0 x y) :
    WalkInv perm n I idx oid ⟨g0, s.touched.set idx true⟩ pi := by
  have hidx : idx < n := perm_dom hperm hpi
  have hit : idx < s.touched.length := by rw [h.tlen]; exact hidx
  refine
    { glen := hg0len
      tlen := by simpa using h.tlen
      inv := hg0I
      jlt := perm_lt hperm hpi
      oid_nonneg := ho
      gi := hg0
      ti := touched_set_self hit
      prev := ⟨idx, hpi, fun e => hne e.symm, touched_set_self hit, hg0⟩
      first := ⟨pi, hpi, Or.inl rfl⟩
      tied := ?_
      tiedStart := ?_ }
  · intro x x' hxt hxx' hx'pi hx'i
    rcases touched_set_inv hxt with e | hxt'
    · subst e
      rw [hpi] at hxx'; injection hxx' with hxx'
      exact absurd hxx'.symm hx'pi
    · obtain ⟨t1, t2⟩ := h.tied x x' hxt' hxx'
      have hset : (s.touched.set idx true)[x']? = s.touched[x']? :=
        List.getElem?_set_ne (fun e => hx'i e.symm)
      constructor
      · intro ht'
        simp only [OrbState.touched] at ht'
        rw [hset] at ht'
        exact hmono _ _ (t1 ht')
      · intro ht' x2 hx2
        simp only [OrbState.touched] at ht'
        rw [hset] at ht'
        exact hmono _ _ (t2 ht' x2 hx2)
  · intro x hxt hxi
    rcases touched_set_inv hxt with e | hxt'
    · subst e
      rw [hpi] at hxi; injection hxi with hxi
      exact absurd hxi hne
    · right
      exact ⟨pi, hpi, hmono _ _ ((h.tied x idx hxt' hxi).2 ht pi hpi)⟩

theorem walk_fuel {perm : List Nat} {n : Nat} (hperm : IsPermutation perm n) {idx pi : Nat}
    (hpi : perm[idx]? = some pi) (hne : pi ≠ idx) :
    ∃ k, k + 1 ≤ n ∧ (nxt perm)^[k + 2] pi = idx := by
  obtain ⟨P, hP1, hPn, hP⟩ := exists_period hperm (perm_dom hperm hpi)
  have hnx : nxt perm idx = pi := nxt_eq hpi
  have hP2 : 2 ≤ P := by
    rcases Nat.lt_or_ge P 2 with h | h
    · have : P = 1 := by omega
      subst this
      simp only [Function.iterate_one] at hP
      rw [hnx] at hP
      exact absurd hP hne
    · exact h
  rcases Nat.lt_or_ge P 3 with h | h
  · have : P = 2 := by omega
    subst this
    refine ⟨1, by omega, ?_⟩
    rw [← hnx, ← Function.iterate_succ_apply]
    have : (nxt perm)^[Nat.succ (1 + 2)] idx = (nxt perm)^[2] ((nxt perm)^[2] idx) := by
      rw [← Function.iterate_add_apply]
    rw [this, hP, hP]
  · refine ⟨P - 3, by omega, ?_⟩
    rw [← hnx, ← Function.iterate_succ_apply]
    have : Nat.succ (P - 3 + 2) = P := by omega
    rw [this, hP]

theorem visit_inv {perm : List Nat} {n : Nat} (hperm : IsPermutation perm n)
    {I : List Int → Prop} (hI : Preserved perm n I) {fuel : Nat} (hf : n ≤ fuel)
    {idx : Nat} {s : OrbState} (h : OuterInv perm n I idx s) (hidx : idx < n) :
    ∃ s', visit fuel perm n idx s = some s' ∧ OuterInv perm n I (idx + 1) s' := by
  obtain ⟨pi, hpi, hpin⟩ := perm_get hperm hidx
  have hskip : (∀ x', perm[idx]? = some x' → x' ≠ idx → s.touched[idx]? = some true) →
      OuterInv perm n I (idx + 1) s := by
    intro hd
    refine ⟨h.glen, h.tlen, h.inv, h.tied, ?_⟩
    intro x x' hx hxx' hne
    rcases Nat.lt_or_ge x idx with hlt | hge
    · exact h.done x x' hlt hxx' hne
    · have : x = idx := by omega
      subst this
      exact hd x' hxx' hne
  by_cases hfix : pi = idx
  · refine ⟨s, by simp [visit, hpi, hfix], hskip ?_⟩
    intro x' hx' hne
    rw [hpi] at hx'; injection hx' with hx'
    exact absurd (hx'.symm.trans hfix) hne
  · have hit : idx < s.touched.length := by rw [h.tlen]; exact hidx
    have htv : s.touched[idx]? = some s.touched[idx] := List.getElem?_eq_getElem hit
    cases hb : s.touched[idx] with
    | true =>
      rw [hb] at htv
      exact ⟨s, by simp [visit, hpi, hfix, htv], hskip (fun _ _ _ => htv)⟩
    | false =>
      rw [hb] at htv
      have hig : idx < s.global_orbit.length := by rw [h.glen]; exact hidx
      have hgv : s.global_orbit[idx]? = some s.global_orbit[idx] :=
        List.getElem?_eq_getElem hig
      obtain ⟨k, hk, hkit⟩ := walk_fuel hperm hpi hfix
      have finish : ∀ (g0 : List Int) (oid : Int),
          WalkInv perm n I idx oid ⟨g0, s.touched.set idx true⟩ pi →
          ∃ s', walk oid perm n idx fuel pi ⟨g0, s.touched.set idx true⟩ = some s' ∧
            OuterInv perm n I (idx + 1) s' := by
        intro g0 oid hw
        obtain ⟨s', hs', hpost⟩ := walk_spec hperm hI k fuel pi _ (by omega) hw hkit
        refine ⟨s', hs', hpost.glen, hpost.tlen, hpost.inv, hpost.tied, ?_⟩
        intro x x' hx hxx' hne
        apply hpost.mono
        rcases Nat.lt_or_ge x idx with hlt | hge
        · exact touched_set_keep (h.done x x' hlt hxx' hne)
        · have : x = idx := by omega
          subst this
          exact touched_set_self hit
      by_cases hneg : 0 ≤ s.global_orbit[idx]
      · obtain ⟨s', hs', hinv⟩ := finish s.global_orbit s.global_orbit[idx]
          (walk_start hperm h hpi hfix htv h.glen h.inv hgv hneg (fun _ _ hl => hl))
        exact ⟨s', by simp [visit, hpi, hfix, htv, hgv, hneg, hs'], hinv⟩
      · have hlt : s.global_orbit[idx] < 0 := by omega
        obtain ⟨s', hs', hinv⟩ := finish (s.global_orbit.set idx (idx : Int)) (idx : Int)
          (walk_start hperm h hpi hfix htv (by simpa using h.glen)
            (hI.mint _ _ _ _ h.glen hpi hfix hgv hlt h.inv)
            (by simp [List.getElem?_set, hig]) (by omega)
            (fun _ _ hl => link_set_neg hgv hlt hl))
        exact ⟨s', by simp [visit, hpi, hfix, htv, hgv, hneg, hs'], hinv⟩

/-- The main fact about `update_orbits` on a permutation: with fuel `n` it returns, keeps
the length and every preserved property, and afterwards every moved node shares a
non-negative id with its image. -/
theorem update_orbits_spec {perm : List Nat} {n : Nat} (hperm : IsPermutation perm n)
    {I : List Int → Prop} (hI : Preserved perm n I) {fuel : Nat} (hf : n ≤ fuel)
    {p : List Int} (hp : p.length = n) (hIp : I p) :
    ∃ p', update_orbits fuel p perm n = some p' ∧ p'.length = n ∧ I p' ∧
      ∀ x x' : Nat, perm[x]? = some x' → x' ≠ x → Link p' x x' := by
  have h0 : OuterInv perm n I 0 ⟨p, List.replicate n false⟩ := by
    refine ⟨hp, by simp, hIp, ?_, ?_⟩
    · intro x x' hx
      simp only [OrbState.touched] at hx
      rw [List.getElem?_replicate] at hx
      split at hx <;> cases hx
    · intro x x' hx; omega
  obtain ⟨s', hs', hinv⟩ := forLoop_inv (visit fuel perm n) (OuterInv perm n I) n 0 _ h0
    (fun k t _ hk hkt => visit_inv hperm hI hf hkt (by omega))
  refine ⟨s'.global_orbit, by simp [update_orbits, hs'], hinv.glen, hinv.inv, ?_⟩
  intro x x' hxx' hne
  have hxn : x < 0 + n := by have := perm_dom hperm hxx'; omega
  have hx'n : x' < 0 + n := by have := perm_lt hperm hxx'; omega
  obtain ⟨x2, hx2, _⟩ := perm_get hperm (show x' < n by omega)
  have hne' : x2 ≠ x' := by
    intro e; subst e
    exact hne (perm_inj hperm hx2 hxx')
  have htx := hinv.done x x' hxn hxx' hne
  have htx' := hinv.done x' x2 hx'n hx2 hne'
  exact (hinv.tied x x' htx hxx').1 htx'

/-! ### Properties kept by every write -/

theorem Preserved.and {perm : List Nat} {n : Nat} {I J : List Int → Prop}
    (hI : Preserved perm n I) (hJ : Preserved perm n J) :
    Preserved perm n (fun g => I g ∧ J g) where
  mint := fun g i i' v hl hp hne hg hv h =>
    ⟨hI.mint g i i' v hl hp hne hg hv h.1, hJ.mint g i i' v hl hp hne hg hv h.2⟩
  color := fun g g' oid j y hl hj ho hp hne hg hc h =>
    ⟨hI.color g g' oid j y hl hj ho hp hne hg hc h.1,
      hJ.color g g' oid j y hl hj ho hp hne hg hc h.2⟩

/-- Links are never removed. -/
theorem preserved_link (perm : List Nat) (n : Nat) (p : List Int) :
    Preserved perm n (fun g => ∀ x y : Nat, Link p x y → Link g x y) where
  mint := fun _ _ _ _ _ _ _ hg hv h x y hxy => link_set_neg hg hv (h x y hxy)
  color := fun _ _ _ _ _ hl hj ho _ _ _ hc h x y hxy => colorNode_link hl hj ho hc (h x y hxy)

theorem repInv_set {g : List Int} {i : Nat} {v w : Int} (hr : RepInv g)
    (hi : g[i]? = some v) (hv : v < 0) (hw : 0 ≤ w)
    (hww : w.toNat = i ∨ g[w.toNat]? = some w) : RepInv (g.set i w) := by
  have hil : i < g.length := (List.getElem?_eq_some.1 hi).1
  have hself : (g.set i w)[i]? = some w := by simp [List.getElem?_set, hil]
  have hwn : (g.set i w)[w.toNat]? = some w := by
    rcases hww with e | e
    · rw [e]; exact hself
    · by_cases c : i = w.toNat
      · rw [← c]; exact hself
      · rw [List.getElem?_set_ne c]; exact e
  intro k u hk
  by_cases hki : i = k
  · subst hki
    rw [hself] at hk; injection hk with hk; subst hk
    exact Or.inr ⟨hw, hwn⟩
  · rw [List.getElem?_set_ne hki] at hk
    rcases hr k u hk with e | ⟨hu, e⟩
    · exact Or.inl e
    · refine Or.inr ⟨hu, ?_⟩
      have : i ≠ u.toNat := by
        intro c
        rw [← c, hi] at e; injection e with e; omega
      rw [List.getElem?_set_ne this]; exact e

theorem link_set_cases {g : List Int} {i : Nat} {w : Int} {x y : Nat}
    (h : Link (g.set i w) x y) :
    Link g x y ∨ (x = i ∧ y = i) ∨ (x = i ∧ y ≠ i ∧ g[y]? = some w) ∨
      (y = i ∧ x ≠ i ∧ g[x]? = some w) := by
  obtain ⟨u, hu, hx, hy⟩ := h
  by_cases hxi : i = x
  · by_cases hyi : i = y
    · right; left; exact ⟨hxi.symm, hyi.symm⟩
    · right; right; left
      rw [List.getElem?_set_ne hyi] at hy
      refine ⟨hxi.symm, fun e => hyi e.symm, ?_⟩
      subst hxi
      have hil : i < g.length := by
        by_contra c
        rw [List.getElem?_eq_none (by simp; omega)] at hx; cases hx
      rw [List.getElem?_set, if_pos rfl, if_pos hil] at hx
      injection hx with hx; rw [hx]; exact hy
  · rw [List.getElem?_set_ne hxi] at hx
    by_cases hyi : i = y
    · right; right; right
      refine ⟨hyi.symm, fun e => hxi e.symm, ?_⟩
      subst hyi
      have hil : i < g.length := by
        by_contra c
        rw [List.getElem?_eq_none (by simp; omega)] at hy; cases hy
      rw [List.getElem?_set, if_pos rfl, if_pos hil] at hy
      injection hy with hy; rw [hy]; exact hx
    · left
      rw [List.getElem?_set_ne hyi] at hy
      exact ⟨u, hu, hx, hy⟩

theorem preserved_sound {perm : List Nat} {n : Nat} {E : Nat → Nat → Prop}
    (hE : Equivalence E) (hstep : ∀ a b : Nat, perm[a]? = some b → E a b) :
    Preserved perm n (SoundFor E) where
  mint := by
    intro g i i' v hl hp hne hg hv ⟨hr, hs⟩
    have hnone : ∀ y : Nat, g[y]? = some (i : Int) → False := by
      intro y hy
      rcases hr y _ hy with e | ⟨_, e⟩
      · omega
      · rw [Int.toNat_ofNat, hg] at e; injection e with e; omega
    refine ⟨repInv_set hr hg hv (by omega) (Or.inl (Int.toNat_ofNat i)), ?_⟩
    intro x y hxy
    rcases link_set_cases hxy with h | ⟨rfl, rfl⟩ | ⟨_, _, h⟩ | ⟨_, _, h⟩
    · exact hs x y h
    · exact hE.refl _
    · exact (hnone y h).elim
    · exact (hnone x h).elim
  color := by
    intro g g' oid j y hl hj ho hp hne hg hc ⟨hr, hs⟩
    have hoo : g[oid.toNat]? = some oid := by
      rcases hr y oid hg with e | ⟨_, e⟩
      · omega
      · exact e
    have hyj : E y j := hstep y j hp
    obtain ⟨v, hv, h1 | h1 | h1⟩ := colorNode_cases oid n j g hl hj
    · rw [h1.2] at hc; injection hc with hc; subst hc
      refine ⟨repInv_set hr hv h1.1 ho (Or.inr hoo), ?_⟩
      intro a b hab
      rcases link_set_cases hab with h | ⟨rfl, rfl⟩ | ⟨rfl, _, h⟩ | ⟨rfl, _, h⟩
      · exact hs a b h
      · exact hE.refl _
      · exact hE.trans (hE.symm hyj) (hs y b (link_of_eq ho hg h))
      · exact hE.trans (hs a y (link_of_eq ho h hg)) hyj
    · rw [h1.2.2] at hc; injection hc with hc; subst hc
      exact ⟨hr, hs⟩
    · rw [h1.2.2] at hc; injection hc with hc; subst hc
      obtain ⟨hv0, hvo, _⟩ := h1
      have hfo : relabelFn v oid oid = oid := by
        unfold relabelFn; rw [if_neg (fun e => hvo e.symm)]
      constructor
      · intro k u hk
        rw [List.getElem?_map] at hk
        cases hgk : g[k]? with
        | none => rw [hgk] at hk; cases hk
        | some w =>
          rw [hgk] at hk
          simp only [Option.map_some'] at hk
          injection hk with hk
          by_cases hwv : w = v
          · have : u = oid := by rw [← hk]; unfold relabelFn; rw [if_pos hwv]
            subst this
            refine Or.inr ⟨ho, ?_⟩
            rw [List.getElem?_map, hoo]; simp [hfo]
          · have : u = w := by rw [← hk]; unfold relabelFn; rw [if_neg hwv]
            subst this
            rcases hr k u hgk with e | ⟨hu, e⟩
            · exact Or.inl e
            · refine Or.inr ⟨hu, ?_⟩
              rw [List.getElem?_map, e]
              simp [relabelFn, hwv]
      · intro a b ⟨u, hu, ha, hb⟩
        rw [List.getElem?_map] at ha hb
        cases hga : g[a]? with
        | none => rw [hga] at ha; cases ha
        | some wa =>
          cases hgb : g[b]? with
          | none => rw [hgb] at hb; cases hb
          | some wb =>
            rw [hga] at ha; rw [hgb] at hb
            simp only [Option.map_some'] at ha hb
            injection ha with ha; injection hb with hb
            have haj : wa = v → E a j := fun e => hs a j (link_of_eq hv0 (e ▸ hga) hv)
            have hbj : wb = v → E b j := fun e => hs b j (link_of_eq hv0 (e ▸ hgb) hv)
            have hay : wa = oid → E a y := fun e => hs a y (link_of_eq ho (e ▸ hga) hg)
            have hby : wb = oid → E b y := fun e => hs b y (link_of_eq ho (e ▸ hgb) hg)
            by_cases ca : wa = v
            · by_cases cb : wb = v
              · exact hE.trans (haj ca) (hE.symm (hbj cb))
              · have h1 : u = oid := by rw [← ha]; unfold relabelFn; rw [if_pos ca]
                have h2 : u = wb := by rw [← hb]; unfold relabelFn; rw [if_neg cb]
                exact hE.trans (haj ca) (hE.trans (hE.symm hyj) (hE.symm (hby (h2 ▸ h1))))
            · have h1 : u = wa := by rw [← ha]; unfold relabelFn; rw [if_neg ca]
              by_cases cb : wb = v
              · have h2 : u = oid := by rw [← hb]; unfold relabelFn; rw [if_pos cb]
                exact hE.trans (hay (h1 ▸ h2)) (hE.trans hyj (hE.symm (hbj cb)))
              · have h2 : u = wb := by rw [← hb]; unfold relabelFn; rw [if_neg cb]
                exact hs a b ⟨u, hu, h1 ▸ hga, h2 ▸ hgb⟩

/-! ### The relation recorded by the orbit array -/

theorem link_symm {g : List Int} {x y : Nat} (h : Link g x y) : Link g y x := by
  obtain ⟨v, hv, hx, hy⟩ := h
  exact ⟨v, hv, hy, hx⟩

theorem link_trans {g : List Int} {x y z : Nat} (h1 : Link g x y) (h2 : Link g y z) :
    Link g x z := by
  obtain ⟨v, hv, hx, hy⟩ := h1
  obtain ⟨w, _, hy', hz⟩ := h2
  rw [hy] at hy'; injection hy' with e; subst e
  exact ⟨v, hv, hx, hz⟩

theorem same_equivalence (g : List Int) : Equivalence (Same g) where
  refl := fun _ => Or.inl rfl
  symm := by
    rintro x y (h | h)
    · exact Or.inl h.symm
    · exact Or.inr (link_symm h)
  trans := by
    rintro x y z (h1 | h1) (h2 | h2)
    · exact Or.inl (h1.trans h2)
    · subst h1; exact Or.inr h2
    · subst h2; exact Or.inr h1
    · exact Or.inr (link_trans h1 h2)

/-- One call of `update_orbits` joins the recorded relation with the cycles of `perm`. -/
theorem update_orbits_same {perm : List Nat} {n : Nat} (hperm : IsPermutation perm n)
    {fuel : Nat} (hf : n ≤ fuel) {p : List Int} (hp : p.length = n) (hr : RepInv p) :
    ∃ p', update_orbits fuel p perm n = some p' ∧ p'.length = n ∧ RepInv p' ∧
      ∀ x y : Nat, Same p' x y ↔
        Relation.EqvGen (fun a b => Same p a b ∨ Moves perm a b) x y := by
  have hE : Equivalence (Relation.EqvGen (fun a b => Same p a b ∨ Moves perm a b)) :=
    Relation.EqvGen.is_equivalence _
  have hpres := (preserved_link perm n p).and
    (@preserved_sound perm n _ hE
      (fun a b hab => Relation.EqvGen.rel _ _ (Or.inr hab)))
  obtain ⟨p', hp', hlen, ⟨hmono, hrep, hsound⟩, hmoved⟩ :=
    update_orbits_spec hperm hpres hf hp
      ⟨fun _ _ h => h, hr, fun x y h => Relation.EqvGen.rel _ _ (Or.inl (Or.inr h))⟩
  refine ⟨p', hp', hlen, hrep, ?_⟩
  intro x y
  constructor
  · rintro (h | h)
    · subst h; exact Relation.EqvGen.refl _
    · exact hsound x y h
  · intro h
    induction h with
    | rel a b hab =>
      rcases hab with (e | hl) | hm
      · exact Or.inl e
      · exact Or.inr (hmono a b hl)
      · by_cases e : b = a
        · exact Or.inl e.symm
        · exact Or.inr (hmoved a b hm e)
    | refl a => exact Or.inl rfl
    | symm a b _ ih => exact (same_equivalence p').symm ih
    | trans a b c _ _ ih1 ih2 => exact (same_equivalence p').trans ih1 ih2

/-- A sequence of `update_orbits` calls joins the recorded relation with the cycles of all
the generators. -/
theorem apply_generators_same {n fuel : Nat} (hf : n ≤ fuel) :
    ∀ (gens : List (List Nat)) (p : List Int), (∀ g ∈ gens, IsPermutation g n) →
      p.length = n → RepInv p →
      ∃ p', apply_generators fuel n gens p = some p' ∧ p'.length = n ∧ RepInv p' ∧
        ∀ x y : Nat, Same p' x y ↔
          Relation.EqvGen (fun a b => Same p a b ∨ ∃ g ∈ gens, Moves g a b) x y := by
  intro gens
  induction gens with
  | nil =>
    intro p _ hp hr
    refine ⟨p, rfl, hp, hr, ?_⟩
    intro x y
    constructor
    · intro h; exact Relation.EqvGen.rel _ _ (Or.inl h)
    · intro h
      induction h with
      | rel a b hab =>
        rcases hab with h | ⟨g, hg, _⟩
        · exact h
        · cases hg
      | refl a => exact Or.inl rfl
      | symm a b _ ih => exact (same_equivalence p).symm ih
      | trans a b c _ _ ih1 ih2 => exact (same_equivalence p).trans ih1 ih2
  | cons g gs ih =>
    intro p hg hp hr
    obtain ⟨p1, hp1, hlen1, hr1, hsame1⟩ :=
      update_orbits_same (hg g (List.mem_cons_self _ _)) hf hp hr
    obtain ⟨p', hp', hlen', hr', hsame'⟩ :=
      ih p1 (fun g' hg' => hg g' (List.mem_cons_of_mem _ hg')) hlen1 hr1
    refine ⟨p', by simp [apply_generators, hp1, hp'], hlen', hr', ?_⟩
    intro x y
    rw [hsame']
    constructor
    · intro h
      induction h with
      | rel a b hab =>
        rcases hab with h | ⟨g', hg', hm⟩
        · exact Relation.EqvGen.mono (fun a b hab => by
            rcases hab with h | h
            · exact Or.inl h
            · exact Or.inr ⟨g, List.mem_cons_self _ _, h⟩) ((hsame1 a b).1 h)
        · exact Relation.EqvGen.rel _ _ (Or.inr ⟨g', List.mem_cons_of_mem _ hg', hm⟩)
      | refl a => exact Relation.EqvGen.refl _
      | symm a b _ ih => exact Relation.EqvGen.symm _ _ ih
      | trans a b c _ _ ih1 ih2 => exact Relation.EqvGen.trans _ _ _ ih1 ih2
    · intro h
      induction h with
      | rel a b hab =>
        rcases hab with h | ⟨g', hg', hm⟩
        · exact Relation.EqvGen.rel _ _
            (Or.inl ((hsame1 a b).2 (Relation.EqvGen.rel _ _ (Or.inl h))))
        · rcases List.mem_cons.1 hg' with e | e
          · subst e
            exact Relation.EqvGen.rel _ _
              (Or.inl ((hsame1 a b).2 (Relation.EqvGen.rel _ _ (Or.inr hm))))
          · exact Relation.EqvGen.rel _ _ (Or.inr ⟨g', e, hm⟩)
      | refl a => exact Relation.EqvGen.refl _
      | symm a b _ ih => exact Relation.EqvGen.symm _ _ ih
      | trans a b c _ _ ih1 ih2 => exact Relation.EqvGen.trans _ _ _ ih1 ih2

/-! ### Finalisation -/

theorem finalize_eq {n : Nat} {g : List Int} (hlen : g.length = n) :
    ∃ r, finalize_orbits g n = some r ∧ r.length = n ∧
      ∀ k : Nat, r[k]? = (g[k]?).map (finalizeFn k) := by
  have key := forLoop_inv finalizeBody
    (fun k t => t.length = n ∧
      ∀ m : Nat, t[m]? = if m < k then (g[m]?).map (finalizeFn m) else g[m]?)
    n 0 g ⟨hlen, by intro m; simp⟩
    (by
      intro k t _ hk ⟨htl, ht⟩
      have hkn : k < n := by omega
      have hgk : t[k]? = g[k]? := by rw [ht k]; simp
      have hgk' : g[k]? = some g[k] := List.getElem?_eq_getElem (by omega)
      rw [hgk'] at hgk
      by_cases hv : g[k] < 0
      · refine ⟨t.set k (k : Int), by simp [finalizeBody, hgk, hv], by simpa using htl, ?_⟩
        intro m
        rw [List.getElem?_set]
        by_cases hm : k = m
        · subst hm
          simp [htl, hkn, hgk', finalizeFn, hv]
        · rw [if_neg hm, ht m]
          by_cases h1 : m < k
          · simp [h1, show m < k + 1 by omega]
          · simp [h1, show ¬ m < k + 1 by omega]
      · refine ⟨t, by simp [finalizeBody, hgk, hv], htl, ?_⟩
        intro m
        by_cases hm : k = m
        · subst hm
          rw [hgk]; simp [hgk', finalizeFn, hv]
        · rw [ht m]
          by_cases h1 : m < k
          · simp [h1, show m < k + 1 by omega]
          · simp [h1, show ¬ m < k + 1 by omega])
  obtain ⟨r, hr, hrl, hs⟩ := key
  refine ⟨r, hr, hrl, ?_⟩
  intro m
  rw [hs m]
  by_cases hm : m < 0 + n
  · simp only [hm, if_true]
  · simp only [hm, if_false]
    rw [List.getElem?_eq_none (by omega)]; rfl

theorem link_nonneg {g : List Int} {x y : Nat} {a : Int} (h : Link g x y)
    (hx : g[x]? = some a) : 0 ≤ a := by
  obtain ⟨v, hv, hx', _⟩ := h
  rw [hx] at hx'; injection hx' with e; omega

theorem finalize_same {n : Nat} {p r : List Int} (hp : p.length = n) (hr : RepInv p)
    (hfin : ∀ k : Nat, r[k]? = (p[k]?).map (finalizeFn k)) {x y : Nat}
    (hx : x < n) (hy : y < n) : r[x]? = r[y]? ↔ Same p x y := by
  have hpx : p[x]? = some p[x] := List.getElem?_eq_getElem (by omega)
  have hpy : p[y]? = some p[y] := List.getElem?_eq_getElem (by omega)
  rw [hfin x, hfin y, hpx, hpy]
  simp only [Option.map_some', Option.some.injEq]
  generalize p[x] = a at hpx
  generalize p[y] = b at hpy
  have hax := hr x a hpx
  have hby := hr y b hpy
  constructor
  · intro h
    by_cases ha : a < 0
    · by_cases hb : b < 0
      · left
        simp only [finalizeFn, ha, hb, if_true] at h
        exact_mod_cast h
      · exfalso
        simp only [finalizeFn, ha, hb, if_true, if_false] at h
        rcases hby with e | ⟨_, e⟩
        · omega
        · rw [← h, Int.toNat_ofNat, hpx] at e
          injection e with e; omega
    · by_cases hb : b < 0
      · exfalso
        simp only [finalizeFn, ha, hb, if_true, if_false] at h
        rcases hax with e | ⟨_, e⟩
        · omega
        · rw [h, Int.toNat_ofNat, hpy] at e
          injection e with e; omega
      · right
        simp only [finalizeFn, ha, hb, if_false] at h
        subst h
        exact ⟨a, by omega, hpx, hpy⟩
  · rintro (h | h)
    · subst h
      rw [hpx] at hpy; injection hpy with e; rw [e]
    · have h1 := link_nonneg h hpx
      have h2 := link_left h hpy
      rw [hpx] at h2; injection h2 with h2
      subst h2
      simp [finalizeFn, show ¬ a < 0 by omega]

theorem repInv_fresh (n : Nat) : RepInv (initialize_saucy_data n) := by
  intro k v hk
  unfold initialize_saucy_data at hk
  rw [List.getElem?_replicate] at hk
  split at hk
  · injection hk with hk; exact Or.inl hk.symm
  · cases hk

theorem same_fresh (n : Nat) (x y : Nat) : Same (initialize_saucy_data n) x y ↔ x = y := by
  constructor
  · rintro (h | ⟨v, hv, hx, _⟩)
    · exact h
    · unfold initialize_saucy_data at hx
      rw [List.getElem?_replicate] at hx
      split at hx
      · injection hx with hx; omega
      · cases hx
  · intro h; exact Or.inl h

/-! ### Cells of the graph arrays -/

theorem readCell_nat {a : List Int} {c : Nat} (hc : c < a.length) :
    readCell a (c : Int) = .ok (cellAt a c) := by
  simp [readCell, cellAt, List.getElem?_eq_getElem hc]

theorem writeCell_nat {α : Type} {a : List α} {c : Nat} (hc : c < a.length) (v : α) :
    writeCell a (c : Int) v = .ok (a.set c v) := by
  simp [writeCell, hc]

theorem writeCell_int {α : Type} {a : List α} {i : Int} (h0 : 0 ≤ i)
    (hi : i < a.length) (v : α) : writeCell a i v = .ok (a.set i.toNat v) := by
  have : i.toNat < a.length := by omega
  simp [writeCell, h0, this]

theorem cellAt_set {a : List Int} {c : Nat} (hc : c < a.length) (v : Int) (c' : Nat) :
    cellAt (a.set c v) c' = if c' = c then v else cellAt a c' := by
  unfold cellAt
  by_cases h : c' = c
  · subst h; simp [hc]
  · rw [if_neg h, List.getElem?_set_ne (fun e => h e.symm)]

theorem cellAt_of_le {a : List Int} {c : Nat} (hc : a.length ≤ c) : cellAt a c = 0 := by
  simp [cellAt, List.getElem?_eq_none hc]

theorem valsAt_nil (c : Nat) : valsAt [] c = [] := rfl

theorem valsAt_cons (c0 : Nat) (v0 : Int) (P : List (Nat × Int)) (c : Nat) :
    valsAt ((c0, v0) :: P) c = if c0 = c then v0 :: valsAt P c else valsAt P c := by
  unfold valsAt
  by_cases h : c0 = c
  · simp [List.filter_cons, h]
  · simp [List.filter_cons, h]

theorem valsAt_append (P Q : List (Nat × Int)) (c : Nat) :
    valsAt (P ++ Q) c = valsAt P c ++ valsAt Q c := by
  simp [valsAt]

theorem valsAt_eq_nil {P : List (Nat × Int)} {c : Nat} (h : ∀ p ∈ P, p.1 ≠ c) :
    valsAt P c = [] := by
  unfold valsAt
  rw [List.map_eq_nil_iff, List.filter_eq_nil_iff]
  intro p hp
  simpa using h p hp

/-! ### Filling the buckets -/

/-- The placement of a list of pushes: when the cells start at the beginning of pairwise
disjoint free ranges inside `edg`, every push succeeds, each cell advances by the number
of its pushes, the values of a cell land in its range in order, and the rest of `edg`
is left as it was. -/
theorem pushAll_spec (base : Nat → Int) :
    ∀ (P : List (Nat × Int)) (adj : List Int) (edg : List (Option Int)),
      (∀ p ∈ P, p.1 < adj.length) →
      (∀ c, valsAt P c ≠ [] → 0 ≤ base c + cellAt adj c ∧
        base c + cellAt adj c + (valsAt P c).length ≤ edg.length) →
      (∀ c c', c ≠ c' → valsAt P c ≠ [] → valsAt P c' ≠ [] →
        base c + cellAt adj c + (valsAt P c).length ≤ base c' + cellAt adj c' ∨
        base c' + cellAt adj c' + (valsAt P c').length ≤ base c + cellAt adj c) →
      ∃ adj' edg', pushAll base P (adj, edg) = .ok (adj', edg') ∧
        adj'.length = adj.length ∧ edg'.length = edg.length ∧
        (∀ c, cellAt adj' c = cellAt adj c + (valsAt P c).length) ∧
        (∀ c (r : Nat) v, (valsAt P c)[r]? = some v →
          edg'[(base c + cellAt adj c + r).toNat]? = some (some v)) ∧
        (∀ k : Nat, (∀ c, valsAt P c ≠ [] →
            (k : Int) < base c + cellAt adj c ∨
            base c + cellAt adj c + (valsAt P c).length ≤ k) →
          edg'[k]? = edg[k]?) := by
  intro P
  induction P with
  | nil =>
    intro adj edg _ _ _
    exact ⟨adj, edg, rfl, rfl, rfl, by simp [valsAt_nil], by simp [valsAt_nil],
      fun _ _ => rfl⟩
  | cons p P ih =>
    obtain ⟨c0, v0⟩ := p
    intro adj edg h1 h2 h3
    have hc0 : c0 < adj.length := h1 (c0, v0) (List.mem_cons_self _ _)
    have hne0 : valsAt ((c0, v0) :: P) c0 ≠ [] := by simp [valsAt_cons]
    have hlen0 : (valsAt ((c0, v0) :: P) c0).length = (valsAt P c0).length + 1 := by
      simp [valsAt_cons]
    obtain ⟨hp0, hp1⟩ := h2 c0 hne0
    rw [hlen0] at hp1
    have hposlt : base c0 + cellAt adj c0 < edg.length := by push_cast at hp1; omega
    have hvals : ∀ c, c ≠ c0 → valsAt ((c0, v0) :: P) c = valsAt P c := by
      intro c hc
      rw [valsAt_cons, if_neg (fun e => hc e.symm)]
    have hcell : ∀ c, cellAt (adj.set c0 (cellAt adj c0 + 1)) c =
        if c = c0 then cellAt adj c0 + 1 else cellAt adj c := fun c => cellAt_set hc0 _ c
    have hne : ∀ c, valsAt P c ≠ [] → valsAt ((c0, v0) :: P) c ≠ [] := by
      intro c hc
      rw [valsAt_cons]; split
      · simp
      · exact hc
    obtain ⟨adj', edg', hrun, hal, hel, hcells, hvalsAt, hframe⟩ :=
      ih (adj.set c0 (cellAt adj c0 + 1))
        (edg.set (base c0 + cellAt adj c0).toNat (some v0))
        (by
          intro p hp
          rw [List.length_set]
          exact h1 p (List.mem_cons_of_mem _ hp))
        (by
          intro c hc
          rw [List.length_set, hcell]
          by_cases e : c = c0
          · subst e
            rw [if_pos rfl]
            push_cast at hp1 ⊢
            omega
          · rw [if_neg e]
            have := h2 c (hne c hc)
            rw [hvals c e] at this
            exact this)
        (by
          intro c c' hcc hc hc'
          rw [hcell, hcell]
          have := h3 c c' hcc (hne c hc) (hne c' hc')
          by_cases e : c = c0
          · subst e
            have e' : c' ≠ c := fun x => hcc x.symm
            rw [if_pos rfl, if_neg e']
            rw [hlen0, hvals c' e'] at this
            push_cast at this ⊢
            omega
          · by_cases e' : c' = c0
            · subst e'
              rw [if_neg e, if_pos rfl]
              rw [hlen0, hvals c e] at this
              push_cast at this ⊢
              omega
            · rw [if_neg e, if_neg e']
              rw [hvals c e, hvals c' e'] at this
              exact this)
    refine ⟨adj', edg', ?_, by simpa using hal, by simpa using hel, ?_, ?_, ?_⟩
    · simp only [pushAll]
      rw [readCell_nat hc0]
      simp only [bind, Except.bind]
      rw [writeCell_int hp0 hposlt, writeCell_nat hc0]
      exact hrun
    · intro c
      rw [hcells c, hcell]
      by_cases e : c = c0
      · subst e
        rw [if_pos rfl, hlen0]; push_cast; omega
      · rw [if_neg e, hvals c e]
    · intro c r v hv
      by_cases e : c = c0
      · subst e
        rw [valsAt_cons, if_pos rfl] at hv
        cases r with
        | zero =>
          simp only [List.getElem?_cons_zero, Option.some.injEq] at hv
          subst hv
          have hfr := hframe (base c + cellAt adj c).toNat (by
            intro c' hc'
            rw [hcell]
            by_cases e' : c' = c
            · subst e'
              rw [if_pos rfl]
              left
              omega
            · rw [if_neg e']
              have := h3 c c' (fun x => e' x.symm) hne0 (hne c' hc')
              rw [hlen0, hvals c' e'] at this
              push_cast at this
              omega)
          simp only [Nat.cast_zero, add_zero]
          rw [hfr]
          have : (base c + cellAt adj c).toNat < edg.length := by omega
          simp [List.getElem?_set, this]
        | succ r =>
          simp only [List.getElem?_cons_succ] at hv
          have := hvalsAt c r v hv
          rw [hcell, if_pos rfl] at this
          have e2 : base c + cellAt adj c + ((r + 1 : Nat) : Int) =
              base c + (cellAt adj c + 1) + (r : Int) := by push_cast; omega
          rw [e2]; exact this
      · rw [hvals c e] at hv
        have := hvalsAt c r v hv
        rw [hcell, if_neg e] at this
        exact this
    · intro k hk
      have hk0 := hk c0 hne0
      rw [hlen0] at hk0
      have hfr := hframe k (by
        intro c hc
        rw [hcell]
        by_cases e : c = c0
        · subst e
          rw [if_pos rfl]
          push_cast at hk0
          omega
        · rw [if_neg e]
          have := hk c (hne c hc)
          rw [hvals c e] at this
          exact this)
      rw [hfr]
      apply List.getElem?_set_ne
      push_cast at hk0
      omega

/-! ### The passes of `make_graph` -/

theorem pushAll_append (base : Nat → Int) :
    ∀ (P Q : List (Nat × Int)) (st : List Int × List (Option Int)),
      pushAll base (P ++ Q) st = (pushAll base P st).bind (pushAll base Q) := by
  intro P
  induction P with
  | nil => intro Q st; rfl
  | cons p P ih =>
    obtain ⟨c, v⟩ := p
    intro Q ⟨adj, edg⟩
    simp only [List.cons_append, pushAll, bind]
    cases readCell adj (c : Int) with
    | error e => rfl
    | ok a =>
      simp only [Except.bind]
      cases writeCell edg (base c + a) (some v) with
      | error e => rfl
      | ok edg1 =>
        simp only
        cases writeCell adj (c : Int) (a + 1) with
        | error e => rfl
        | ok adj1 => exact ih Q (adj1, edg1)

theorem placeTargets_eq (base : Nat → Int) (ainOff : Nat) (einOff : Int) (i : Nat)
    (hbi : base i = 0) :
    ∀ (l : List Nat) (st : List Int × List (Option Int)),
      (∀ t ∈ l, base (ainOff + t) = einOff) →
      placeTargets (ainOff : Int) einOff i (l.map (fun (t : Nat) => (t : Int))) st =
        pushAll base (pushesOf ainOff i l) st := by
  intro l
  induction l with
  | nil => intro st _; rfl
  | cons t l ih =>
    intro ⟨adj, edg⟩ hb
    have hbt : base (ainOff + t) = einOff := hb t (List.mem_cons_self _ _)
    have ih' := fun st => ih st (fun t' ht' => hb t' (List.mem_cons_of_mem _ ht'))
    simp only [List.map_cons, placeTargets, pushesOf, List.flatMap_cons, List.cons_append,
      List.nil_append, pushAll, hbi, hbt, zero_add, Nat.cast_add, bind]
    cases readCell adj (i : Int) with
    | error e => rfl
    | ok a =>
      simp only [Except.bind]
      cases writeCell edg a (some (t : Int)) with
      | error e => rfl
      | ok edg1 =>
        simp only
        cases writeCell adj (i : Int) (a + 1) with
        | error e => rfl
        | ok adj1 =>
          simp only
          cases readCell adj1 ((ainOff : Int) + (t : Int)) with
          | error e => rfl
          | ok b =>
            simp only
            cases writeCell edg1 (einOff + b) (some (i : Int)) with
            | error e => rfl
            | ok edg2 =>
              simp only
              cases writeCell adj1 ((ainOff : Int) + (t : Int)) (b + 1) with
              | error e => rfl
              | ok adj2 => exact ih' (adj2, edg2)

theorem placePass_eq (base : Nat → Int) (ainOff : Nat) (einOff : Int) :
    ∀ (L : List (List Nat)) (i : Nat) (st : List Int × List (Option Int)),
      (∀ k, i ≤ k → k < i + L.length → base k = 0) →
      (∀ l ∈ L, ∀ t ∈ l, base (ainOff + t) = einOff) →
      placePass (ainOff : Int) einOff i (L.map (fun (l : List Nat) => l.map (fun (t : Nat) => (t : Int)))) st =
        pushAll base (allPushes ainOff i L) st := by
  intro L
  induction L with
  | nil => intro i st _ _; rfl
  | cons l L ih =>
    intro i st hb0 hb
    simp only [List.map_cons, placePass, allPushes, bind]
    rw [pushAll_append, placeTargets_eq base ainOff einOff i
      (hb0 i (Nat.le_refl i) (by simp)) l st (hb l (List.mem_cons_self _ _))]
    cases pushAll base (pushesOf ainOff i l) st with
    | error e => rfl
    | ok st1 =>
      exact ih (i + 1) st1 (fun k hk1 hk2 => hb0 k (by omega) (by simp; omega))
        (fun l' hl' => hb l' (List.mem_cons_of_mem _ hl'))

theorem valsAt_pushesOf_length (ainOff i : Nat) (l : List Nat) (c : Nat) :
    ((valsAt (pushesOf ainOff i l) c).length : Int) =
      (if i = c then (l.length : Int) else 0) +
        ((l.filter (fun t => ainOff + t = c)).length : Int) := by
  induction l with
  | nil => simp [pushesOf, valsAt_nil]
  | cons t l ih =>
    have e : pushesOf ainOff i (t :: l) =
        (i, (t : Int)) :: (ainOff + t, (i : Int)) :: pushesOf ainOff i l := by
      simp [pushesOf]
    rw [e, valsAt_cons, valsAt_cons]
    by_cases h1 : i = c
    · by_cases h2 : ainOff + t = c
      · simp [h1, h2, List.filter_cons] at ih ⊢
        omega
      · simp [h1, h2, List.filter_cons] at ih ⊢
        omega
    · by_cases h2 : ainOff + t = c
      · simp [h1, h2, List.filter_cons] at ih ⊢
        omega
      · simp [h1, h2, List.filter_cons] at ih ⊢
        omega

theorem countTargets_spec (n ainOff : Nat) :
    ∀ (l : List Nat) (adj : List Int), (∀ t ∈ l, t < n) → ainOff + n ≤ adj.length →
      ∃ adj', countTargets (n : Int) (ainOff : Int) (l.map (fun (t : Nat) => (t : Int))) adj =
          .ok adj' ∧ adj'.length = adj.length ∧
        ∀ c, cellAt adj' c =
          cellAt adj c + ((l.filter (fun t => ainOff + t = c)).length : Int) := by
  intro l
  induction l with
  | nil => intro adj _ _; exact ⟨adj, rfl, rfl, by simp⟩
  | cons t l ih =>
    intro adj hl hlen
    have ht : t < n := hl t (List.mem_cons_self _ _)
    have hc : ainOff + t < adj.length := by omega
    obtain ⟨adj', hrun, hlen', hcells⟩ :=
      ih (adj.set (ainOff + t) (cellAt adj (ainOff + t) + 1))
        (fun t' ht' => hl t' (List.mem_cons_of_mem _ ht')) (by simpa using hlen)
    refine ⟨adj', ?_, by simpa using hlen', ?_⟩
    · simp only [List.map_cons, countTargets]
      rw [if_neg (by omega)]
      have e : (ainOff : Int) + (t : Int) = ((ainOff + t : Nat) : Int) := by push_cast; rfl
      rw [e, readCell_nat hc]
      simp only [bind, Except.bind]
      rw [writeCell_nat hc]
      exact hrun
    · intro c
      rw [hcells c, cellAt_set hc]
      by_cases h : c = ainOff + t
      · subst h
        simp [List.filter_cons]
        omega
      · have h' : ¬ ainOff + t = c := fun e => h e.symm
        simp [h, h', List.filter_cons]

theorem countPass_spec (n ainOff : Nat) :
    ∀ (L : List (List Nat)) (i : Nat) (adj : List Int), (∀ l ∈ L, ∀ t ∈ l, t < n) →
      i + L.length ≤ adj.length → ainOff + n ≤ adj.length →
      ∃ adj', countPass (n : Int) (ainOff : Int) i
          (L.map (fun (l : List Nat) => l.map (fun (t : Nat) => (t : Int)))) adj = .ok adj' ∧
        adj'.length = adj.length ∧
        ∀ c, cellAt adj' c = cellAt adj c + ((valsAt (allPushes ainOff i L) c).length : Int) := by
  intro L
  induction L with
  | nil => intro i adj _ _ _; exact ⟨adj, rfl, rfl, by simp [allPushes, valsAt_nil]⟩
  | cons l L ih =>
    intro i adj hL hi hlen
    have hic : i < adj.length := by simp at hi; omega
    obtain ⟨adj1, hrun1, hlen1, hcells1⟩ :=
      countTargets_spec n ainOff l (adj.set i (cellAt adj i + (l.length : Int)))
        (hL l (List.mem_cons_self _ _)) (by simpa using hlen)
    obtain ⟨adj', hrun, hlen', hcells⟩ :=
      ih (i + 1) adj1 (fun l' hl' => hL l' (List.mem_cons_of_mem _ hl'))
        (by rw [hlen1]; simp at hi ⊢; omega) (by rw [hlen1]; simpa using hlen)
    refine ⟨adj', ?_, ?_, ?_⟩
    · simp only [List.map_cons, countPass]
      rw [readCell_nat hic]
      simp only [bind, Except.bind, List.length_map]
      rw [writeCell_nat hic]
      simp only
      rw [hrun1]
      exact hrun
    · rw [hlen', hlen1]; simp
    · intro c
      rw [hcells c, hcells1 c, cellAt_set hic]
      simp only [allPushes, valsAt_append, List.length_append]
      have := valsAt_pushesOf_length ainOff i l c
      by_cases h : c = i
      · subst h
        simp only [if_true] at this ⊢
        push_cast; omega
      · have h' : ¬ i = c := fun e => h e.symm
        simp only [h, h', if_false] at this ⊢
        push_cast; omega

theorem psum_succ_left (f : Nat → Int) (k : Nat) :
    psum f (k + 1) = f 0 + psum (fun m => f (m + 1)) k := by
  induction k with
  | zero => simp [psum]
  | succ k ih =>
    rw [psum, ih]
    simp only [psum]
    omega

theorem psum_congr {f g : Nat → Int} (k : Nat) (h : ∀ m, m < k → f m = g m) :
    psum f k = psum g k := by
  induction k with
  | zero => rfl
  | succ k ih =>
    simp only [psum]
    rw [ih (fun m hm => h m (by omega)), h k (by omega)]

theorem shiftLoop_spec (off : Nat) :
    ∀ (rem i : Nat) (s : Int) (adj : List Int), 1 ≤ i → off + i + rem ≤ adj.length →
      ∃ adj', shiftLoop (off : Int) rem i s adj = .ok adj' ∧ adj'.length = adj.length ∧
        (∀ k, k < rem → cellAt adj' (off + i + k) =
          cellAt adj (off + i - 1) + s + psum (fun m => cellAt adj (off + i + m)) k) ∧
        (∀ c, c < off + i ∨ off + i + rem ≤ c → cellAt adj' c = cellAt adj c) := by
  intro rem
  induction rem with
  | zero =>
    intro i s adj _ _
    exact ⟨adj, rfl, rfl, fun k hk => by omega, fun _ _ => rfl⟩
  | succ rem ih =>
    intro i s adj hi hlen
    have hc : off + i < adj.length := by omega
    have hc' : off + i - 1 < adj.length := by omega
    obtain ⟨adj', hrun, hlen', hcells, hframe⟩ :=
      ih (i + 1) (cellAt adj (off + i))
        (adj.set (off + i) (cellAt adj (off + i - 1) + s)) (by omega)
        (by rw [List.length_set]; omega)
    refine ⟨adj', ?_, by simpa using hlen', ?_, ?_⟩
    · simp only [shiftLoop]
      have e1 : (off : Int) + (i : Int) = ((off + i : Nat) : Int) := by push_cast; rfl
      have e2 : (off : Int) + (i : Int) - 1 = ((off + i - 1 : Nat) : Int) := by omega
      rw [e2, e1, readCell_nat hc, readCell_nat hc']
      simp only [bind, Except.bind]
      rw [writeCell_nat hc]
      exact hrun
    · intro k hk
      cases k with
      | zero =>
        simp only [Nat.add_zero]
        rw [hframe (off + i) (by omega), cellAt_set hc]
        simp [psum]
      | succ k =>
        have := hcells k (by omega)
        have e : off + (i + 1) + k = off + i + (k + 1) := by omega
        rw [e] at this
        rw [this, cellAt_set hc, if_pos (by omega), psum_succ_left]
        have : psum (fun m => cellAt (adj.set (off + i) (cellAt adj (off + i - 1) + s))
            (off + (i + 1) + m)) k = psum (fun m => cellAt adj (off + i + (m + 1))) k := by
          apply psum_congr
          intro m _
          rw [cellAt_set hc, if_neg (by omega)]
          congr 1; omega
        rw [this]
        simp only [Nat.add_zero]
        omega
    · intro c hcc
      rw [hframe c (by omega), cellAt_set hc, if_neg (by omega)]

theorem shift_indices_spec (n off : Nat) (adj : List Int) (hn : 1 ≤ n)
    (hlen : off + n ≤ adj.length) :
    ∃ adj', shift_indices n (off : Int) adj = .ok adj' ∧ adj'.length = adj.length ∧
      (∀ k, k < n → cellAt adj' (off + k) = psum (fun m => cellAt adj (off + m)) k) ∧
      (∀ c, c < off ∨ off + n ≤ c → cellAt adj' c = cellAt adj c) := by
  have hc : off < adj.length := by omega
  obtain ⟨adj', hrun, hlen', hcells, hframe⟩ :=
    shiftLoop_spec off (n - 1) 1 (cellAt adj off) (adj.set off 0) (by omega)
      (by rw [List.length_set]; omega)
  refine ⟨adj', ?_, by simpa using hlen', ?_, ?_⟩
  · simp only [shift_indices]
    rw [readCell_nat hc]
    simp only [bind, Except.bind]
    rw [writeCell_nat hc]
    exact hrun
  · intro k hk
    cases k with
    | zero =>
      simp only [Nat.add_zero]
      rw [hframe off (by omega), cellAt_set hc]
      simp [psum]
    | succ k =>
      have := hcells k (by omega)
      have e : off + 1 + k = off + (k + 1) := by omega
      rw [e] at this
      rw [this, cellAt_set hc, if_pos (by omega), psum_succ_left]
      simp only [Nat.add_zero]
      have : psum (fun m => cellAt (adj.set off 0) (off + 1 + m)) k =
          psum (fun m => cellAt adj (off + (m + 1))) k := by
        apply psum_congr
        intro m _
        rw [cellAt_set hc, if_neg (by omega)]
        congr 1; omega
      rw [this]
      omega
  · intro c hcc
    rw [hframe c (by omega), cellAt_set hc, if_neg (by omega)]

theorem rewindLoop_spec (off : Nat) :
    ∀ (k : Nat) (adj : List Int), off + k < adj.length →
      ∃ adj', rewindLoop (off : Int) k adj = .ok adj' ∧ adj'.length = adj.length ∧
        (∀ j, 1 ≤ j → j ≤ k → cellAt adj' (off + j) = cellAt adj (off + j - 1)) ∧
        (∀ c, c ≤ off ∨ off + k < c → cellAt adj' c = cellAt adj c) := by
  intro k
  induction k with
  | zero =>
    intro adj _
    exact ⟨adj, rfl, rfl, fun j h1 h2 => by omega, fun _ _ => rfl⟩
  | succ k ih =>
    intro adj hlen
    have hc : off + k < adj.length := by omega
    have hc1 : off + (k + 1) < adj.length := hlen
    obtain ⟨adj', hrun, hlen', hcells, hframe⟩ :=
      ih (adj.set (off + (k + 1)) (cellAt adj (off + k))) (by rw [List.length_set]; omega)
    refine ⟨adj', ?_, by simpa using hlen', ?_, ?_⟩
    · simp only [rewindLoop]
      have e1 : (off : Int) + (k : Int) = ((off + k : Nat) : Int) := by push_cast; rfl
      have e2 : (off : Int) + ((k + 1 : Nat) : Int) = ((off + (k + 1) : Nat) : Int) := by
        push_cast; rfl
      rw [e1, e2, readCell_nat hc]
      simp only [bind, Except.bind]
      rw [writeCell_nat hc1]
      exact hrun
    · intro j h1 h2
      rcases Nat.lt_or_ge j (k + 1) with h | h
      · rw [hcells j h1 (by omega), cellAt_set hc1, if_neg (by omega)]
      · have : j = k + 1 := by omega
        subst this
        rw [hframe _ (by omega), cellAt_set hc1, if_pos rfl]
        congr 1
    · intro c hcc
      rw [hframe c (by omega), cellAt_set hc1, if_neg (by omega)]

theorem rewind_indices_spec (n off : Nat) (e : Int) (adj : List Int) (hn : 1 ≤ n)
    (hlen : off + n < adj.length) :
    ∃ adj', rewind_indices (n : Int) e (off : Int) adj = .ok adj' ∧
      adj'.length = adj.length ∧ cellAt adj' off = 0 ∧
      (∀ j, 1 ≤ j → j < n → cellAt adj' (off + j) = cellAt adj (off + j - 1)) ∧
      cellAt adj' (off + n) = e ∧
      (∀ c, c < off ∨ off + n < c → cellAt adj' c = cellAt adj c) := by
  obtain ⟨adj1, hrun, hlen1, hcells, hframe⟩ :=
    rewindLoop_spec off (n - 1) adj (by omega)
  have hc0 : off < adj1.length := by omega
  have hcn : off + n < (adj1.set off 0).length := by rw [List.length_set]; omega
  refine ⟨(adj1.set off 0).set (off + n) e, ?_, by simp [hlen1], ?_, ?_, ?_, ?_⟩
  · simp only [rewind_indices]
    have e0 : ((n : Int) - 1).toNat = n - 1 := by omega
    have e2 : (off : Int) + (n : Int) = ((off + n : Nat) : Int) := by push_cast; rfl
    rw [e0, hrun]
    simp only [bind, Except.bind]
    rw [writeCell_nat hc0, e2]
    simp only
    rw [writeCell_nat hcn]
  · rw [cellAt_set hcn, if_neg (by omega), cellAt_set hc0, if_pos rfl]
  · intro j h1 h2
    rw [cellAt_set hcn, if_neg (by omega), cellAt_set hc0, if_neg (by omega)]
    exact hcells j h1 (by omega)
  · rw [cellAt_set hcn, if_pos rfl]
  · intro c hcc
    rw [cellAt_set hcn, if_neg (by omega), cellAt_set hc0, if_neg (by omega)]
    exact hframe c (by omega)

/-! ### Counting the pushes -/

theorem pushes_append (ainOff : Nat) (E F : List (Nat × Nat)) :
    pushes ainOff (E ++ F) = pushes ainOff E ++ pushes ainOff F := by
  simp [pushes, List.flatMap_append]

theorem pushesOf_eq (ainOff i : Nat) (l : List Nat) :
    pushesOf ainOff i l = pushes ainOff (l.map (fun t => (i, t))) := by
  induction l with
  | nil => rfl
  | cons t l ih =>
    simp only [pushesOf, pushes, List.flatMap_cons, List.map_cons] at ih ⊢
    rw [ih]

theorem allPushes_eq (ainOff : Nat) :
    ∀ (L : List (List Nat)) (i : Nat), allPushes ainOff i L = pushes ainOff (edgesOf i L) := by
  intro L
  induction L with
  | nil => intro i; rfl
  | cons l L ih =>
    intro i
    simp only [allPushes, edgesOf]
    rw [pushes_append, ih (i + 1), pushesOf_eq]

theorem mem_edgesOf :
    ∀ (L : List (List Nat)) (i : Nat) (p : Nat × Nat), p ∈ edgesOf i L →
      i ≤ p.1 ∧ p.1 < i + L.length ∧ ∃ l ∈ L, p.2 ∈ l := by
  intro L
  induction L with
  | nil => intro i p hp; cases hp
  | cons l L ih =>
    intro i p hp
    simp only [edgesOf, List.mem_append, List.mem_map] at hp
    rcases hp with ⟨t, ht, rfl⟩ | hp
    · exact ⟨Nat.le_refl _, by simp, l, List.mem_cons_self _ _, ht⟩
    · obtain ⟨h1, h2, l', hl', h3⟩ := ih (i + 1) p hp
      exact ⟨by omega, by simp; omega, l', List.mem_cons_of_mem _ hl', h3⟩

theorem psum_nonneg {f : Nat → Int} (hf : ∀ k, 0 ≤ f k) (k : Nat) : 0 ≤ psum f k := by
  induction k with
  | zero => simp [psum]
  | succ k ih => simp only [psum]; have := hf k; omega

theorem psum_mono {f : Nat → Int} (hf : ∀ k, 0 ≤ f k) {a b : Nat} (hab : a ≤ b) :
    psum f a ≤ psum f b := by
  induction b with
  | zero =>
    have : a = 0 := by omega
    subst this; exact Int.le_refl _
  | succ b ih =>
    rcases Nat.lt_or_ge a (b + 1) with h | h
    · have := ih (by omega)
      have := hf b
      simp only [psum]; omega
    · have : a = b + 1 := by omega
      subst this; exact Int.le_refl _

theorem psum_add (f g : Nat → Int) (k : Nat) :
    psum (fun m => f m + g m) k = psum f k + psum g k := by
  induction k with
  | zero => simp [psum]
  | succ k ih => simp only [psum]; rw [ih]; omega

theorem psum_indicator (lo c : Nat) (n : Nat) :
    psum (fun k => if lo + k = c then (1 : Int) else 0) n =
      if lo ≤ c ∧ c < lo + n then 1 else 0 := by
  induction n with
  | zero =>
    have : ¬ (lo ≤ c ∧ c < lo + 0) := by omega
    rw [if_neg this]; rfl
  | succ n ih =>
    simp only [psum]
    rw [ih]
    by_cases h1 : lo + n = c
    · have : ¬ (lo ≤ c ∧ c < lo + n) := by omega
      have h2 : lo ≤ c ∧ c < lo + (n + 1) := by omega
      simp [h1, this, h2]
    · by_cases h3 : lo ≤ c ∧ c < lo + n
      · have h2 : lo ≤ c ∧ c < lo + (n + 1) := by omega
        simp [h1, h3, h2]
      · have h2 : ¬ (lo ≤ c ∧ c < lo + (n + 1)) := by omega
        simp [h1, h3, h2]

/-- The bucket sizes of a block of `n` cells add up to the number of pushes that go
through the block. -/
theorem psum_valsAt (lo n : Nat) (P : List (Nat × Int)) :
    psum (fun k => ((valsAt P (lo + k)).length : Int)) n =
      ((P.filter (fun p => lo ≤ p.1 ∧ p.1 < lo + n)).length : Int) := by
  induction P with
  | nil =>
    simp only [valsAt_nil, List.length_nil, List.filter_nil, Nat.cast_zero]
    induction n with
    | zero => rfl
    | succ n ih => simp only [psum]; rw [ih]; rfl
  | cons p P ih =>
    obtain ⟨c, v⟩ := p
    have e : (fun k => ((valsAt ((c, v) :: P) (lo + k)).length : Int)) =
        fun k => ((valsAt P (lo + k)).length : Int) +
          (if lo + k = c then (1 : Int) else 0) := by
      funext k
      rw [valsAt_cons]
      by_cases h : c = lo + k
      · simp [h]
      · have h' : ¬ lo + k = c := fun x => h x.symm
        simp [h, h']
    rw [e, psum_add, ih, psum_indicator]
    by_cases h : lo ≤ c ∧ c < lo + n
    · simp [List.filter_cons, h]
    · simp [List.filter_cons, h]

theorem filter_pushes_length (ainOff : Nat) (q : Nat × Int → Bool) (E : List (Nat × Nat)) :
    ((pushes ainOff E).filter q).length =
      (E.filter (fun p => q (p.1, (p.2 : Int)))).length +
        (E.filter (fun p => q (ainOff + p.2, (p.1 : Int)))).length := by
  induction E with
  | nil => rfl
  | cons p E ih =>
    have e : pushes ainOff (p :: E) =
        (p.1, (p.2 : Int)) :: (ainOff + p.2, (p.1 : Int)) :: pushes ainOff E := by
      simp [pushes]
    rw [e]
    simp only [List.filter_cons]
    cases h1 : q (p.1, (p.2 : Int)) <;> cases h2 : q (ainOff + p.2, (p.1 : Int)) <;>
      simp [ih] <;> omega

theorem pushes_block_out (ainOff n : Nat) (E : List (Nat × Nat))
    (hE : ∀ p ∈ E, p.1 < n ∧ p.2 < n) (ha : n ≤ ainOff) :
    ((pushes ainOff E).filter (fun p => 0 ≤ p.1 ∧ p.1 < 0 + n)).length = E.length := by
  rw [filter_pushes_length]
  have h1 : E.filter (fun p => decide (0 ≤ (p.1, (p.2 : Int)).1 ∧
      (p.1, (p.2 : Int)).1 < 0 + n)) = E := by
    rw [List.filter_eq_self]
    intro p hp
    have := hE p hp
    simp only [decide_eq_true_eq]
    omega
  have h2 : E.filter (fun p => decide (0 ≤ (ainOff + p.2, (p.1 : Int)).1 ∧
      (ainOff + p.2, (p.1 : Int)).1 < 0 + n)) = [] := by
    rw [List.filter_eq_nil_iff]
    intro p hp
    have := hE p hp
    simp only [decide_eq_true_eq]
    omega
  rw [h1, h2]; rfl

theorem pushes_block_in (ainOff n : Nat) (E : List (Nat × Nat))
    (hE : ∀ p ∈ E, p.1 < n ∧ p.2 < n) (ha : n ≤ ainOff) :
    ((pushes ainOff E).filter (fun p => ainOff ≤ p.1 ∧ p.1 < ainOff + n)).length =
      E.length := by
  rw [filter_pushes_length]
  have h1 : E.filter (fun p => decide (ainOff ≤ (p.1, (p.2 : Int)).1 ∧
      (p.1, (p.2 : Int)).1 < ainOff + n)) = [] := by
    rw [List.filter_eq_nil_iff]
    intro p hp
    have := hE p hp
    simp only [decide_eq_true_eq]
    omega
  have h2 : E.filter (fun p => decide (ainOff ≤ (ainOff + p.2, (p.1 : Int)).1 ∧
      (ainOff + p.2, (p.1 : Int)).1 < ainOff + n)) = E := by
    rw [List.filter_eq_self]
    intro p hp
    have := hE p hp
    simp only [decide_eq_true_eq]
    omega
  rw [h1, h2]; simp

theorem pushes_block_shared (n : Nat) (E : List (Nat × Nat))
    (hE : ∀ p ∈ E, p.1 < n ∧ p.2 < n) :
    ((pushes 0 E).filter (fun p => 0 ≤ p.1 ∧ p.1 < 0 + n)).length = 2 * E.length := by
  rw [filter_pushes_length]
  have h1 : E.filter (fun p => decide (0 ≤ (p.1, (p.2 : Int)).1 ∧
      (p.1, (p.2 : Int)).1 < 0 + n)) = E := by
    rw [List.filter_eq_self]
    intro p hp
    have := hE p hp
    simp only [decide_eq_true_eq]
    omega
  have h2 : E.filter (fun p => decide (0 ≤ (0 + p.2, (p.1 : Int)).1 ∧
      (0 + p.2, (p.1 : Int)).1 < 0 + n)) = E := by
    rw [List.filter_eq_self]
    intro p hp
    have := hE p hp
    simp only [decide_eq_true_eq]
    omega
  rw [h1, h2]; omega

theorem mem_pushes_cell {ainOff : Nat} {E : List (Nat × Nat)} {q : Nat × Int}
    (hq : q ∈ pushes ainOff E) : ∃ p ∈ E, q.1 = p.1 ∨ q.1 = ainOff + p.2 := by
  simp only [pushes, List.mem_flatMap, List.mem_cons, List.mem_singleton] at hq
  obtain ⟨p, hp, h | h | h⟩ := hq
  · exact ⟨p, hp, Or.inl (by rw [h])⟩
  · exact ⟨p, hp, Or.inr (by rw [h])⟩
  · cases h

theorem valsAt_ne_nil_cell {P : List (Nat × Int)} {c : Nat} (h : valsAt P c ≠ []) :
    ∃ q ∈ P, q.1 = c := by
  by_contra hc
  push_neg at hc
  exact h (valsAt_eq_nil hc)

/-! ### The graph built from a valid adjacency list -/

theorem cellAt_replicate (k c : Nat) : cellAt (List.replicate k (0 : Int)) c = 0 := by
  unfold cellAt
  rw [List.getElem?_replicate]
  split <;> rfl

theorem edges_lt {L : List (List Nat)} {n : Nat} (hL : L.length = n)
    (ht : ∀ l ∈ L, ∀ t ∈ l, t < n) : ∀ p ∈ edgesOf 0 L, p.1 < n ∧ p.2 < n := by
  intro p hp
  obtain ⟨_, h2, l, hl, h3⟩ := mem_edgesOf L 0 p hp
  exact ⟨by omega, ht l hl p.2 h3⟩

theorem psum_step (f : Nat → Int) (k : Nat) : psum f k + f k = psum f (k + 1) := rfl

/-- The directed case of `make_graph` on a valid adjacency list: the call succeeds, the
out- and in-offsets are the prefix sums of the bucket sizes, and every pushed value sits
in its block in the order of the pushes. -/
theorem make_graph_directed (L : List (List Nat)) (n e : Nat) (hn : 1 ≤ n)
    (hL : L.length = n) (ht : ∀ l ∈ L, ∀ t ∈ l, t < n) (he : (edgesOf 0 L).length = e) :
    ∃ g, make_graph ⟨n, e, L.map (fun (l : List Nat) => l.map (fun (t : Nat) => (t : Int)))⟩
        true = .ok g ∧ g.n = n ∧ g.e = e ∧ g.adj.length = 2 * n + 2 ∧ g.edg.length = 2 * e ∧
      (∀ k, k ≤ n → cellAt g.adj k =
        psum (fun m => ((valsAt (allPushes (n + 1) 0 L) m).length : Int)) k) ∧
      (∀ k, k ≤ n → cellAt g.adj (n + 1 + k) =
        psum (fun m => ((valsAt (allPushes (n + 1) 0 L) (n + 1 + m)).length : Int)) k) ∧
      (∀ c (r : Nat) v, c < n → (valsAt (allPushes (n + 1) 0 L) c)[r]? = some v →
        g.edg[(cellAt g.adj c + r).toNat]? = some (some v)) ∧
      (∀ c (r : Nat) v, c < n → (valsAt (allPushes (n + 1) 0 L) (n + 1 + c))[r]? = some v →
        g.edg[((e : Int) + cellAt g.adj (n + 1 + c) + r).toNat]? = some (some v)) ∧
      cellAt g.adj n = e ∧ cellAt g.adj (n + 1 + n) = e := by
  have hE := edges_lt hL ht
  have hP : allPushes (n + 1) 0 L = pushes (n + 1) (edgesOf 0 L) := allPushes_eq _ _ _
  have hcellP : ∀ q ∈ allPushes (n + 1) 0 L, q.1 < n ∨ (n + 1 ≤ q.1 ∧ q.1 < 2 * n + 1) := by
    intro q hq
    rw [hP] at hq
    obtain ⟨p, hp, h | h⟩ := mem_pushes_cell hq
    · left; rw [h]; exact (hE p hp).1
    · right; rw [h]; have := (hE p hp).2; omega
  have hcnt0 : ∀ c, (0 : Int) ≤ ((valsAt (allPushes (n + 1) 0 L) c).length : Int) :=
    fun c => Int.ofNat_nonneg _
  have htotOut : psum (fun m => ((valsAt (allPushes (n + 1) 0 L) m).length : Int)) n = e := by
    have := psum_valsAt 0 n (allPushes (n + 1) 0 L)
    simp only [Nat.zero_add] at this
    rw [this, hP]
    have h2 := pushes_block_out (n + 1) n (edgesOf 0 L) hE (by omega)
    simp only [Nat.zero_add] at h2
    rw [h2, he]
  have htotIn : psum (fun m => ((valsAt (allPushes (n + 1) 0 L) (n + 1 + m)).length : Int)) n
      = e := by
    rw [psum_valsAt (n + 1) n (allPushes (n + 1) 0 L), hP,
      pushes_block_in (n + 1) n (edgesOf 0 L) hE (by omega), he]
  -- counting pass
  obtain ⟨adj1, hrun1, hlen1, hcell1⟩ := countPass_spec n (n + 1) L 0
    (List.replicate (2 * n + 2) 0) ht (by simp; omega) (by simp; omega)
  simp only [cellAt_replicate, Int.zero_add, List.length_replicate] at hcell1 hlen1
  -- the two shifts
  obtain ⟨adj2, hrun2, hlen2, hcell2, hframe2⟩ :=
    shift_indices_spec n 0 adj1 hn (by omega)
  obtain ⟨adj3, hrun3, hlen3, hcell3, hframe3⟩ :=
    shift_indices_spec n (n + 1) adj2 hn (by omega)
  have hout3 : ∀ k, k < n → cellAt adj3 k =
      psum (fun m => ((valsAt (allPushes (n + 1) 0 L) m).length : Int)) k := by
    intro k hk
    rw [hframe3 k (by omega)]
    have := hcell2 k hk
    simp only [Nat.zero_add] at this
    rw [this]
    exact psum_congr k (fun m _ => hcell1 m)
  have hin3 : ∀ k, k < n → cellAt adj3 (n + 1 + k) =
      psum (fun m => ((valsAt (allPushes (n + 1) 0 L) (n + 1 + m)).length : Int)) k := by
    intro k hk
    rw [hcell3 k hk]
    apply psum_congr
    intro m hm
    rw [hframe2 _ (by omega), hcell1]
  -- placement
  have hplace := placePass_eq (fun c => if c < n + 1 then 0 else (e : Int)) (n + 1) (e : Int)
    L 0 (adj3, List.replicate (2 * e) none)
    (by intro k _ hk; simp only []; rw [if_pos (by omega)])
    (by intro l _ t _; simp only []; rw [if_neg (by omega)])
  obtain ⟨adj4, edg4, hrun4, hlen4, hlenE, hcell4, hvals4, _⟩ :=
    pushAll_spec (fun c => if c < n + 1 then 0 else (e : Int)) (allPushes (n + 1) 0 L) adj3
      (List.replicate (2 * e) none)
      (by
        intro q hq
        rcases hcellP q hq with h | h <;> omega)
      (by
        intro c hc
        obtain ⟨q, hq, rfl⟩ := valsAt_ne_nil_cell hc
        simp only [List.length_replicate]
        rcases hcellP q hq with h | h
        · rw [if_pos (by omega), hout3 _ h]
          have h1 := psum_nonneg (fun m => hcnt0 m) q.1
          have h2 := psum_mono (fun m => hcnt0 m) (show q.1 + 1 ≤ n by omega)
          rw [← psum_step, htotOut] at h2
          push_cast; omega
        · obtain ⟨k, hk⟩ : ∃ k, q.1 = n + 1 + k := ⟨q.1 - (n + 1), by omega⟩
          rw [if_neg (by omega), hk, hin3 _ (by omega)]
          have h1 := psum_nonneg (fun m => hcnt0 (n + 1 + m)) k
          have h2 := psum_mono (fun m => hcnt0 (n + 1 + m)) (show k + 1 ≤ n by omega)
          rw [← psum_step, htotIn] at h2
          push_cast; omega)
      (by
        intro c c' hcc hc hc'
        obtain ⟨q, hq, rfl⟩ := valsAt_ne_nil_cell hc
        obtain ⟨q', hq', rfl⟩ := valsAt_ne_nil_cell hc'
        simp only []
        rcases hcellP q hq with h | h
        · rw [if_pos (show q.1 < n + 1 by omega), hout3 _ h]
          have a1 := psum_mono (fun m => hcnt0 m) (show q.1 + 1 ≤ n by omega)
          rw [← psum_step, htotOut] at a1
          rcases hcellP q' hq' with h' | h'
          · rw [if_pos (show q'.1 < n + 1 by omega), hout3 _ h']
            rcases Nat.lt_or_gt_of_ne hcc with h3 | h3
            · left
              have := psum_mono (fun m => hcnt0 m) (show q.1 + 1 ≤ q'.1 by omega)
              rw [← psum_step] at this
              omega
            · right
              have := psum_mono (fun m => hcnt0 m) (show q'.1 + 1 ≤ q.1 by omega)
              rw [← psum_step] at this
              omega
          · obtain ⟨k', hk'⟩ : ∃ k, q'.1 = n + 1 + k := ⟨q'.1 - (n + 1), by omega⟩
            rw [if_neg (show ¬ q'.1 < n + 1 by omega), hk', hin3 _ (by omega)]
            have b1 := psum_nonneg (fun m => hcnt0 (n + 1 + m)) k'
            left; omega
        · obtain ⟨k, hk⟩ : ∃ k, q.1 = n + 1 + k := ⟨q.1 - (n + 1), by omega⟩
          rw [if_neg (show ¬ q.1 < n + 1 by omega), hk, hin3 _ (by omega)]
          have b1 := psum_nonneg (fun m => hcnt0 (n + 1 + m)) k
          rcases hcellP q' hq' with h' | h'
          · rw [if_pos (show q'.1 < n + 1 by omega), hout3 _ h']
            have a1 := psum_mono (fun m => hcnt0 m) (show q'.1 + 1 ≤ n by omega)
            rw [← psum_step, htotOut] at a1
            right; omega
          · obtain ⟨k', hk'⟩ : ∃ k, q'.1 = n + 1 + k := ⟨q'.1 - (n + 1), by omega⟩
            rw [if_neg (show ¬ q'.1 < n + 1 by omega), hk', hin3 _ (by omega)]
            have hkk : k ≠ k' := by
              intro x; apply hcc; rw [hk, hk', x]
            rcases Nat.lt_or_gt_of_ne hkk with h3 | h3
            · left
              have := psum_mono (fun m => hcnt0 (n + 1 + m)) (show k + 1 ≤ k' by omega)
              rw [← psum_step] at this
              omega
            · right
              have := psum_mono (fun m => hcnt0 (n + 1 + m)) (show k' + 1 ≤ k by omega)
              rw [← psum_step] at this
              omega)
  -- the two rewinds
  obtain ⟨adj5, hrun5, hlen5, h50, h5j, h5n, hframe5⟩ :=
    rewind_indices_spec n 0 (e : Int) adj4 hn (by omega)
  obtain ⟨adj6, hrun6, hlen6, h60, h6j, h6n, hframe6⟩ :=
    rewind_indices_spec n (n + 1) (e : Int) adj5 hn (by omega)
  have hout6 : ∀ k, k ≤ n → cellAt adj6 k =
      psum (fun m => ((valsAt (allPushes (n + 1) 0 L) m).length : Int)) k := by
    intro k hk
    rw [hframe6 k (by omega)]
    rcases Nat.eq_zero_or_pos k with h | h
    · subst h; exact h50
    · rcases Nat.lt_or_ge k n with h' | h'
      · have := h5j k h h'
        simp only [Nat.zero_add] at this
        rw [this, hcell4, hout3 _ (by omega), psum_step]
        congr 1; omega
      · have : k = n := by omega
        subst this
        simp only [Nat.zero_add] at h5n
        rw [h5n, htotOut]
  have hin6 : ∀ k, k ≤ n → cellAt adj6 (n + 1 + k) =
      psum (fun m => ((valsAt (allPushes (n + 1) 0 L) (n + 1 + m)).length : Int)) k := by
    intro k hk
    rcases Nat.eq_zero_or_pos k with h | h
    · subst h; exact h60
    · rcases Nat.lt_or_ge k n with h' | h'
      · have e1 : n + 1 + k - 1 = n + 1 + (k - 1) := by omega
        rw [h6j k h h', hframe5 _ (by omega), hcell4, e1, hin3 _ (by omega), psum_step]
        congr 1; omega
      · have : k = n := by omega
        subst this
        rw [h6n, htotIn]
  refine ⟨⟨n, e, adj6, edg4⟩, ?_, rfl, rfl, by simp only []; omega,
    by simp only []; rw [hlenE]; simp, hout6, hin6, ?_, ?_,
    by simp only []; rw [hout6 n (Nat.le_refl n), htotOut],
    by simp only []; rw [hin6 n (Nat.le_refl n), htotIn]⟩
  · have hn0 : ¬ ((n : Int) = 0) := by omega
    have hneg : ¬ (2 * (n : Int) + 2 < 0 ∨ 2 * (e : Int) < 0) := by omega
    have e1 : (2 * (n : Int) + 2).toNat = 2 * n + 2 := by omega
    have e2 : (2 * (e : Int)).toNat = 2 * e := by omega
    have e3 : ((n : Int) + 1) = ((n + 1 : Nat) : Int) := by push_cast; rfl
    have e4 : (0 : Int) = ((0 : Nat) : Int) := rfl
    simp only [make_graph, hn0, hneg, if_false, if_true, List.length_map, hL, ne_eq,
      not_true_eq_false, e1, e2]
    rw [e3, hrun1]
    simp only [bind, Except.bind]
    rw [e4, hrun2]
    simp only
    rw [hrun3]
    simp only
    rw [hplace, hrun4]
    simp only
    rw [hrun5]
    simp only
    rw [hrun6]
  · intro c r v hc hv
    have := hvals4 c r v hv
    simp only [] at this
    rw [if_pos (by omega), hout3 c hc, Int.zero_add] at this
    simp only []
    rw [hout6 c (by omega)]
    exact this
  · intro c r v hc hv
    have := hvals4 (n + 1 + c) r v hv
    simp only [] at this
    rw [if_neg (by omega), hin3 c hc] at this
    simp only []
    rw [hin6 c (by omega)]
    exact this

/-- The undirected case of `make_graph` on a valid adjacency list: the call succeeds, the
offsets are the prefix sums of the bucket sizes of the shared array, and every pushed
value sits in its block in the order of the pushes. -/
theorem make_graph_undirected (L : List (List Nat)) (n e : Nat) (hn : 1 ≤ n)
    (hL : L.length = n) (ht : ∀ l ∈ L, ∀ t ∈ l, t < n) (he : (edgesOf 0 L).length = e) :
    ∃ g, make_graph ⟨n, e, L.map (fun (l : List Nat) => l.map (fun (t : Nat) => (t : Int)))⟩
        false = .ok g ∧ g.n = n ∧ g.e = e ∧ g.adj.length = n + 1 ∧ g.edg.length = 2 * e ∧
      (∀ k, k ≤ n → cellAt g.adj k =
        psum (fun m => ((valsAt (allPushes 0 0 L) m).length : Int)) k) ∧
      (∀ c (r : Nat) v, c < n → (valsAt (allPushes 0 0 L) c)[r]? = some v →
        g.edg[(cellAt g.adj c + r).toNat]? = some (some v)) ∧
      cellAt g.adj n = 2 * (e : Int) := by
  have hE := edges_lt hL ht
  have hP : allPushes 0 0 L = pushes 0 (edgesOf 0 L) := allPushes_eq _ _ _
  have hcellP : ∀ q ∈ allPushes 0 0 L, q.1 < n := by
    intro q hq
    rw [hP] at hq
    obtain ⟨p, hp, h | h⟩ := mem_pushes_cell hq
    · rw [h]; exact (hE p hp).1
    · rw [h]; have := (hE p hp).2; omega
  have hcnt0 : ∀ c, (0 : Int) ≤ ((valsAt (allPushes 0 0 L) c).length : Int) :=
    fun c => Int.ofNat_nonneg _
  have htot : psum (fun m => ((valsAt (allPushes 0 0 L) m).length : Int)) n = 2 * (e : Int) := by
    have := psum_valsAt 0 n (allPushes 0 0 L)
    simp only [Nat.zero_add] at this
    rw [this, hP]
    have h2 := pushes_block_shared n (edgesOf 0 L) hE
    simp only [Nat.zero_add] at h2
    rw [h2, he]; push_cast; rfl
  obtain ⟨adj1, hrun1, hlen1, hcell1⟩ := countPass_spec n 0 L 0
    (List.replicate (n + 1) 0) ht (by simp; omega) (by simp)
  simp only [cellAt_replicate, Int.zero_add, List.length_replicate] at hcell1 hlen1
  obtain ⟨adj2, hrun2, hlen2, hcell2, hframe2⟩ :=
    shift_indices_spec n 0 adj1 hn (by omega)
  have hout2 : ∀ k, k < n → cellAt adj2 k =
      psum (fun m => ((valsAt (allPushes 0 0 L) m).length : Int)) k := by
    intro k hk
    have := hcell2 k hk
    simp only [Nat.zero_add] at this
    rw [this]
    exact psum_congr k (fun m _ => hcell1 m)
  have hplace := placePass_eq (fun _ => (0 : Int)) 0 (0 : Int)
    L 0 (adj2, List.replicate (2 * e) none) (fun _ _ _ => rfl) (fun _ _ _ _ => rfl)
  obtain ⟨adj4, edg4, hrun4, hlen4, hlenE, hcell4, hvals4, _⟩ :=
    pushAll_spec (fun _ => (0 : Int)) (allPushes 0 0 L) adj2
      (List.replicate (2 * e) none)
      (by
        intro q hq
        have := hcellP q hq
        omega)
      (by
        intro c hc
        obtain ⟨q, hq, rfl⟩ := valsAt_ne_nil_cell hc
        simp only [List.length_replicate]
        have h := hcellP q hq
        rw [hout2 _ h]
        have h1 := psum_nonneg (fun m => hcnt0 m) q.1
        have h2 := psum_mono (fun m => hcnt0 m) (show q.1 + 1 ≤ n by omega)
        rw [← psum_step, htot] at h2
        push_cast; omega)
      (by
        intro c c' hcc hc hc'
        obtain ⟨q, hq, rfl⟩ := valsAt_ne_nil_cell hc
        obtain ⟨q', hq', rfl⟩ := valsAt_ne_nil_cell hc'
        simp only []
        rw [hout2 _ (hcellP q hq), hout2 _ (hcellP q' hq')]
        rcases Nat.lt_or_gt_of_ne hcc with h3 | h3
        · left
          have := psum_mono (fun m => hcnt0 m) (show q.1 + 1 ≤ q'.1 by omega)
          rw [← psum_step] at this
          omega
        · right
          have := psum_mono (fun m => hcnt0 m) (show q'.1 + 1 ≤ q.1 by omega)
          rw [← psum_step] at this
          omega)
  obtain ⟨adj5, hrun5, hlen5, h50, h5j, h5n, _⟩ :=
    rewind_indices_spec n 0 (2 * (e : Int)) adj4 hn (by omega)
  have hout5 : ∀ k, k ≤ n → cellAt adj5 k =
      psum (fun m => ((valsAt (allPushes 0 0 L) m).length : Int)) k := by
    intro k hk
    rcases Nat.eq_zero_or_pos k with h | h
    · subst h; exact h50
    · rcases Nat.lt_or_ge k n with h' | h'
      · have := h5j k h h'
        simp only [Nat.zero_add] at this
        rw [this, hcell4, hout2 _ (by omega), psum_step]
        congr 1; omega
      · have : k = n := by omega
        subst this
        simp only [Nat.zero_add] at h5n
        rw [h5n, htot]
  refine ⟨⟨n, e, adj5, edg4⟩, ?_, rfl, rfl, by simp only []; omega,
    by simp only []; rw [hlenE]; simp, hout5, ?_,
    by simp only []; rw [hout5 n (Nat.le_refl n), htot]⟩
  · have hn0 : ¬ ((n : Int) = 0) := by omega
    have hneg : ¬ ((n : Int) + 1 < 0 ∨ 2 * (e : Int) < 0) := by omega
    have e1 : ((n : Int) + 1).toNat = n + 1 := by omega
    have e2 : (2 * (e : Int)).toNat = 2 * e := by omega
    simp only [Nat.cast_zero] at hrun1 hrun2 hplace hrun5
    simp only [make_graph, hn0, hneg, if_false, List.length_map, hL, ne_eq,
      not_true_eq_false, e1, e2, Bool.false_eq_true]
    rw [hrun1]
    simp only [bind, Except.bind]
    rw [hrun2]
    simp only
    rw [hplace, hrun4]
    simp only
    rw [hrun5]
  · intro c r v hc hv
    have := hvals4 c r v hv
    simp only [] at this
    rw [hout2 c hc, Int.zero_add] at this
    simp only []
    rw [hout5 c (by omega)]
    exact this

/-! ### Blocks of the built graph -/

theorem length_edgesOf : ∀ (L : List (List Nat)) (i : Nat),
    (edgesOf i L).length = (L.map List.length).sum := by
  intro L
  induction L with
  | nil => intro i; rfl
  | cons l L ih => intro i; simp [edgesOf, ih (i + 1)]

theorem valid_graph_nat {G : PyGraph} (h : ValidGraph G) :
    ∃ (L : List (List Nat)) (n e : Nat),
      G = ⟨n, e, L.map (fun (l : List Nat) => l.map (fun (t : Nat) => (t : Int)))⟩ ∧
      1 ≤ n ∧ L.length = n ∧ (∀ l ∈ L, ∀ t ∈ l, t < n) ∧ (edgesOf 0 L).length = e := by
  obtain ⟨hn, hlen, ht, hm⟩ := h
  obtain ⟨n, m, A⟩ := G
  simp only at hn hlen ht hm
  have hA : (A.map (fun l => l.map Int.toNat)).map
      (fun (l : List Nat) => l.map (fun (t : Nat) => (t : Int))) = A := by
    rw [List.map_map]
    conv_rhs => rw [← List.map_id A]
    apply List.map_congr_left
    intro l hl
    simp only [Function.comp, List.map_map, id]
    conv_rhs => rw [← List.map_id l]
    apply List.map_congr_left
    intro t htl
    have := ht l hl t htl
    simp only [Function.comp, id]
    omega
  refine ⟨A.map (fun l => l.map Int.toNat), n.toNat, (A.map List.length).sum, ?_, by omega,
    by simp; omega, ?_, ?_⟩
  · rw [hA, hm]
    congr 1
    omega
  · intro l hl t htl
    simp only [List.mem_map] at hl
    obtain ⟨l0, hl0, rfl⟩ := hl
    simp only [List.mem_map] at htl
    obtain ⟨t0, ht0, rfl⟩ := htl
    have := ht l0 hl0 t0 ht0
    omega
  · rw [length_edgesOf, List.map_map]
    congr 1
    apply List.map_congr_left
    intro l _
    simp

theorem valsAt_pushesOf_out (ainOff i : Nat) (l : List Nat) (c : Nat) (hc : c < ainOff) :
    valsAt (pushesOf ainOff i l) c =
      if i = c then l.map (fun (t : Nat) => (t : Int)) else [] := by
  induction l with
  | nil => simp [pushesOf, valsAt_nil]
  | cons t l ih =>
    have e : pushesOf ainOff i (t :: l) =
        (i, (t : Int)) :: (ainOff + t, (i : Int)) :: pushesOf ainOff i l := by
      simp [pushesOf]
    rw [e, valsAt_cons, valsAt_cons, if_neg (show ¬ ainOff + t = c by omega), ih]
    by_cases h : i = c
    · simp [h]
    · simp [h]

theorem valsAt_allPushes_out (ainOff : Nat) (c : Nat) (hc : c < ainOff) :
    ∀ (L : List (List Nat)) (i : Nat),
      valsAt (allPushes ainOff i L) c =
        if i ≤ c then ((L[c - i]?).getD []).map (fun (t : Nat) => (t : Int)) else [] := by
  intro L
  induction L with
  | nil => intro i; simp [allPushes, valsAt_nil]
  | cons l L ih =>
    intro i
    simp only [allPushes, valsAt_append]
    rw [valsAt_pushesOf_out ainOff i l c hc, ih (i + 1)]
    by_cases h : i = c
    · subst h
      simp
    · by_cases h2 : i ≤ c
      · have h3 : i + 1 ≤ c := by omega
        have h4 : c - i = (c - (i + 1)) + 1 := by omega
        rw [if_neg h, if_pos h3, if_pos h2, h4]
        simp
      · have h3 : ¬ i + 1 ≤ c := by omega
        rw [if_neg h, if_neg h3, if_neg h2]
        rfl

theorem getElem?_block {edg : List (Option Int)} {a len : Int} (ha : 0 ≤ a) (r : Nat) :
    ((edg.drop a.toNat).take len.toNat)[r]? =
      if (r : Int) < len then edg[(a + r).toNat]? else none := by
  rw [List.getElem?_take]
  by_cases h : (r : Int) < len
  · have h' : r < len.toNat := by omega
    rw [if_pos h', if_pos h, List.getElem?_drop]
    congr 1
    omega
  · have h' : ¬ r < len.toNat := by omega
    rw [if_neg h', if_neg h]

/-- A block whose cells hold the values `vs` in order, read back as a list. -/
theorem block_eq {edg : List (Option Int)} {a len : Int} {vs : List Int} (ha : 0 ≤ a)
    (hlen : len = vs.length)
    (hv : ∀ (r : Nat) v, vs[r]? = some v → edg[(a + r).toNat]? = some (some v)) :
    (edg.drop a.toNat).take len.toNat = vs.map some := by
  apply List.ext_getElem?
  intro r
  rw [getElem?_block ha, List.getElem?_map]
  by_cases h : r < vs.length
  · have hr : vs[r]? = some vs[r] := List.getElem?_eq_getElem h
    rw [if_pos (by omega), hv r _ hr, hr]
    rfl
  · rw [if_neg (by omega), List.getElem?_eq_none (by omega)]
    rfl

theorem valsAt_pushes_shared (E : List (Nat × Nat)) (c : Nat) :
    (valsAt (pushes 0 E) c).Perm
      ((E.filter (fun p => p.1 = c)).map (fun p => (p.2 : Int)) ++
        (E.filter (fun p => p.2 = c)).map (fun p => (p.1 : Int))) := by
  induction E with
  | nil => exact List.Perm.refl _
  | cons p E ih =>
    have e : pushes 0 (p :: E) = (p.1, (p.2 : Int)) :: (0 + p.2, (p.1 : Int)) :: pushes 0 E := by
      simp [pushes]
    rw [e, valsAt_cons, valsAt_cons, Nat.zero_add]
    by_cases h1 : p.1 = c
    · rw [if_pos h1, List.filter_cons_of_pos (by simpa using h1)]
      by_cases h2 : p.2 = c
      · rw [if_pos h2, List.filter_cons_of_pos (by simpa using h2)]
        simp only [List.map_cons, List.cons_append]
        exact (List.Perm.cons _ ((List.Perm.cons _ ih).trans List.perm_middle.symm))
      · rw [if_neg h2, List.filter_cons_of_neg (by simpa using h2)]
        simp only [List.map_cons, List.cons_append]
        exact List.Perm.cons _ ih
    · rw [if_neg h1, List.filter_cons_of_neg (by simpa using h1)]
      by_cases h2 : p.2 = c
      · rw [if_pos h2, List.filter_cons_of_pos (by simpa using h2)]
        simp only [List.map_cons]
        exact (List.Perm.cons _ ih).trans List.perm_middle.symm
      · rw [if_neg h2, List.filter_cons_of_neg (by simpa using h2)]
        exact ih

theorem edgesOf_filter_source (c : Nat) : ∀ (L : List (List Nat)) (i : Nat),
    ((edgesOf i L).filter (fun p => p.1 = c)).map (fun p => (p.2 : Int)) =
      if i ≤ c then ((L[c - i]?).getD []).map (fun (t : Nat) => (t : Int)) else [] := by
  intro L
  induction L with
  | nil => intro i; simp [edgesOf]
  | cons l L ih =>
    intro i
    simp only [edgesOf, List.filter_append, List.map_append]
    rw [ih (i + 1)]
    by_cases h : i = c
    · subst h
      have : (l.map (fun t => (i, t))).filter (fun p => decide (p.1 = i)) =
          l.map (fun t => (i, t)) := by
        rw [List.filter_eq_self]
        intro p hp
        simp only [List.mem_map] at hp
        obtain ⟨t, _, rfl⟩ := hp
        simp
      rw [this]
      simp
    · have : (l.map (fun t => (i, t))).filter (fun p => decide (p.1 = c)) = [] := by
        rw [List.filter_eq_nil_iff]
        intro p hp
        simp only [List.mem_map] at hp
        obtain ⟨t, _, rfl⟩ := hp
        simpa using h
      rw [this]
      by_cases h2 : i ≤ c
      · have h3 : i + 1 ≤ c := by omega
        have h4 : c - i = (c - (i + 1)) + 1 := by omega
        rw [if_pos h3, if_pos h2, h4]
        simp
      · have h3 : ¬ i + 1 ≤ c := by omega
        rw [if_neg h3, if_neg h2]
        rfl

theorem edgesOf_filter_target (c : Nat) : ∀ (L : List (List Nat)) (i : Nat),
    ((edgesOf i L).filter (fun p => p.2 = c)).map (fun p => (p.1 : Int)) =
      sourcesFrom i (L.map (fun (l : List Nat) => l.map (fun (t : Nat) => (t : Int))))
        (c : Int) := by
  intro L
  induction L with
  | nil => intro i; rfl
  | cons l L ih =>
    intro i
    simp only [edgesOf, List.filter_append, List.map_append, List.map_cons, sourcesFrom]
    rw [ih (i + 1)]
    congr 1
    induction l with
    | nil => rfl
    | cons t l ihl =>
      by_cases h : t = c
      · subst h
        rw [List.map_cons, List.filter_cons_of_pos (by simp), List.map_cons, List.map_cons,
          List.count_cons_self, List.replicate_succ, ihl]
      · have h' : ¬ ((t : Int) = (c : Int)) := by omega
        rw [List.map_cons, List.filter_cons_of_neg (by simpa using h), List.map_cons,
          List.count_cons_of_ne (fun e => h' e.symm), ihl]

theorem psum_diff (f : Nat → Int) (k : Nat) : psum f (k + 1) - psum f k = f k := by
  simp only [psum]; omega

/-- The block of a node read back from offsets that are prefix sums of bucket sizes. -/
theorem outBlock_of_spec {g : SaucyGraph} {n : Nat} {f : Nat → List Int}
    (hoff : ∀ k, k ≤ n → cellAt g.adj k = psum (fun m => ((f m).length : Int)) k)
    (hv : ∀ c (r : Nat) v, c < n → (f c)[r]? = some v →
      g.edg[(cellAt g.adj c + r).toNat]? = some (some v))
    {c : Nat} (hc : c < n) : outBlock g c = (f c).map some := by
  unfold outBlock
  apply block_eq
  · rw [hoff c (by omega)]
    exact psum_nonneg (fun m => Int.ofNat_nonneg _) c
  · rw [hoff c (by omega), hoff (c + 1) (by omega)]
    exact psum_diff _ c
  · intro r v hr
    exact hv c r v hc hr

theorem getElem_map_ints (L : List (List Nat)) (i : Nat)
    (hi : i < (L.map (fun (l : List Nat) => l.map (fun (t : Nat) => (t : Int)))).length) :
    (L.map (fun (l : List Nat) => l.map (fun (t : Nat) => (t : Int))))[i] =
      ((L[i]?).getD []).map (fun (t : Nat) => (t : Int)) := by
  have hi' : i < L.length := by simpa using hi
  rw [List.getElem_map, List.getElem?_eq_getElem hi']
  rfl

/-- The blocks of the graph built from a valid adjacency list: the edge list of the node,
followed (in some order, for an undirected graph) by the sources that list the node. -/
theorem outBlock_make_graph (G : PyGraph) (directed : Bool) (h : ValidGraph G) :
    ∃ g, make_graph G directed = .ok g ∧
      ∀ (i : Nat) (hi : i < G.adjacency_list.length),
        (outBlock g i).Perm
          ((G.adjacency_list[i] ++
            (if directed then [] else sourcesOf G.adjacency_list i)).map some) := by
  obtain ⟨L, n, e, rfl, hn, hL, ht, he⟩ := valid_graph_nat h
  cases directed with
  | true =>
    obtain ⟨g, hg, _, _, _, _, hout, _, hv, _, _, _⟩ := make_graph_directed L n e hn hL ht he
    refine ⟨g, hg, ?_⟩
    intro i hi
    have hin : i < n := by simpa [hL] using hi
    rw [outBlock_of_spec hout hv hin, valsAt_allPushes_out (n + 1) i (by omega) L 0]
    simp only [Nat.zero_le, if_true, Nat.sub_zero, List.append_nil]
    rw [getElem_map_ints L i hi]
  | false =>
    obtain ⟨g, hg, _, _, _, _, hout, hv, _⟩ := make_graph_undirected L n e hn hL ht he
    refine ⟨g, hg, ?_⟩
    intro i hi
    have hin : i < n := by simpa [hL] using hi
    rw [outBlock_of_spec hout hv hin, allPushes_eq]
    apply List.Perm.map
    have := valsAt_pushes_shared (edgesOf 0 L) i
    rw [edgesOf_filter_source i L 0, edgesOf_filter_target i L 0] at this
    simp only [Nat.zero_le, if_true, Nat.sub_zero] at this
    rw [getElem_map_ints L i hi]
    simpa [sourcesOf] using this

/-! ### Every cell of the target array is written -/

theorem psum_locate (f : Nat → Int) :
    ∀ (n : Nat) (x : Int), 0 ≤ x → x < psum f n →
      ∃ c, c < n ∧ psum f c ≤ x ∧ x < psum f (c + 1) := by
  intro n
  induction n with
  | zero => intro x h0 h1; simp only [psum] at h1; omega
  | succ n ih =>
    intro x h0 h1
    by_cases h : x < psum f n
    · obtain ⟨c, hc, h2, h3⟩ := ih x h0 h
      exact ⟨c, by omega, h2, h3⟩
    · exact ⟨n, by omega, by omega, h1⟩

theorem mem_valsAt {P : List (Nat × Int)} {c : Nat} {v : Int} (h : v ∈ valsAt P c) :
    ∃ q ∈ P, q.1 = c ∧ q.2 = v := by
  simp only [valsAt, List.mem_map, List.mem_filter, decide_eq_true_eq] at h
  obtain ⟨q, ⟨hq, hc⟩, hv⟩ := h
  exact ⟨q, hq, hc, hv⟩

theorem pushes_value_range {ainOff n : Nat} {E : List (Nat × Nat)}
    (hE : ∀ p ∈ E, p.1 < n ∧ p.2 < n) {q : Nat × Int} (hq : q ∈ pushes ainOff E) :
    0 ≤ q.2 ∧ q.2 < n := by
  simp only [pushes, List.mem_flatMap, List.mem_cons, List.mem_singleton] at hq
  obtain ⟨p, hp, h | h | h⟩ := hq
  · rw [h]; have := (hE p hp).2; simp only; omega
  · rw [h]; have := (hE p hp).1; simp only; omega
  · cases h

/-- A position inside the span of a block of `n` buckets holds one of the pushed values. -/
theorem written_of_spec (edg : List (Option Int)) (n : Nat) (f : Nat → List Int)
    (start : Nat → Int) (base : Int)
    (hstart : ∀ c, c < n → start c = psum (fun m => ((f m).length : Int)) c)
    (hv : ∀ c (r : Nat) v, c < n → (f c)[r]? = some v →
      edg[(base + start c + r).toNat]? = some (some v))
    (hb : 0 ≤ base) {k : Nat} (h0 : base ≤ k)
    (h1 : (k : Int) < base + psum (fun m => ((f m).length : Int)) n) :
    ∃ c v, c < n ∧ v ∈ f c ∧ edg[k]? = some (some v) := by
  obtain ⟨c, hc, h2, h3⟩ := psum_locate (fun m => ((f m).length : Int))
    n ((k : Int) - base) (by omega) (by omega)
  have hr : ((k : Int) - base - psum (fun m => ((f m).length : Int)) c).toNat < (f c).length := by
    have := psum_diff (fun m => ((f m).length : Int)) c
    simp only at this
    omega
  have hget := List.getElem?_eq_getElem hr
  have := hv c _ _ hc hget
  rw [hstart c hc] at this
  have e : (base + psum (fun m => ((f m).length : Int)) c +
      ((((k : Int) - base - psum (fun m => ((f m).length : Int)) c).toNat : Nat) : Int)).toNat
      = k := by omega
  rw [e] at this
  exact ⟨c, _, hc, List.getElem_mem hr, this⟩

/-- The graph built from a valid adjacency list satisfies the graph invariant. -/
theorem graphInvariant_make_graph (G : PyGraph) (directed : Bool) (h : ValidGraph G) :
    ∃ g, make_graph G directed = .ok g ∧ g.n = G.n ∧ g.e = G.m ∧
      GraphInvariant directed g := by
  obtain ⟨L, n, e, rfl, hn, hL, ht, he⟩ := valid_graph_nat h
  have hE := edges_lt hL ht
  cases directed with
  | true =>
    obtain ⟨g, hg, hgn, hge, hadj, hedg, hout, hin, hv, hvin, hon, hinn⟩ :=
      make_graph_directed L n e hn hL ht he
    have htotOut : psum (fun m => ((valsAt (allPushes (n + 1) 0 L) m).length : Int)) n = e := by
      rw [← hout n (Nat.le_refl n), hon]
    have htotIn : psum (fun m => ((valsAt (allPushes (n + 1) 0 L) (n + 1 + m)).length : Int)) n
        = e := by
      rw [← hin n (Nat.le_refl n), hinn]
    refine ⟨g, hg, hgn, hge, ?_, ?_, ?_, ?_, ?_, ?_⟩
    · rw [hgn]; simpa using hadj
    · rw [hout 0 (by omega)]; rfl
    · intro i hi
      rw [hgn] at hi
      simp only [Int.toNat_ofNat] at hi
      rw [hout i (by omega), hout (i + 1) (by omega)]
      have := psum_diff (fun m => ((valsAt (allPushes (n + 1) 0 L) m).length : Int)) i
      simp only at this
      omega
    · rw [hgn, hge]; simpa using hon
    · rw [hedg, hge]; push_cast; rfl
    · intro k hk
      rw [hgn]
      rw [hedg] at hk
      rcases Nat.lt_or_ge k e with h1 | h1
      · obtain ⟨c, v, hc, hmem, hcell⟩ := written_of_spec g.edg n
          (fun m => valsAt (allPushes (n + 1) 0 L) m) (fun c => cellAt g.adj c) 0 (k := k)
          (fun c hc => hout c (by omega))
          (fun c r v hc hr => by
            have := hv c r v hc hr
            simpa using this)
          (Int.le_refl 0) (by omega) (by rw [htotOut]; omega)
        obtain ⟨q, hq, _, rfl⟩ := mem_valsAt hmem
        rw [allPushes_eq] at hq
        exact ⟨q.2, hcell, pushes_value_range hE hq⟩
      · obtain ⟨c, v, hc, hmem, hcell⟩ := written_of_spec g.edg n
          (fun m => valsAt (allPushes (n + 1) 0 L) (n + 1 + m))
          (fun c => cellAt g.adj (n + 1 + c)) (e : Int) (k := k)
          (fun c hc => hin c (by omega))
          (fun c r v hc hr => hvin c r v hc hr)
          (by omega) (by omega) (by rw [htotIn]; omega)
        obtain ⟨q, hq, _, rfl⟩ := mem_valsAt hmem
        rw [allPushes_eq] at hq
        exact ⟨q.2, hcell, pushes_value_range hE hq⟩
  | false =>
    obtain ⟨g, hg, hgn, hge, hadj, hedg, hout, hv, hon⟩ :=
      make_graph_undirected L n e hn hL ht he
    have htot : psum (fun m => ((valsAt (allPushes 0 0 L) m).length : Int)) n = 2 * (e : Int) := by
      rw [← hout n (Nat.le_refl n), hon]
    refine ⟨g, hg, hgn, hge, ?_, ?_, ?_, ?_, ?_, ?_⟩
    · rw [hgn]; simpa using hadj
    · rw [hout 0 (by omega)]; rfl
    · intro i hi
      rw [hgn] at hi
      simp only [Int.toNat_ofNat] at hi
      rw [hout i (by omega), hout (i + 1) (by omega)]
      have := psum_diff (fun m => ((valsAt (allPushes 0 0 L) m).length : Int)) i
      simp only at this
      omega
    · rw [hgn, hge]; simpa using hon
    · rw [hedg, hge]; push_cast; rfl
    · intro k hk
      rw [hgn]
      rw [hedg] at hk
      obtain ⟨c, v, hc, hmem, hcell⟩ := written_of_spec g.edg n
        (fun m => valsAt (allPushes 0 0 L) m) (fun c => cellAt g.adj c) 0 (k := k)
        (fun c hc => hout c (by omega))
        (fun c r v hc hr => by
          have := hv c r v hc hr
          simpa using this)
        (Int.le_refl 0) (by omega) (by rw [htot]; omega)
      obtain ⟨q, hq, _, rfl⟩ := mem_valsAt hmem
      rw [allPushes_eq] at hq
      exact ⟨q.2, hcell, pushes_value_range hE hq⟩

/-! ### Entries that a call leaves alone -/

theorem preserved_untouched {perm : List Nat} {n : Nat} (hperm : IsPermutation perm n)
    {p : List Int}
    (hown : ∀ x y : Nat, Moved perm y → p[x]? = some (y : Int) → p[y]? = some (y : Int)) :
    Preserved perm n (Untouched p perm) where
  mint := by
    intro g i i' v hl hp hne hg hv ⟨h1, h2⟩
    have hmi : Moved perm i := ⟨i', hp, hne⟩
    have hil : i < g.length := (List.getElem?_eq_some.1 hg).1
    constructor
    · intro x hx
      have hxi : i ≠ x := by
        rintro rfl; exact hx (Or.inl hmi)
      rw [List.getElem?_set_ne hxi]; exact h1 x hx
    · intro x w hw hpw
      by_cases hxi : i = x
      · subst hxi
        rw [List.getElem?_set, if_pos rfl, if_pos hil] at hw
        injection hw with hw; subst hw
        exact ⟨by omega, i, hmi, Or.inl rfl⟩
      · rw [List.getElem?_set_ne hxi] at hw
        exact h2 x w hw hpw
  color := by
    intro g g' oid j y hl hj ho hp hne hg hc ⟨h1, h2⟩
    have hmy : Moved perm y := ⟨j, hp, fun e => hne e.symm⟩
    obtain ⟨j', hj', _⟩ := perm_get hperm hj
    have hmj : Moved perm j := by
      refine ⟨j', hj', ?_⟩
      intro e
      rw [e] at hj'
      exact hne (perm_inj hperm hp hj')
    have hoid : Writable p perm oid := by
      by_cases e : p[y]? = some oid
      · exact ⟨ho, y, hmy, Or.inr e⟩
      · exact h2 y oid hg e
    obtain ⟨v, hv, c1 | c1 | c1⟩ := colorNode_cases oid n j g hl hj
    · rw [c1.2] at hc; injection hc with hc; subst hc
      have hjl : j < g.length := by omega
      constructor
      · intro x hx
        have hxj : j ≠ x := by
          rintro rfl; exact hx (Or.inl hmj)
        rw [List.getElem?_set_ne hxj]; exact h1 x hx
      · intro x w hw hpw
        by_cases hxj : j = x
        · subst hxj
          rw [List.getElem?_set, if_pos rfl, if_pos hjl] at hw
          injection hw with hw; subst hw
          exact hoid
        · rw [List.getElem?_set_ne hxj] at hw
          exact h2 x w hw hpw
    · rw [c1.2.2] at hc; injection hc with hc; subst hc
      exact ⟨h1, h2⟩
    · rw [c1.2.2] at hc; injection hc with hc; subst hc
      obtain ⟨hv0, hvo, _⟩ := c1
      constructor
      · intro x hx
        rw [List.getElem?_map, h1 x hx]
        cases hpx : p[x]? with
        | none => rfl
        | some w =>
          simp only [Option.map_some', Option.some.injEq]
          have hwv : w ≠ v := by
            rintro rfl
            apply hx
            right
            by_cases e : p[j]? = some w
            · exact ⟨j, hmj, w, hv0, hpx, e⟩
            · obtain ⟨_, y', hmy', e' | e'⟩ := h2 j w hv e
              · subst e'
                exact ⟨y', hmy', (y' : Int), hv0, hpx, hown x y' hmy' hpx⟩
              · exact ⟨y', hmy', w, hv0, hpx, e'⟩
          unfold relabelFn
          rw [if_neg hwv]
      · intro x w hw hpw
        rw [List.getElem?_map] at hw
        cases hgx : g[x]? with
        | none => rw [hgx] at hw; cases hw
        | some u =>
          rw [hgx] at hw
          simp only [Option.map_some', Option.some.injEq] at hw
          by_cases huv : u = v
          · have : w = oid := by rw [← hw]; unfold relabelFn; rw [if_pos huv]
            rw [this]; exact hoid
          · have : w = u := by rw [← hw]; unfold relabelFn; rw [if_neg huv]
            subst this
            exact h2 x w hgx hpw

theorem untouched_refl (p : List Int) (perm : List Nat) : Untouched p perm p :=
  ⟨fun _ _ => rfl, fun _ _ h1 h2 => absurd h1 h2⟩

/-- Links survive any sequence of `update_orbits` calls. -/
theorem apply_generators_link {n fuel : Nat} (hf : n ≤ fuel) :
    ∀ (gens : List (List Nat)) (p : List Int), (∀ g ∈ gens, IsPermutation g n) →
      p.length = n →
      ∃ p', apply_generators fuel n gens p = some p' ∧ p'.length = n ∧
        ∀ x y : Nat, Link p x y → Link p' x y := by
  intro gens
  induction gens with
  | nil => intro p _ hp; exact ⟨p, rfl, hp, fun _ _ h => h⟩
  | cons g gs ih =>
    intro p hg hp
    obtain ⟨p1, hp1, hlen1, hmono1, _⟩ :=
      update_orbits_spec (hg g (List.mem_cons_self _ _)) (preserved_link g n p) hf hp
        (fun _ _ h => h)
    obtain ⟨p', hp', hlen', hmono'⟩ :=
      ih p1 (fun g' hg' => hg g' (List.mem_cons_of_mem _ hg')) hlen1
    exact ⟨p', by simp [apply_generators, hp1, hp'], hlen',
      fun x y h => hmono' x y (hmono1 x y h)⟩

theorem moved_iterate {perm : List Nat} {n : Nat} (hperm : IsPermutation perm n) {x : Nat}
    (hx : x < n) (hmx : nxt perm x ≠ x) (m : Nat) :
    ∃ z', perm[(nxt perm)^[m] x]? = some z' ∧ z' ≠ (nxt perm)^[m] x ∧
      z' = (nxt perm)^[m + 1] x := by
  obtain ⟨z', hz', _⟩ := perm_get hperm (nxt_iterate_lt hperm hx m)
  refine ⟨z', hz', ?_, ?_⟩
  · intro e
    apply hmx
    have h1 : nxt perm ((nxt perm)^[m] x) = (nxt perm)^[m] x := by
      rw [nxt_eq hz', e]
    have h2 : (nxt perm)^[m] (nxt perm x) = (nxt perm)^[m] x := by
      rw [← Function.iterate_succ_apply, Function.iterate_succ_apply']
      exact h1
    exact (nxt_injective hperm).iterate m h2
  · rw [Function.iterate_succ_apply', nxt_eq hz']

/-! ### Simple consequences for single calls -/

theorem preserved_true (perm : List Nat) (n : Nat) : Preserved perm n (fun _ => True) where
  mint := fun _ _ _ _ _ _ _ _ _ _ => trivial
  color := fun _ _ _ _ _ _ _ _ _ _ _ _ _ => trivial

theorem visit_fixed {fuel : Nat} {perm : List Nat} {n i : Nat} (s : OrbState)
    (h : perm[i]? = some i) : visit fuel perm n i s = some s := by
  simp [visit, h]

/-! ### Conversion of Python integers -/

theorem maxInt_eq : toCInt (toCInt (2 ^ (4 * 8 - 1)) - 1) = 2147483647 := by
  decide

theorem toCInt_fits {v : Int} (h1 : -2147483648 ≤ v) (h2 : v ≤ 2147483647) :
    toCInt v = v := by
  unfold toCInt
  omega

theorem pyInt_AsInt_fits {v : Int} (h1 : -2147483648 ≤ v) (h2 : v ≤ 2147483647) :
    PyInt_AsInt (.int v) = .ok v := by
  have hl : -9223372036854775808 ≤ v ∧ v ≤ 9223372036854775807 := by omega
  simp only [PyInt_AsInt, PyInt_AsLong, if_pos hl, maxInt_eq, toCInt_fits h1 h2]
  rw [if_neg (by omega)]

theorem pyInt_AsInt_large {v : Int} (h : 2147483647 < v) :
    ∃ e, PyInt_AsInt (.int v) = .error e := by
  by_cases hl : -9223372036854775808 ≤ v ∧ v ≤ 9223372036854775807
  · refine ⟨.valueError, ?_⟩
    simp only [PyInt_AsInt, PyInt_AsLong, if_pos hl, maxInt_eq]
    rw [if_pos (by omega)]
  · refine ⟨.overflowError, ?_⟩
    simp only [PyInt_AsInt, PyInt_AsLong, if_neg hl]

/-! ### The colour partition -/

theorem fillColors_ok : ∀ (vs : List Int) (i : Nat) (colors : List Int),
    (∀ v ∈ vs, 0 ≤ v ∧ v ≤ 2147483647) → i + vs.length ≤ colors.length →
    ∃ r, fillColors i (vs.map PyObject.int) colors = .ok r ∧ r.length = colors.length ∧
      ∀ m : Nat, r[m]? = if i ≤ m ∧ m < i + vs.length then vs[m - i]? else colors[m]? := by
  intro vs
  induction vs with
  | nil =>
    intro i colors _ _
    refine ⟨colors, by simp [fillColors], rfl, ?_⟩
    intro m
    rw [if_neg (by simp)]
  | cons v vs ih =>
    intro i colors hv hlen
    have hv0 := hv v (List.mem_cons_self _ _)
    have hi : i < colors.length := by simp at hlen; omega
    obtain ⟨r, hr, hrl, hrm⟩ := ih (i + 1) (colors.set i v)
      (fun w hw => hv w (List.mem_cons_of_mem _ hw)) (by simp at hlen ⊢; omega)
    refine ⟨r, ?_, by simpa using hrl, ?_⟩
    · simp only [List.map_cons, fillColors, pyInt_AsInt_fits (by omega) hv0.2, if_pos hi]
      rw [if_neg (by omega), hr]
    · intro m
      rw [hrm m]
      by_cases h1 : i + 1 ≤ m ∧ m < i + 1 + vs.length
      · have h2 : i ≤ m ∧ m < i + (v :: vs).length := by simp; omega
        have h3 : m - i = (m - (i + 1)) + 1 := by omega
        rw [if_pos h1, if_pos h2, h3, List.getElem?_cons_succ]
      · rw [if_neg h1]
        by_cases h4 : m = i
        · subst h4
          have h2 : m ≤ m ∧ m < m + (v :: vs).length := by simp
          rw [if_pos h2, Nat.sub_self, List.getElem?_cons_zero]
          simp [List.getElem?_set, hi]
        · have h2 : ¬ (i ≤ m ∧ m < i + (v :: vs).length) := by simp; omega
          rw [if_neg h2, List.getElem?_set_ne (fun e => h4 e.symm)]

theorem fillColors_error : ∀ (items : List PyObject) (i : Nat) (colors : List Int),
    i + items.length ≤ colors.length → (∀ o ∈ items, NotBelowInt o) →
    (∃ o ∈ items, ¬ IsColor o) → ∃ e, fillColors i items colors = .error e := by
  intro items
  induction items with
  | nil => intro i colors _ _ ⟨o, ho, _⟩; cases ho
  | cons item items ih =>
    intro i colors hlen hnb hbad
    have hi : i < colors.length := by simp at hlen; omega
    cases item with
    | other => exact ⟨.typeError, by simp [fillColors, PyInt_AsInt]⟩
    | int v =>
      have hlow := hnb (.int v) (List.mem_cons_self _ _) v rfl
      by_cases hbig : 2147483647 < v
      · obtain ⟨e, he⟩ := pyInt_AsInt_large hbig
        exact ⟨e, by simp [fillColors, he]⟩
      · have hconv := pyInt_AsInt_fits hlow (by omega)
        by_cases hneg : v < 0
        · exact ⟨.valueError, by simp [fillColors, hconv, hi, hneg]⟩
        · obtain ⟨o, ho, hob⟩ := hbad
          have hrest : ∃ o ∈ items, ¬ IsColor o := by
            rcases List.mem_cons.1 ho with e | e
            · exfalso
              apply hob
              exact ⟨v, e, by omega, by omega⟩
            · exact ⟨o, e, hob⟩
          obtain ⟨e, he⟩ := ih (i + 1) (colors.set i v) (by simp at hlen ⊢; omega)
            (fun o ho => hnb o (List.mem_cons_of_mem _ ho)) hrest
          exact ⟨e, by simp [fillColors, hconv, hi, hneg, he]⟩

theorem initialize_color_partition_ok (n : Nat) (vs : List Int) (hlen : vs.length = n)
    (hv : ∀ v ∈ vs, 0 ≤ v ∧ v ≤ 2147483647) :
    initialize_color_partition (.seq (vs.map PyObject.int)) n = .ok vs := by
  obtain ⟨r, hr, hrl, hrm⟩ := fillColors_ok vs 0 (List.replicate n 0) hv (by simp [hlen])
  simp only [initialize_color_partition, List.length_map, hlen, if_true]
  rw [hr]
  congr 1
  apply List.ext_getElem?
  intro m
  rw [hrm m]
  by_cases h : m < vs.length
  · rw [if_pos ⟨Nat.zero_le _, by omega⟩, Nat.sub_zero]
  · rw [if_neg (by omega), List.getElem?_eq_none (by simp; omega),
      List.getElem?_eq_none (by omega)]

theorem isColor_ints : ∀ items : List PyObject, (∀ o ∈ items, IsColor o) →
    ∃ vs : List Int, items = vs.map PyObject.int ∧ ∀ v ∈ vs, 0 ≤ v ∧ v ≤ 2147483647 := by
  intro items
  induction items with
  | nil => intro _; exact ⟨[], rfl, fun v hv => by cases hv⟩
  | cons o items ih =>
    intro hall
    obtain ⟨vs, hvs, hv⟩ := ih (fun o ho => hall o (List.mem_cons_of_mem _ ho))
    obtain ⟨v, rfl, h0, h1⟩ := hall o (List.mem_cons_self _ _)
    refine ⟨v :: vs, by rw [hvs]; rfl, ?_⟩
    intro w hw
    rcases List.mem_cons.1 hw with e | e
    · rw [e]; exact ⟨h0, h1⟩
    · exact hv w e

theorem isColorSeq_ints {py_colors : PyColors} {n : Nat} (h : IsColorSeq py_colors n) :
    ∃ vs : List Int, py_colors = .seq (vs.map PyObject.int) ∧ vs.length = n ∧
      ∀ v ∈ vs, 0 ≤ v ∧ v ≤ 2147483647 := by
  obtain ⟨items, rfl, hlen, hall⟩ := h
  obtain ⟨vs, rfl, hv⟩ := isColor_ints items hall
  exact ⟨vs, rfl, by simpa using hlen, hv⟩

/-! ### Order inside the blocks of a directed graph -/

theorem valsAt_pushes_in (ainOff c : Nat) (E : List (Nat × Nat))
    (hE : ∀ p ∈ E, p.1 < ainOff) :
    valsAt (pushes ainOff E) (ainOff + c) =
      (E.filter (fun p => p.2 = c)).map (fun p => (p.1 : Int)) := by
  induction E with
  | nil => rfl
  | cons p E ih =>
    have e : pushes ainOff (p :: E) =
        (p.1, (p.2 : Int)) :: (ainOff + p.2, (p.1 : Int)) :: pushes ainOff E := by
      simp [pushes]
    have h1 := hE p (List.mem_cons_self _ _)
    rw [e, valsAt_cons, valsAt_cons, if_neg (show ¬ p.1 = ainOff + c by omega),
      ih (fun q hq => hE q (List.mem_cons_of_mem _ hq))]
    by_cases h2 : p.2 = c
    · rw [if_pos (show ainOff + p.2 = ainOff + c by omega),
        List.filter_cons_of_pos (by simpa using h2), List.map_cons]
    · rw [if_neg (show ¬ ainOff + p.2 = ainOff + c by omega),
        List.filter_cons_of_neg (by simpa using h2)]

/-- The blocks of the graph built from a valid directed adjacency list, in order. -/
theorem blocks_make_graph_directed (G : PyGraph) (h : ValidGraph G) :
    ∃ g, make_graph G true = .ok g ∧
      (∀ (i : Nat) (hi : i < G.adjacency_list.length),
        outBlock g i = (G.adjacency_list[i]).map some) ∧
      (∀ t : Nat, t < G.adjacency_list.length →
        inBlock g t = (sourcesOf G.adjacency_list t).map some) := by
  obtain ⟨L, n, e, rfl, hn, hL, ht, he⟩ := valid_graph_nat h
  obtain ⟨g, hg, hgn, hge, _, _, hout, hin, hv, hvin, _, _⟩ :=
    make_graph_directed L n e hn hL ht he
  have hE := edges_lt hL ht
  refine ⟨g, hg, ?_, ?_⟩
  · intro i hi
    have hin' : i < n := by simpa [hL] using hi
    rw [outBlock_of_spec hout hv hin', valsAt_allPushes_out (n + 1) i (by omega) L 0]
    simp only [Nat.zero_le, if_true, Nat.sub_zero]
    rw [getElem_map_ints L i hi]
  · intro t htl
    have htn : t < n := by simpa [hL] using htl
    have hvals : valsAt (allPushes (n + 1) 0 L) (n + 1 + t) =
        sourcesOf (L.map (fun (l : List Nat) => l.map (fun (t : Nat) => (t : Int)))) t := by
      rw [allPushes_eq, valsAt_pushes_in (n + 1) t (edgesOf 0 L)
        (fun p hp => by have := (hE p hp).1; omega), edgesOf_filter_target t L 0]
      rfl
    unfold inBlock
    rw [hgn, hge]
    simp only [Int.toNat_ofNat]
    rw [← hvals]
    apply block_eq
    · rw [hin t (by omega)]
      have := psum_nonneg
        (fun m => Int.ofNat_nonneg (valsAt (allPushes (n + 1) 0 L) (n + 1 + m)).length) t
      omega
    · have e1 : n + 1 + t + 1 = n + 1 + (t + 1) := by omega
      rw [e1, hin t (by omega), hin (t + 1) (by omega)]
      exact psum_diff _ t
    · intro r v hr
      exact hvin t r v htn hr

/-! ### Which nodes stay unassigned -/

theorem repInv_own {p : List Int} (hr : RepInv p) (x y : Nat)
    (h : p[x]? = some (y : Int)) : p[y]? = some (y : Int) := by
  rcases hr x _ h with e | ⟨_, e⟩
  · omega
  · rwa [Int.toNat_ofNat] at e

/-- One call of `update_orbits` on an array with the representative invariant: an
unassigned node stays unassigned exactly when the permutation fixes it. -/
theorem update_orbits_unassigned {perm : List Nat} {n : Nat} (hperm : IsPermutation perm n)
    {fuel : Nat} (hf : n ≤ fuel) {p : List Int} (hp : p.length = n) (hr : RepInv p) :
    ∃ p', update_orbits fuel p perm n = some p' ∧ p'.length = n ∧ RepInv p' ∧
      (∀ x y : Nat, Link p x y → Link p' x y) ∧
      ∀ i : Nat, i < n → p[i]? = some (-1) →
        (p'[i]? = some (-1) ↔ perm[i]? = some i) := by
  have hpres := ((preserved_link perm n p).and
    (@preserved_sound perm n (fun _ _ => True)
      ⟨fun _ => trivial, fun _ => trivial, fun _ _ => trivial⟩ (fun _ _ _ => trivial))).and
    (preserved_untouched hperm (fun x y _ h => repInv_own hr x y h))
  obtain ⟨p', hp', hlen, ⟨⟨hmono, hrep, _⟩, hkeep, _⟩, hmoved⟩ :=
    update_orbits_spec hperm hpres hf hp
      ⟨⟨fun _ _ h => h, hr, fun _ _ _ => trivial⟩, untouched_refl p perm⟩
  refine ⟨p', hp', hlen, hrep, hmono, ?_⟩
  intro i hi hneg
  obtain ⟨i', hi', _⟩ := perm_get hperm hi
  by_cases hfix : i' = i
  · subst hfix
    have hna : ¬ Affected p perm i' := by
      rintro (⟨x, hx, hne⟩ | ⟨y, _, hl⟩)
      · rw [hi'] at hx; injection hx with hx
        exact hne hx.symm
      · have := link_nonneg hl hneg
        omega
    rw [hkeep i' hna, hneg]
    simp [hi']
  · have hl := hmoved i i' hi' hfix
    constructor
    · intro h
      have := link_nonneg hl h
      omega
    · intro h
      rw [hi'] at h; injection h with h
      exact absurd h hfix

theorem apply_generators_unassigned {n fuel : Nat} (hf : n ≤ fuel) :
    ∀ (gens : List (List Nat)) (p : List Int), (∀ g ∈ gens, IsPermutation g n) →
      p.length = n → RepInv p →
      ∃ p', apply_generators fuel n gens p = some p' ∧
        ∀ i : Nat, i < n → p[i]? = some (-1) →
          (p'[i]? = some (-1) ↔ ∀ g ∈ gens, g[i]? = some i) := by
  intro gens
  induction gens with
  | nil =>
    intro p _ _ _
    exact ⟨p, rfl, fun i _ h => by simp [h]⟩
  | cons g gs ih =>
    intro p hg hp hr
    have hgs : ∀ g' ∈ gs, IsPermutation g' n := fun g' hg' => hg g' (List.mem_cons_of_mem _ hg')
    obtain ⟨p1, hp1, hlen1, hr1, _, hstep⟩ :=
      update_orbits_unassigned (hg g (List.mem_cons_self _ _)) hf hp hr
    obtain ⟨p', hp', hrest⟩ := ih p1 hgs hlen1 hr1
    obtain ⟨p2, hp2, _, hmono2⟩ := apply_generators_link hf gs p1 hgs hlen1
    rw [hp'] at hp2
    injection hp2 with hp2
    subst hp2
    refine ⟨p', by simp [apply_generators, hp1, hp'], ?_⟩
    intro i hi hneg
    by_cases hfix : g[i]? = some i
    · have h1 : p1[i]? = some (-1) := (hstep i hi hneg).2 hfix
      rw [hrest i hi h1]
      constructor
      · intro h g' hg'
        rcases List.mem_cons.1 hg' with e | e
        · rw [e]; exact hfix
        · exact h g' e
      · intro h g' hg'
        exact h g' (List.mem_cons_of_mem _ hg')
    · have hp1i : p1[i]? = some p1[i] := List.getElem?_eq_getElem (by omega)
      have hne : p1[i] ≠ -1 := by
        intro e
        rw [e] at hp1i
        exact hfix ((hstep i hi hneg).1 hp1i)
      have hnn : 0 ≤ p1[i] := by
        rcases hr1 i _ hp1i with e | ⟨h0, _⟩
        · exact absurd e hne
        · exact h0
      have hl := hmono2 i i ⟨p1[i], hnn, hp1i, hp1i⟩
      constructor
      · intro h
        have := link_nonneg hl h
        omega
      · intro h
        exact absurd (h g (List.mem_cons_self _ _)) hfix

/-- Every array reached from the fresh all `-1` array by `update_orbits` calls with
permutations of `[0, n)` has the representative invariant. -/
theorem repInv_reachable (n : Nat) (gens : List (List Nat))
    (hgens : ∀ g ∈ gens, IsPermutation g n) (fuel : Nat) (hfuel : n ≤ fuel) (p : List Int)
    (hreach : apply_generators fuel n gens (initialize_saucy_data n) = some p) :
    RepInv p := by
  obtain ⟨p2, hp2, _, hrep, _⟩ :=
    apply_generators_same hfuel gens (initialize_saucy_data n) hgens
      (by simp [initialize_saucy_data]) (repInv_fresh n)
  rw [hreach] at hp2
  injection hp2 with hp2
  subst hp2
  exact hrep

/-- The 3-cycle `a -> b -> c -> a` on unassigned nodes, for an array in which no entry
is `a`, `b` or `c`: the three nodes end with one non-negative id that no other node
carries, and every entry outside the cycle is unchanged. -/
theorem three_cycle_of_free (n : Nat) (perm : List Nat) (hperm : IsPermutation perm n)
    (fuel : Nat) (hfuel : n ≤ fuel) (p : List Int) (hp : p.length = n) (a b c : Nat)
    (hab : perm[a]? = some b) (hbc : perm[b]? = some c) (hca : perm[c]? = some a)
    (hne : a ≠ b)
    (hfix : ∀ k : Nat, k < n → k ≠ a → k ≠ b → k ≠ c → perm[k]? = some k)
    (hpa : p[a]? = some (-1)) (hpb : p[b]? = some (-1)) (hpc : p[c]? = some (-1))
    (hfree : ∀ k : Nat, p[k]? ≠ some (a : Int) ∧ p[k]? ≠ some (b : Int) ∧
      p[k]? ≠ some (c : Int)) :
    ∃ p' v, update_orbits fuel p perm n = some p' ∧ 0 ≤ v ∧
      p'[a]? = some v ∧ p'[b]? = some v ∧ p'[c]? = some v ∧
      ∀ k : Nat, k ≠ a → k ≠ b → k ≠ c → p'[k]? = p[k]? ∧ p'[k]? ≠ some v := by
  have hmoved : ∀ y : Nat, Moved perm y → y = a ∨ y = b ∨ y = c := by
    rintro y ⟨y', hy', hne'⟩
    by_contra hcon
    push_neg at hcon
    have := hfix y (perm_dom hperm hy') hcon.1 hcon.2.1 hcon.2.2
    rw [hy'] at this
    injection this with this
    exact hne' this
  have hneg : ∀ y : Nat, Moved perm y → p[y]? = some (-1) := by
    intro y hy
    rcases hmoved y hy with rfl | rfl | rfl <;> assumption
  have hown : ∀ x y : Nat, Moved perm y → p[x]? = some (y : Int) → p[y]? = some (y : Int) := by
    intro x y hy hxy
    exfalso
    rcases hmoved y hy with rfl | rfl | rfl
    · exact (hfree x).1 hxy
    · exact (hfree x).2.1 hxy
    · exact (hfree x).2.2 hxy
  obtain ⟨p', hp', _, ⟨hkeep, hwrit⟩, hlinks⟩ :=
    update_orbits_spec hperm (preserved_untouched hperm hown) hfuel hp (untouched_refl p perm)
  have hbc' : c ≠ b := by
    intro e
    rw [e] at hbc
    exact hne (perm_inj hperm hab hbc)
  obtain ⟨v, hv, hva, hvb⟩ := hlinks a b hab (fun e => hne e.symm)
  have hvc : p'[c]? = some v := by
    have h := link_symm (hlinks b c hbc hbc')
    exact link_left h hvb
  refine ⟨p', v, hp', hv, hva, hvb, hvc, ?_⟩
  intro k hka hkb hkc
  have hnot : ¬ Affected p perm k := by
    rintro (hm | ⟨y, hy, w, hw, _, hyw⟩)
    · rcases hmoved k hm with e | e | e
      · exact hka e
      · exact hkb e
      · exact hkc e
    · rw [hneg y hy] at hyw
      injection hyw with hyw
      omega
  have hk := hkeep k hnot
  refine ⟨hk, ?_⟩
  rw [hk]
  have hw : Writable p perm v := by
    apply hwrit a v hva
    rw [hpa]
    intro e
    injection e with e
    omega
  obtain ⟨_, y, hy, e | e⟩ := hw
  · subst e
    rcases hmoved y hy with rfl | rfl | rfl
    · exact (hfree k).1
    · exact (hfree k).2.1
    · exact (hfree k).2.2
  · rw [hneg y hy] at e
    injection e with e
    omega

/-- On the converted attributes, `make_graph` returns an error, and no graph, when the
node count is `0` (the empty-graph error) and when the length of the adjacency list
differs from the node count. -/
theorem make_graph_rejects (G : PyGraph) (directed : Bool)
    (h : G.n = 0 ∨ (G.adjacency_list.length : Int) ≠ G.n) :
    ∃ e, make_graph G directed = .error e ∧ e ≠ .fault ∧ (G.n = 0 → e = .emptyGraph) := by
  by_cases h0 : G.n = 0
  · exact ⟨.emptyGraph, by simp [make_graph, h0], by decide, fun _ => rfl⟩
  · by_cases hneg : (if directed then 2 * G.n + 2 else G.n + 1) < 0 ∨ 2 * G.m < 0
    · refine ⟨.memory, ?_, by decide, fun e => absurd e h0⟩
      simp only [make_graph]
      rw [if_neg h0, if_pos hneg]
    · have hlen : (G.adjacency_list.length : Int) ≠ G.n := by
        rcases h with h | h
        · exact absurd h h0
        · exact h
      refine ⟨.lengthMismatch, ?_, by decide, fun e => absurd e h0⟩
      simp only [make_graph]
      rw [if_neg h0, if_neg hneg, if_pos hlen]

/-- When the truth test of the value returned by the callback succeeds,
`on_automorphism` applies `update_orbits` first, whatever the callback does afterwards,
and returns `1` if and only if no callable callback was supplied or the callback returned
a truthy value or `None`; it returns `0` when the callback returned a falsy value other
than `None` or failed. -/
theorem on_automorphism_testable (n : Nat) (gamma : List Nat) (hperm : IsPermutation gamma n)
    (fuel : Nat) (hfuel : n ≤ fuel) (k : Nat) (support : List Nat)
    (hk : k ≤ support.length) (arg : saucy_data) (hlen : arg.orbit_partition.length = n)
    (htest : ∀ cb, arg.py_callback = some cb →
      cb (gamma.take n) (support.take k) ≠ .returnedUntestable) :
    ∃ orbits ret, update_orbits fuel arg.orbit_partition gamma n = some orbits ∧
      on_automorphism fuel n gamma k support arg = some (⟨arg.py_callback, orbits⟩, ret) ∧
      (ret = 1 ↔ (arg.py_callback = none ∨ ∃ cb, arg.py_callback = some cb ∧
        (cb (gamma.take n) (support.take k) = .returnedTruthy ∨
          cb (gamma.take n) (support.take k) = .returnedNone))) ∧
      ((∃ cb, arg.py_callback = some cb ∧
        (cb (gamma.take n) (support.take k) = .returnedFalsy ∨
          cb (gamma.take n) (support.take k) = .raised)) → ret = 0) := by
  obtain ⟨orbits, horb, _, _, _⟩ :=
    update_orbits_spec hperm (preserved_true gamma n) hfuel hlen trivial
  have hg : n ≤ gamma.length := by rw [perm_length hperm]
  cases hcb : arg.py_callback with
  | none =>
    refine ⟨orbits, 1, horb, by simp [on_automorphism, horb, hcb], by simp, ?_⟩
    rintro ⟨cb, h, _⟩
    cases h
  | some cb =>
    cases hres : cb (gamma.take n) (support.take k) with
    | raised =>
      refine ⟨orbits, 0, horb, by simp [on_automorphism, horb, hcb, hg, hk, hres], ?_,
        fun _ => rfl⟩
      simp [hres]
    | returnedNone =>
      refine ⟨orbits, 1, horb, by simp [on_automorphism, horb, hcb, hg, hk, hres], ?_, ?_⟩
      · simp [hres]
      · rintro ⟨cb', h, h2⟩
        injection h with h
        subst h
        rw [hres] at h2
        rcases h2 with h2 | h2 <;> cases h2
    | returnedTruthy =>
      refine ⟨orbits, 1, horb, by simp [on_automorphism, horb, hcb, hg, hk, hres], ?_, ?_⟩
      · simp [hres]
      · rintro ⟨cb', h, h2⟩
        injection h with h
        subst h
        rw [hres] at h2
        rcases h2 with h2 | h2 <;> cases h2
    | returnedFalsy =>
      refine ⟨orbits, 0, horb, by simp [on_automorphism, horb, hcb, hg, hk, hres], ?_,
        fun _ => rfl⟩
      simp [hres]
    | returnedUntestable => exact absurd hres (htest cb hcb)

theorem liftBuild_bind {α β : Type} (x : Except Failure α) (f : α → Except Failure β) :
    liftBuild (x >>= f) = liftBuild x >>= fun a => liftBuild (f a) := by
  cases x <;> rfl

theorem asInt_int {v : Int} (h : FitsInt v) : asInt (.int v) = v := by
  simp only [asInt, pyInt_AsInt_fits h.1 h.2]

theorem map_asInt_int :
    ∀ (L : List (List Int)), (∀ l ∈ L, ∀ t ∈ l, FitsInt t) →
      (L.map (fun l => l.map PyObject.int)).map (fun l => l.map asInt) = L := by
  intro L h
  rw [List.map_map]
  conv_rhs => rw [← List.map_id L]
  apply List.map_congr_left
  intro l hl
  simp only [Function.comp, List.map_map, id]
  conv_rhs => rw [← List.map_id l]
  apply List.map_congr_left
  intro t ht
  simp only [Function.comp, id]
  exact asInt_int (h l hl t ht)

theorem countTargetsObj_int (n ainOff : Int) :
    ∀ (l : List Int) (adj : List Int), (∀ t ∈ l, FitsInt t) →
      countTargetsObj n ainOff (l.map PyObject.int) adj =
        liftBuild (countTargets n ainOff l adj) := by
  intro l
  induction l with
  | nil => intro adj _; rfl
  | cons t rest ih =>
    intro adj h
    have ht := h t (List.mem_cons_self _ _)
    simp only [List.map_cons, countTargetsObj, countTargets, pyInt_AsInt_fits ht.1 ht.2]
    by_cases hge : t ≥ n
    · rw [if_pos hge, if_pos hge]; rfl
    · rw [if_neg hge, if_neg hge, liftBuild_bind]
      cases readCell adj (ainOff + t) with
      | error f => rfl
      | ok c =>
        simp only [liftBuild, bind, Except.bind]
        cases writeCell adj (ainOff + t) (c + 1) with
        | error f => rfl
        | ok adj2 => exact ih adj2 (fun u hu => h u (List.mem_cons_of_mem _ hu))

theorem countPassObj_int (n ainOff : Int) :
    ∀ (L : List (List Int)) (i : Nat) (adj : List Int), (∀ l ∈ L, ∀ t ∈ l, FitsInt t) →
      countPassObj n ainOff i (L.map (fun l => l.map PyObject.int)) adj =
        liftBuild (countPass n ainOff i L adj) := by
  intro L
  induction L with
  | nil => intro i adj _; rfl
  | cons l rest ih =>
    intro i adj h
    simp only [List.map_cons, countPassObj, countPass, List.length_map]
    cases readCell adj (i : Int) with
    | error f => rfl
    | ok c =>
      simp only [liftBuild, bind, Except.bind]
      cases writeCell adj (i : Int) (c + l.length) with
      | error f => rfl
      | ok adj2 =>
        simp only
        rw [countTargetsObj_int n ainOff l adj2 (h l (List.mem_cons_self _ _))]
        cases countTargets n ainOff l adj2 with
        | error f => rfl
        | ok adj3 =>
          simp only [liftBuild]
          exact ih (i + 1) adj3 (fun u hu => h u (List.mem_cons_of_mem _ hu))

/-- When the declared counts and every listed target fit a C `int`, the conversions
change nothing: the whole of `make_graph` on the graph object is `make_graph` on the
integers. -/
theorem make_graph_object_eq (G : PyGraph) (directed : Bool) (hn : FitsInt G.n)
    (hm : FitsInt G.m) (ht : ∀ l ∈ G.adjacency_list, ∀ t ∈ l, FitsInt t) :
    make_graph_object (graphObject G) directed = liftBuild (make_graph G directed) := by
  simp only [make_graph_object, graphObject, make_graph, pyInt_AsInt_fits hn.1 hn.2,
    pyInt_AsInt_fits hm.1 hm.2, List.length_map, map_asInt_int G.adjacency_list ht,
    countPassObj_int _ _ G.adjacency_list 0 _ ht]
  by_cases h0 : G.n = 0
  · rw [if_pos h0, if_pos h0]; rfl
  · rw [if_neg h0, if_neg h0]
    by_cases ha : (if directed then 2 * G.n + 2 else G.n + 1) < 0 ∨ 2 * G.m < 0
    · rw [if_pos ha, if_pos ha]; rfl
    · rw [if_neg ha, if_neg ha]
      by_cases hl : (G.adjacency_list.length : Int) ≠ G.n
      · rw [if_pos hl, if_pos hl]; rfl
      · rw [if_neg hl, if_neg hl]
        cases countPass (G.adjacency_list.length : Int) (if directed then G.n + 1 else 0) 0
            G.adjacency_list
            (List.replicate (if directed then 2 * G.n + 2 else G.n + 1).toNat 0) with
        | error f => rfl
        | ok adj1 =>
          simp only [liftBuild, bind, Except.bind]
          cases shift_indices G.adjacency_list.length 0 adj1 with
          | error f => rfl
          | ok adj2 =>
            simp only
            cases directed with
            | true =>
              simp only [if_true]
              cases shift_indices G.adjacency_list.length (G.n + 1) adj2 with
              | error f => rfl
              | ok adj3 =>
                simp only
                cases placePass (G.n + 1) G.m 0 G.adjacency_list
                    (adj3, List.replicate (2 * G.m).toNat none) with
                | error f => rfl
                | ok st =>
                  simp only
                  cases rewind_indices G.n G.m 0 st.1 with
                  | error f => rfl
                  | ok adj4 =>
                    simp only
                    cases rewind_indices G.n G.m (G.n + 1) adj4 with
                    | error f => rfl
                    | ok adj5 => rfl
            | false =>
              simp only [Bool.false_eq_true, if_false]
              cases placePass 0 0 0 G.adjacency_list
                  (adj2, List.replicate (2 * G.m).toNat none) with
              | error f => rfl
              | ok st =>
                simp only
                cases rewind_indices G.n (2 * G.m) 0 st.1 with
                | error f => rfl
                | ok adj4 => rfl

/-- For a declared node count that is not below the range of a C `int`, the whole of
`make_graph` returns an error when the declared count is `0` and when the length of the
adjacency list differs from it. -/
theorem make_graph_object_rejects (py_graph : PyGraphObject) (directed : Bool) (v : Int)
    (hn : py_graph.n = .int v) (hlow : -2147483648 ≤ v)
    (h : v = 0 ∨ (py_graph.adjacency_list.length : Int) ≠ v) :
    ∃ e, make_graph_object py_graph directed = .error e := by
  unfold make_graph_object
  rw [hn]
  by_cases hbig : 2147483647 < v
  · obtain ⟨e, he⟩ := pyInt_AsInt_large hbig
    rw [he]
    cases PyInt_AsInt py_graph.m with
    | error em => exact ⟨.python em, rfl⟩
    | ok ge => exact ⟨.python e, rfl⟩
  · rw [pyInt_AsInt_fits hlow (by omega)]
    cases PyInt_AsInt py_graph.m with
    | error em => exact ⟨.python em, rfl⟩
    | ok ge =>
      simp only
      by_cases h0 : v = 0
      · rw [if_pos h0]; exact ⟨_, rfl⟩
      · rw [if_neg h0]
        by_cases ha : (if directed then 2 * v + 2 else v + 1) < 0 ∨ 2 * ge < 0
        · rw [if_pos ha]; exact ⟨_, rfl⟩
        · have hl : (py_graph.adjacency_list.length : Int) ≠ v := by
            rcases h with h | h
            · exact absurd h h0
            · exact h
          rw [if_neg ha, if_pos hl]; exact ⟨_, rfl⟩


/-! ## The claims -/

/-- C1: for every finite sequence of permutations of `[0, n)`, applying `update_orbits`
once per generator to the fresh all `-1` array and then `finalize_orbits` returns an array
`r` in which two nodes of `[0, n)` carry the same entry exactly when they are related by
the equivalence closure of the pairs `(i, g[i])`. -/
theorem update_then_finalize_orbits (n : Nat) (gens : List (List Nat))
    (hgens : ∀ g ∈ gens, IsPermutation g n) (fuel : Nat) (hfuel : n ≤ fuel) :
    ∃ p r, apply_generators fuel n gens (initialize_saucy_data n) = some p ∧
      finalize_orbits p n = some r ∧ r.length = n ∧
      ∀ x y : Nat, x < n → y < n → (r[x]? = r[y]? ↔ OrbitRel gens x y) := by
  obtain ⟨p, hp, hlen, hrep, hsame⟩ :=
    apply_generators_same hfuel gens (initialize_saucy_data n) hgens
      (by simp [initialize_saucy_data]) (repInv_fresh n)
  obtain ⟨r, hr, hrlen, hfin⟩ := finalize_eq hlen
  refine ⟨p, r, hp, hr, hrlen, ?_⟩
  intro x y hx hy
  rw [finalize_same hlen hrep hfin hx hy, hsame]
  unfold OrbitRel
  clear hx hy
  constructor
  · intro h
    induction h with
    | rel a b hab =>
      rcases hab with h | h
      · rw [(same_fresh n a b).1 h]; exact Relation.EqvGen.refl _
      · exact Relation.EqvGen.rel _ _ h
    | refl a => exact Relation.EqvGen.refl _
    | symm a b _ ih => exact Relation.EqvGen.symm _ _ ih
    | trans a b c _ _ ih1 ih2 => exact Relation.EqvGen.trans _ _ _ ih1 ih2
  · intro h
    exact Relation.EqvGen.mono (fun a b hab => Or.inr hab) h

theorem update_then_finalize_orbits_witness :
    (∀ g ∈ [[1, 2, 0, 3], [0, 1, 3, 2]], IsPermutation g 4) ∧ 4 ≤ 4 ∧
    ∃ p r, apply_generators 4 4 [[1, 2, 0, 3], [0, 1, 3, 2]] (initialize_saucy_data 4) = some p ∧
      finalize_orbits p 4 = some r ∧ r.length = 4 ∧
      ∀ x y : Nat, x < 4 → y < 4 →
        (r[x]? = r[y]? ↔ OrbitRel [[1, 2, 0, 3], [0, 1, 3, 2]] x y) :=
  ⟨by decide, by decide,
    update_then_finalize_orbits 4 [[1, 2, 0, 3], [0, 1, 3, 2]] (by decide) 4 (by decide)⟩

/-- C2 (as stated, refuted): for the valid undirected graph with `n = 2`, `m = 1` and
adjacency list `[[1], []]`, `make_graph` succeeds but the block of node `1` read back from
the compacted form is `[0]`, which is not a rearrangement of `adjacency_list[1] = []`. -/
theorem make_graph_read_back_counterexample :
    ValidGraph ⟨2, 1, [[1], []]⟩ ∧
    ∃ g, make_graph ⟨2, 1, [[1], []]⟩ false = .ok g ∧ outBlock g 1 = [some 0] ∧
      ¬ (outBlock g 1).Perm ((([[1], []] : List (List Int))[1]).map some) := by
  refine ⟨by decide, ⟨2, 1, [0, 1, 2], [some 1, some 0]⟩, rfl, rfl, ?_⟩
  intro h
  have := h.length_eq
  simp [outBlock, cellAt] at this

/-- C2 (amended): for every valid adjacency-list graph, directed or undirected,
`make_graph` succeeds; for a directed graph the block `edg[adj[i] .. adj[i+1])` of every
node `i` is a rearrangement of `adjacency_list[i]`, and for an undirected graph it is a
rearrangement of `adjacency_list[i]` together with one copy of `j` for every occurrence
of `i` in `adjacency_list[j]`. -/
theorem make_graph_read_back (G : PyGraph) (directed : Bool) (h : ValidGraph G) :
    ∃ g, make_graph G directed = .ok g ∧
      ∀ (i : Nat) (hi : i < G.adjacency_list.length),
        (outBlock g i).Perm
          ((G.adjacency_list[i] ++
            (if directed then [] else sourcesOf G.adjacency_list i)).map some) :=
  outBlock_make_graph G directed h

theorem make_graph_read_back_witness :
    ValidGraph ⟨3, 3, [[1, 2], [2], []]⟩ ∧
    ∃ g, make_graph ⟨3, 3, [[1, 2], [2], []]⟩ false = .ok g ∧
      ∀ (i : Nat) (hi : i < ([[1, 2], [2], []] : List (List Int)).length),
        (outBlock g i).Perm
          ((([[1, 2], [2], []] : List (List Int))[i] ++
            (if false then [] else sourcesOf [[1, 2], [2], []] i)).map some) :=
  ⟨by decide, make_graph_read_back ⟨3, 3, [[1, 2], [2], []]⟩ false (by decide)⟩

/-- C3: for every valid directed graph with `n` nodes and `e` listed targets (declared
`m = e`), `make_graph` succeeds and both the out-degrees `adj[i+1] - adj[i]` and the
in-degrees `ain[t+1] - ain[t]`, with `ain = adj + n + 1`, sum to `e` over `[0, n)`. -/
theorem make_graph_degree_sums (G : PyGraph) (h : ValidGraph G) :
    ∃ g, make_graph G true = .ok g ∧
      (∑ i in Finset.range G.n.toNat, (cellAt g.adj (i + 1) - cellAt g.adj i)) = G.m ∧
      (∑ t in Finset.range G.n.toNat,
        (cellAt g.adj (G.n.toNat + 1 + (t + 1)) - cellAt g.adj (G.n.toNat + 1 + t))) = G.m := by
  obtain ⟨L, n, e, rfl, hn, hL, ht, he⟩ := valid_graph_nat h
  obtain ⟨g, hg, _, _, _, _, hout, hin, _, _, hon, hinn⟩ :=
    make_graph_directed L n e hn hL ht he
  refine ⟨g, hg, ?_, ?_⟩
  · simp only [Int.toNat_ofNat]
    rw [Finset.sum_range_sub (fun i => cellAt g.adj i) n, hon, hout 0 (by omega)]
    simp [psum]
  · simp only [Int.toNat_ofNat]
    rw [Finset.sum_range_sub (fun t => cellAt g.adj (n + 1 + t)) n, hinn, hin 0 (by omega)]
    simp [psum]

theorem make_graph_degree_sums_witness :
    ValidGraph ⟨3, 3, [[1, 2], [2], []]⟩ ∧
    ∃ g, make_graph ⟨3, 3, [[1, 2], [2], []]⟩ true = .ok g ∧
      (∑ i in Finset.range (3 : Int).toNat, (cellAt g.adj (i + 1) - cellAt g.adj i)) = 3 ∧
      (∑ t in Finset.range (3 : Int).toNat,
        (cellAt g.adj ((3 : Int).toNat + 1 + (t + 1)) -
          cellAt g.adj ((3 : Int).toNat + 1 + t))) = 3 :=
  ⟨by decide, make_graph_degree_sums ⟨3, 3, [[1, 2], [2], []]⟩ (by decide)⟩

/-- C5 (as stated, refuted): the input with `n = 1`, declared `m = 1` and adjacency list
`[[]]` meets the stated build constraints and `make_graph` returns a graph for it, but
the graph violates the invariant: `adj[1] = 1` while no target was ever stored, so the
cell `edg[0]` of the block of node `0` holds no node id. -/
theorem make_graph_invariant_counterexample :
    BuildConstraints ⟨1, 1, [[]]⟩ ∧
    ∃ g, make_graph ⟨1, 1, [[]]⟩ true = .ok g ∧ cellAt g.adj 1 = 1 ∧ g.edg = [none, none] ∧
      ¬ GraphInvariant true g := by
  refine ⟨by decide, ⟨1, 1, [0, 1, 0, 1], [none, none]⟩, rfl, rfl, rfl, ?_⟩
  rintro ⟨_, _, _, _, _, h⟩
  obtain ⟨v, hv, _⟩ := h 0 (by simp)
  simp at hv

/-- C5 (amended): for every input that meets the build constraints and whose declared
edge count equals the total number of listed targets, `make_graph` returns a graph with
the declared node count and edge count that satisfies the graph invariant: the offset
array has its `n+1` entries (twice that when directed), `adj[0] == 0`, the offsets do not
decrease, `adj[n]` is `e` (directed) or `2e` (undirected), and all `2e` cells of the
target array are written with ids in `[0, n)`. -/
theorem make_graph_invariant (G : PyGraph) (directed : Bool) (hG : BuildConstraints G)
    (hm : G.m = ((G.adjacency_list.map List.length).sum : Nat)) :
    ∃ g, make_graph G directed = .ok g ∧ g.n = G.n ∧ g.e = G.m ∧
      GraphInvariant directed g :=
  graphInvariant_make_graph G directed ⟨hG.1, hG.2.1, hG.2.2.1, hm⟩

theorem make_graph_invariant_witness :
    BuildConstraints ⟨3, 3, [[1, 2], [2], []]⟩ ∧
    (3 : Int) = (((([[1, 2], [2], []] : List (List Int))).map List.length).sum : Nat) ∧
    ∃ g, make_graph ⟨3, 3, [[1, 2], [2], []]⟩ true = .ok g ∧ g.n = 3 ∧ g.e = 3 ∧
      GraphInvariant true g :=
  ⟨by decide, by decide,
    make_graph_invariant ⟨3, 3, [[1, 2], [2], []]⟩ true (by decide) (by decide)⟩

/-- C6 (the code at the failing input): the directed graph with `n = 2`, `m = 2` and
adjacency list `[[-1], [0]]` lists the target id `-1` outside `[0, n)`, yet `make_graph`
raises no error in the counting pass: it returns a graph whose target array holds `-1`. -/
theorem make_graph_negative_id_accepted :
    make_graph ⟨2, 2, [[-1], [0]]⟩ true =
      .ok ⟨2, 2, [0, 1, 2, 0, 1, 2], [some (-1), some 0, some 1, some 0]⟩ := by
  rfl

/-- C7: for every array `p` of length `n`, every permutation `perm` of `[0, n)` and all
nodes `x`, `y` on one cycle of `perm` that carry different non-negative ids `X` and `Y`,
`update_orbits` returns and afterwards every node that carried `X` or `Y` before the call
carries one and the same id. -/
theorem update_orbits_collision (n : Nat) (perm : List Nat) (hperm : IsPermutation perm n)
    (fuel : Nat) (hfuel : n ≤ fuel) (p : List Int) (hp : p.length = n) (x y : Nat)
    (X Y : Int) (hx : p[x]? = some X) (hy : p[y]? = some Y) (hX : 0 ≤ X) (hY : 0 ≤ Y)
    (hXY : X ≠ Y) (hcycle : SameCycle perm x y) :
    ∃ p' c, update_orbits fuel p perm n = some p' ∧
      ∀ k : Nat, (p[k]? = some X ∨ p[k]? = some Y) → p'[k]? = some c := by
  obtain ⟨p', hp', _, hmono, hmoved⟩ :=
    update_orbits_spec hperm (preserved_link perm n p) hfuel hp (fun _ _ h => h)
  obtain ⟨m, hm⟩ := hcycle
  have hxn : x < n := by
    have := (List.getElem?_eq_some.1 hx).1
    omega
  have hmx : nxt perm x ≠ x := by
    intro e
    have : ∀ k, (nxt perm)^[k] x = x := by
      intro k
      induction k with
      | zero => rfl
      | succ k ih => rw [Function.iterate_succ_apply, e, ih]
    rw [this m] at hm
    subst hm
    rw [hx] at hy
    injection hy with hy
    exact hXY hy
  have hxx : Link p' x x := hmono x x ⟨X, hX, hx, hx⟩
  have hchain : ∀ k, Link p' x ((nxt perm)^[k] x) := by
    intro k
    induction k with
    | zero => exact hxx
    | succ k ih =>
      obtain ⟨z', hz', hne, he⟩ := moved_iterate hperm hxn hmx k
      rw [← he]
      exact link_trans ih (hmoved _ z' hz' hne)
  have hxy : Link p' x y := hm ▸ hchain m
  obtain ⟨c, _, hcx, hcy⟩ := hxy
  refine ⟨p', c, hp', ?_⟩
  rintro k (hk | hk)
  · exact link_left (hmono k x ⟨X, hX, hk, hx⟩) hcx
  · exact link_left (hmono k y ⟨Y, hY, hk, hy⟩) hcy

theorem update_orbits_collision_witness :
    IsPermutation [1, 0, 2, 3] 4 ∧ 4 ≤ 4 ∧ ([2, 3, 2, 3] : List Int).length = 4 ∧
    ([2, 3, 2, 3] : List Int)[0]? = some 2 ∧ ([2, 3, 2, 3] : List Int)[1]? = some 3 ∧
    (0 : Int) ≤ 2 ∧ (0 : Int) ≤ 3 ∧ (2 : Int) ≠ 3 ∧ SameCycle [1, 0, 2, 3] 0 1 ∧
    ∃ p' c, update_orbits 4 [2, 3, 2, 3] [1, 0, 2, 3] 4 = some p' ∧
      ∀ k : Nat, (([2, 3, 2, 3] : List Int)[k]? = some 2 ∨
        ([2, 3, 2, 3] : List Int)[k]? = some 3) → p'[k]? = some c :=
  ⟨by decide, by decide, by decide, by decide, by decide, by decide, by decide, by decide,
    ⟨1, by decide⟩,
    update_orbits_collision 4 [1, 0, 2, 3] (by decide) 4 (by decide) [2, 3, 2, 3] (by decide)
      0 1 2 3 (by decide) (by decide) (by decide) (by decide) (by decide) ⟨1, by decide⟩⟩

/-- C8: orbits are never split.  For every array `p` of length `n` and nodes `x`, `y`
that carry the same non-negative id, after one `update_orbits` call with any permutation,
and hence after any sequence of such calls, `x` and `y` still carry one common
non-negative id; with `x = y`, an assigned node never becomes unassigned. -/
theorem update_orbits_never_splits (n fuel : Nat) (hfuel : n ≤ fuel) (p : List Int)
    (hp : p.length = n) (x y : Nat) (v : Int) (hv : 0 ≤ v) (hx : p[x]? = some v)
    (hy : p[y]? = some v) :
    (∀ perm, IsPermutation perm n →
      ∃ p', update_orbits fuel p perm n = some p' ∧
        ∃ w : Int, 0 ≤ w ∧ p'[x]? = some w ∧ p'[y]? = some w) ∧
    (∀ gens : List (List Nat), (∀ g ∈ gens, IsPermutation g n) →
      ∃ p', apply_generators fuel n gens p = some p' ∧
        ∃ w : Int, 0 ≤ w ∧ p'[x]? = some w ∧ p'[y]? = some w) := by
  constructor
  · intro perm hperm
    obtain ⟨p', hp', _, hmono, _⟩ :=
      update_orbits_spec hperm (preserved_link perm n p) hfuel hp (fun _ _ h => h)
    exact ⟨p', hp', hmono x y ⟨v, hv, hx, hy⟩⟩
  · intro gens hgens
    obtain ⟨p', hp', _, hmono⟩ := apply_generators_link hfuel gens p hgens hp
    exact ⟨p', hp', hmono x y ⟨v, hv, hx, hy⟩⟩

theorem update_orbits_never_splits_witness :
    3 ≤ 3 ∧ ([0, 0, -1] : List Int).length = 3 ∧ (0 : Int) ≤ 0 ∧
    ([0, 0, -1] : List Int)[0]? = some 0 ∧ ([0, 0, -1] : List Int)[1]? = some 0 ∧
    ((∀ perm, IsPermutation perm 3 →
      ∃ p', update_orbits 3 [0, 0, -1] perm 3 = some p' ∧
        ∃ w : Int, 0 ≤ w ∧ p'[0]? = some w ∧ p'[1]? = some w) ∧
    (∀ gens : List (List Nat), (∀ g ∈ gens, IsPermutation g 3) →
      ∃ p', apply_generators 3 3 gens [0, 0, -1] = some p' ∧
        ∃ w : Int, 0 ≤ w ∧ p'[0]? = some w ∧ p'[1]? = some w)) :=
  ⟨by decide, by decide, by decide, by decide, by decide,
    update_orbits_never_splits 3 3 (by decide) [0, 0, -1] (by decide) 0 1 0 (by decide)
      (by decide) (by decide)⟩

/-- C9: for every array `p` reached from the fresh all `-1` array by `update_orbits`
calls with permutations of `[0, n)`, `finalize_orbits` returns an array `r` of length `n`
in which every entry that was `-1` is the index of its node, no other node carries that
index, every non-negative entry is unchanged and every entry lies in `[0, n)`; and
finalising the fresh array yields `[0, 1, ..., n-1]`. -/
theorem finalize_orbits_reachable (n : Nat) (gens : List (List Nat))
    (hgens : ∀ g ∈ gens, IsPermutation g n) (fuel : Nat) (hfuel : n ≤ fuel) (p : List Int)
    (hreach : apply_generators fuel n gens (initialize_saucy_data n) = some p) :
    (∃ r, finalize_orbits p n = some r ∧ r.length = n ∧
      ∀ i : Nat, i < n →
        (p[i]? = some (-1) →
          r[i]? = some (i : Int) ∧ ∀ k : Nat, k ≠ i → r[k]? ≠ some (i : Int)) ∧
        (∀ v : Int, 0 ≤ v → p[i]? = some v → r[i]? = some v) ∧
        (p[i]? = some (-1) ∨ ∃ v : Int, 0 ≤ v ∧ p[i]? = some v) ∧
        (∃ v : Int, r[i]? = some v ∧ 0 ≤ v ∧ v < n)) ∧
    finalize_orbits (initialize_saucy_data n) n =
      some ((List.range n).map (fun (i : Nat) => (i : Int))) := by
  obtain ⟨p', hp', hlen, hrep, _⟩ :=
    apply_generators_same hfuel gens (initialize_saucy_data n) hgens
      (by simp [initialize_saucy_data]) (repInv_fresh n)
  rw [hreach] at hp'
  injection hp' with hp'
  subst hp'
  constructor
  · obtain ⟨r, hr, hrlen, hfin⟩ := finalize_eq hlen
    refine ⟨r, hr, hrlen, ?_⟩
    intro i hi
    have hpi : p[i]? = some p[i] := List.getElem?_eq_getElem (by omega)
    have hri := hfin i
    rw [hpi] at hri
    simp only [Option.map_some'] at hri
    refine ⟨?_, ?_, ?_, ?_⟩
    · intro hneg
      rw [hpi] at hneg
      injection hneg with hneg
      constructor
      · rw [hri, hneg]; rfl
      · intro k hk hrk
        have hfk := hfin k
        rw [hrk] at hfk
        cases hpk : p[k]? with
        | none => rw [hpk] at hfk; cases hfk
        | some u =>
          rw [hpk] at hfk
          simp only [Option.map_some', Option.some.injEq] at hfk
          by_cases hu : u < 0
          · simp only [finalizeFn, hu, if_true] at hfk
            exact hk (by exact_mod_cast hfk.symm)
          · simp only [finalizeFn, hu, if_false] at hfk
            subst hfk
            rcases hrep k _ hpk with e | ⟨_, e⟩
            · omega
            · rw [Int.toNat_ofNat, hpi] at e
              injection e with e
              omega
    · intro v hv hpv
      rw [hpi] at hpv
      injection hpv with hpv
      rw [hri, hpv]
      simp [finalizeFn, show ¬ v < 0 by omega]
    · rcases hrep i _ hpi with e | ⟨h0, _⟩
      · left; rw [hpi, e]
      · right; exact ⟨p[i], h0, hpi⟩
    · rcases hrep i _ hpi with e | ⟨h0, e⟩
      · refine ⟨(i : Int), ?_, by omega, by omega⟩
        rw [hri, e]; rfl
      · refine ⟨p[i], ?_, h0, ?_⟩
        · rw [hri]; simp [finalizeFn, show ¬ p[i] < 0 by omega]
        · have := (List.getElem?_eq_some.1 e).1
          omega
  · obtain ⟨r, hr, hrlen, hfin⟩ :=
      finalize_eq (g := initialize_saucy_data n) (n := n) (by simp [initialize_saucy_data])
    rw [hr]
    congr 1
    apply List.ext_getElem?
    intro k
    rw [hfin k]
    unfold initialize_saucy_data
    by_cases hk : k < n
    · simp [List.getElem?_replicate, hk, finalizeFn, List.getElem?_range]
    · rw [List.getElem?_replicate, if_neg hk, List.getElem?_eq_none (by simp; omega)]
      rfl

theorem finalize_orbits_reachable_witness :
    (∀ g ∈ [[1, 0, 2]], IsPermutation g 3) ∧ 3 ≤ 3 ∧
    apply_generators 3 3 [[1, 0, 2]] (initialize_saucy_data 3) = some [0, 0, -1] ∧
    ((∃ r, finalize_orbits [0, 0, -1] 3 = some r ∧ r.length = 3 ∧
      ∀ i : Nat, i < 3 →
        (([0, 0, -1] : List Int)[i]? = some (-1) →
          r[i]? = some (i : Int) ∧ ∀ k : Nat, k ≠ i → r[k]? ≠ some (i : Int)) ∧
        (∀ v : Int, 0 ≤ v → ([0, 0, -1] : List Int)[i]? = some v → r[i]? = some v) ∧
        (([0, 0, -1] : List Int)[i]? = some (-1) ∨
          ∃ v : Int, 0 ≤ v ∧ ([0, 0, -1] : List Int)[i]? = some v) ∧
        (∃ v : Int, r[i]? = some v ∧ 0 ≤ v ∧ v < (3 : Nat))) ∧
    finalize_orbits (initialize_saucy_data 3) 3 =
      some ((List.range 3).map (fun (i : Nat) => (i : Int)))) :=
  ⟨by decide, by decide, by decide,
    finalize_orbits_reachable 3 [[1, 0, 2]] (by decide) 3 (by decide) [0, 0, -1] (by decide)⟩

/-- C10: for every partition `p` of length `n`, that is an array with the representative
invariant that every array given to `update_orbits` has (`repInv_reachable`), and every
permutation `perm` of `[0, n)` whose only non-trivial cycle is the 3-cycle
`a -> b -> c -> a` with `p[a] = p[b] = p[c] = -1`: `update_orbits` returns, the nodes
`a`, `b`, `c` share one non-negative id, no node outside the cycle carries that id, and
every entry outside the cycle is unchanged. -/
theorem update_orbits_three_cycle (n : Nat) (perm : List Nat) (hperm : IsPermutation perm n)
    (fuel : Nat) (hfuel : n ≤ fuel) (p : List Int) (hp : p.length = n) (hrep : RepInv p)
    (a b c : Nat)
    (hab : perm[a]? = some b) (hbc : perm[b]? = some c) (hca : perm[c]? = some a)
    (hne : a ≠ b)
    (hfix : ∀ k : Nat, k < n → k ≠ a → k ≠ b → k ≠ c → perm[k]? = some k)
    (hpa : p[a]? = some (-1)) (hpb : p[b]? = some (-1)) (hpc : p[c]? = some (-1)) :
    ∃ p' v, update_orbits fuel p perm n = some p' ∧ 0 ≤ v ∧
      p'[a]? = some v ∧ p'[b]? = some v ∧ p'[c]? = some v ∧
      ∀ k : Nat, k ≠ a → k ≠ b → k ≠ c → p'[k]? = p[k]? ∧ p'[k]? ≠ some v := by
  have hfree : ∀ (x : Nat), p[x]? = some (-1) → ∀ k : Nat, p[k]? ≠ some (x : Int) := by
    intro x hx k hk
    have h := repInv_own hrep k x hk
    rw [hx] at h
    injection h with h
    omega
  exact three_cycle_of_free n perm hperm fuel hfuel p hp a b c hab hbc hca hne hfix hpa hpb
    hpc (fun k => ⟨hfree a hpa k, hfree b hpb k, hfree c hpc k⟩)

theorem update_orbits_three_cycle_witness :
    IsPermutation [1, 2, 0, 3, 4] 5 ∧ 5 ≤ 5 ∧ ([-1, -1, -1, 3, 3] : List Int).length = 5 ∧
    apply_generators 5 5 [[0, 1, 2, 4, 3]] (initialize_saucy_data 5) =
      some [-1, -1, -1, 3, 3] ∧
    RepInv [-1, -1, -1, 3, 3] ∧
    ∃ p' v, update_orbits 5 [-1, -1, -1, 3, 3] [1, 2, 0, 3, 4] 5 = some p' ∧ 0 ≤ v ∧
      p'[0]? = some v ∧ p'[1]? = some v ∧ p'[2]? = some v ∧
      ∀ k : Nat, k ≠ 0 → k ≠ 1 → k ≠ 2 →
        p'[k]? = ([-1, -1, -1, 3, 3] : List Int)[k]? ∧ p'[k]? ≠ some v :=
  ⟨by decide, by decide, by decide, by decide,
    repInv_reachable 5 [[0, 1, 2, 4, 3]] (by decide) 5 (by decide) [-1, -1, -1, 3, 3]
      (by decide),
    update_orbits_three_cycle 5 [1, 2, 0, 3, 4] (by decide) 5 (by decide)
      [-1, -1, -1, 3, 3] (by decide)
      (repInv_reachable 5 [[0, 1, 2, 4, 3]] (by decide) 5 (by decide) [-1, -1, -1, 3, 3]
        (by decide))
      0 1 2 (by decide) (by decide) (by decide) (by decide)
      (by
        intro k hk h0 h1 h2
        have : k = 3 ∨ k = 4 := by omega
        rcases this with rfl | rfl <;> decide)
      (by decide) (by decide) (by decide)⟩

/-- C11: for every `n` and every array `p` (of length `n` or not, whatever its contents),
`update_orbits(p, identity, n)` with `identity[i] == i` for all `i` returns and leaves `p`
unchanged in every entry; no fuel is needed since no cycle walk starts. -/
theorem update_orbits_identity (n fuel : Nat) (p : List Int) :
    update_orbits fuel p (List.range n) n = some p := by
  obtain ⟨s', hs', hinv⟩ := forLoop_inv (visit fuel (List.range n) n)
    (fun _ s => s = (⟨p, List.replicate n false⟩ : OrbState)) n 0 _ rfl
    (fun k t _ hk ht => ⟨t, visit_fixed t (by
      rw [List.getElem?_range (by omega)]), ht⟩)
  subst hinv
  simp [update_orbits, hs']

/-- C12 (as stated, refuted): the one-element sequence `[2147483648]` is a sequence of
exactly `n = 1` non-negative integers, with no negative and no non-integer element, yet
`initialize_color_partition` returns an error for it and not an array equal to it. -/
theorem initialize_color_partition_counterexample :
    initialize_color_partition (.seq [.int 2147483648]) 1 = .error .valueError := by
  rfl

/-- C12 (amended): `initialize_color_partition(colors, n)` returns `n` zeros for `None`;
for a sequence of exactly `n` integers in `[0, 2^31 - 1]` it returns an array equal to the
sequence element by element; and, for every argument with no integer below `-2^31`, it
returns an error if and only if the argument is not `None` and is not a sequence of
exactly `n` integers in `[0, 2^31 - 1]` (wrong length, not a sequence, or an element that
is negative, too large or not an integer). -/
theorem initialize_color_partition_spec (py_colors : PyColors) (n : Nat)
    (hlow : ∀ items, py_colors = .seq items → ∀ o ∈ items, NotBelowInt o) :
    (py_colors = .none →
      initialize_color_partition py_colors n = .ok (List.replicate n 0)) ∧
    (∀ vs : List Int, py_colors = .seq (vs.map PyObject.int) → vs.length = n →
      (∀ v ∈ vs, 0 ≤ v ∧ v ≤ 2147483647) →
      initialize_color_partition py_colors n = .ok vs) ∧
    ((∃ e, initialize_color_partition py_colors n = .error e) ↔
      py_colors ≠ .none ∧ ¬ IsColorSeq py_colors n) := by
  refine ⟨?_, ?_, ?_⟩
  · rintro rfl; rfl
  · rintro vs rfl hlen hv
    exact initialize_color_partition_ok n vs hlen hv
  · constructor
    · rintro ⟨e, he⟩
      constructor
      · rintro rfl
        cases he
      · intro hseq
        obtain ⟨vs, rfl, hlen, hv⟩ := isColorSeq_ints hseq
        rw [initialize_color_partition_ok n vs hlen hv] at he
        cases he
    · rintro ⟨hnone, hbad⟩
      cases py_colors with
      | none => exact absurd rfl hnone
      | notSeq => exact ⟨.typeError, rfl⟩
      | seq items =>
        by_cases hlen : items.length = n
        · have hex : ∃ o ∈ items, ¬ IsColor o := by
            by_contra hcon
            push_neg at hcon
            exact hbad ⟨items, rfl, hlen, hcon⟩
          obtain ⟨e, he⟩ := fillColors_error items 0 (List.replicate n 0) (by simp [hlen])
            (hlow items rfl) hex
          exact ⟨e, by simp only [initialize_color_partition, hlen, if_true]; exact he⟩
        · exact ⟨.typeError, by simp only [initialize_color_partition, hlen, if_false]⟩

theorem initialize_color_partition_spec_witness :
    (∀ items, PyColors.seq [.int 1, .int 0, .int 1] = .seq items →
      ∀ o ∈ items, NotBelowInt o) ∧
    initialize_color_partition (.seq [.int 1, .int 0, .int 1]) 3 = .ok [1, 0, 1] :=
  ⟨by
      intro items h o ho v hv
      injection h with h
      subst h
      subst hv
      simp only [List.mem_cons, PyObject.int.injEq, List.mem_singleton, List.not_mem_nil,
        or_false] at ho
      omega,
    (initialize_color_partition_spec (.seq [.int 1, .int 0, .int 1]) 3 (by
      intro items h o ho v hv
      injection h with h
      subst h
      subst hv
      simp only [List.mem_cons, PyObject.int.injEq, List.mem_singleton, List.not_mem_nil,
        or_false] at ho
      omega)).2.1 [1, 0, 1] rfl rfl (by decide)⟩

/-- C13 (the code at the failing input): the graph object declares the node count
`n = -4294967294` and has an adjacency list of length `2`, which differs from the
declared `n`, yet `make_graph` raises no error: the conversion `g->n = PyInt_AsInt(nn)`
truncates the declared count to `2`, the length test passes, and a graph with `2` nodes
is returned. -/
theorem make_graph_object_truncated_count :
    make_graph_object ⟨.int (-4294967294), .int 2, [[.int 1], [.int 0]]⟩ true =
      .ok ⟨2, 2, [0, 1, 2, 0, 1, 2], [some 1, some 0, some 1, some 0]⟩ := by
  rfl

/-- C14 (the code at the failing input): the callback returns an object whose truth
test fails, so it returned neither a truthy value nor `None`; `on_automorphism` has
applied `update_orbits` to the orbit partition and returns `1` (continue) all the same,
because it takes the `-1` of `PyObject_IsTrue` as true. -/
theorem on_automorphism_untestable :
    (on_automorphism 3 3 [1, 0, 2] 2 [0, 1]
        ⟨some (fun _ _ => CallbackResult.returnedUntestable), [-1, -1, -1]⟩).map
      (fun r => (r.1.orbit_partition, r.2)) = some ([0, 0, -1], 1) := by
  decide

/-- C15 (the code at the failing input): on the fresh array of size `3` and the 3-cycle
`0 -> 1 -> 2 -> 0`, all of whose nodes are unassigned, `update_orbits` leaves every node
of the cycle with the id `2`, not with the id `0` of the first node of the cycle. -/
theorem update_orbits_three_cycle_id :
    IsPermutation [1, 2, 0] 3 ∧
    update_orbits 3 [-1, -1, -1] [1, 2, 0] 3 = some [2, 2, 2] := by
  decide

/-- C16: for every valid directed graph, `make_graph` preserves order: the out-block
`edg[adj[i] .. adj[i+1])` of every node `i` equals `adjacency_list[i]` as a sequence, and
the in-block of every node `t` (in the in-region at `edg + e`, delimited by the
in-offsets at `adj + n + 1`) lists the sources `i` with `t` in `adjacency_list[i]` in
ascending order of `i`, each as many times as `t` occurs in `adjacency_list[i]`. -/
theorem make_graph_directed_order (G : PyGraph) (h : ValidGraph G) :
    ∃ g, make_graph G true = .ok g ∧
      (∀ (i : Nat) (hi : i < G.adjacency_list.length),
        outBlock g i = (G.adjacency_list[i]).map some) ∧
      (∀ t : Nat, t < G.adjacency_list.length →
        inBlock g t = (sourcesOf G.adjacency_list t).map some) :=
  blocks_make_graph_directed G h

theorem make_graph_directed_order_witness :
    ValidGraph ⟨3, 4, [[2, 1], [2], [2]]⟩ ∧
    ∃ g, make_graph ⟨3, 4, [[2, 1], [2], [2]]⟩ true = .ok g ∧
      (∀ (i : Nat) (hi : i < ([[2, 1], [2], [2]] : List (List Int)).length),
        outBlock g i = (([[2, 1], [2], [2]] : List (List Int))[i]).map some) ∧
      (∀ t : Nat, t < ([[2, 1], [2], [2]] : List (List Int)).length →
        inBlock g t = (sourcesOf [[2, 1], [2], [2]] t).map some) :=
  ⟨by decide, make_graph_directed_order ⟨3, 4, [[2, 1], [2], [2]]⟩ (by decide)⟩

/-- C17: for every `n` and every sequence of permutations of `[0, n)`, after applying
`update_orbits` for each of them to the fresh all `-1` array, every entry is `-1` or a
non-negative id, and a node still has the entry `-1` if and only if every generator fixes
it: a node that no generator moves is never assigned, and every moved node is. -/
theorem update_orbits_unassigned_iff_fixed (n : Nat) (gens : List (List Nat))
    (hgens : ∀ g ∈ gens, IsPermutation g n) (fuel : Nat) (hfuel : n ≤ fuel) :
    ∃ p, apply_generators fuel n gens (initialize_saucy_data n) = some p ∧
      ∀ i : Nat, i < n →
        (p[i]? = some (-1) ↔ ∀ g ∈ gens, g[i]? = some i) ∧
        (p[i]? = some (-1) ∨ ∃ v : Int, 0 ≤ v ∧ p[i]? = some v) := by
  have hlen0 : (initialize_saucy_data n).length = n := by simp [initialize_saucy_data]
  obtain ⟨p, hp, hiff⟩ :=
    apply_generators_unassigned hfuel gens (initialize_saucy_data n) hgens hlen0
      (repInv_fresh n)
  obtain ⟨p2, hp2, hlen, hrep, _⟩ :=
    apply_generators_same hfuel gens (initialize_saucy_data n) hgens hlen0 (repInv_fresh n)
  rw [hp] at hp2
  injection hp2 with hp2
  subst hp2
  refine ⟨p, hp, ?_⟩
  intro i hi
  constructor
  · apply hiff i hi
    simp [initialize_saucy_data, List.getElem?_replicate, hi]
  · have hpi : p[i]? = some p[i] := List.getElem?_eq_getElem (by omega)
    rcases hrep i _ hpi with e | ⟨h0, _⟩
    · left; rw [hpi, e]
    · right; exact ⟨p[i], h0, hpi⟩

theorem update_orbits_unassigned_iff_fixed_witness :
    (∀ g ∈ [[1, 0, 2, 3], [0, 2, 1, 3]], IsPermutation g 4) ∧ 4 ≤ 4 ∧
    ∃ p, apply_generators 4 4 [[1, 0, 2, 3], [0, 2, 1, 3]] (initialize_saucy_data 4) = some p ∧
      ∀ i : Nat, i < 4 →
        (p[i]? = some (-1) ↔ ∀ g ∈ [[1, 0, 2, 3], [0, 2, 1, 3]], g[i]? = some i) ∧
        (p[i]? = some (-1) ∨ ∃ v : Int, 0 ≤ v ∧ p[i]? = some v) :=
  ⟨by decide, by decide,
    update_orbits_unassigned_iff_fixed 4 [[1, 0, 2, 3], [0, 2, 1, 3]] (by decide) 4
      (by decide)⟩

/-- C18: the representative invariant.  Every array `p` reached from the fresh all `-1`
array of size `n` by `update_orbits` calls with permutations of `[0, n)` has length `n`,
and every entry `p[k]` is `-1` or an id `v` in `[0, n)` with `p[v] == v`. -/
theorem reachable_representative (n : Nat) (gens : List (List Nat))
    (hgens : ∀ g ∈ gens, IsPermutation g n) (fuel : Nat) (hfuel : n ≤ fuel) (p : List Int)
    (hreach : apply_generators fuel n gens (initialize_saucy_data n) = some p) :
    p.length = n ∧
    ∀ k : Nat, k < n →
      p[k]? = some (-1) ∨
      ∃ v : Nat, v < n ∧ p[k]? = some (v : Int) ∧ p[v]? = some (v : Int) := by
  obtain ⟨p2, hp2, hlen, hrep, _⟩ :=
    apply_generators_same hfuel gens (initialize_saucy_data n) hgens
      (by simp [initialize_saucy_data]) (repInv_fresh n)
  rw [hreach] at hp2
  injection hp2 with hp2
  subst hp2
  refine ⟨hlen, ?_⟩
  intro k hk
  have hpk : p[k]? = some p[k] := List.getElem?_eq_getElem (by omega)
  rcases hrep k _ hpk with e | ⟨h0, e⟩
  · left; rw [hpk, e]
  · right
    have hv := (List.getElem?_eq_some.1 e).1
    refine ⟨p[k].toNat, by omega, ?_, ?_⟩
    · rw [hpk]; congr 1; omega
    · rw [e]; congr 1; omega

theorem reachable_representative_witness :
    (∀ g ∈ [[1, 2, 0, 3]], IsPermutation g 4) ∧ 4 ≤ 4 ∧
    apply_generators 4 4 [[1, 2, 0, 3]] (initialize_saucy_data 4) = some [2, 2, 2, -1] ∧
    ([2, 2, 2, -1] : List Int).length = 4 ∧
    ∀ k : Nat, k < 4 →
      ([2, 2, 2, -1] : List Int)[k]? = some (-1) ∨
      ∃ v : Nat, v < 4 ∧ ([2, 2, 2, -1] : List Int)[k]? = some (v : Int) ∧
        ([2, 2, 2, -1] : List Int)[v]? = some (v : Int) :=
  ⟨by decide, by decide, by decide,
    reachable_representative 4 [[1, 2, 0, 3]] (by decide) 4 (by decide) [2, 2, 2, -1]
      (by decide)⟩

/-- C19: for every `n`, every permutation `perm` of `[0, n)` and every array `p` of
length `n` (whatever its entries, those in `[-1, n)` included), `update_orbits(p, perm, n)`
terminates, every cycle walk reaching its exit within `n` iterations, and no read or write
of `p`, `perm` or `touched` uses an index outside `[0, n)`: the bounds-checked model
returns an array, of length `n`. -/
theorem update_orbits_terminates (n : Nat) (perm : List Nat)
    (hperm : IsPermutation perm n) (p : List Int) (hp : p.length = n)
    (fuel : Nat) (hfuel : n ≤ fuel) :
    ∃ p', update_orbits fuel p perm n = some p' ∧ p'.length = n := by
  obtain ⟨p', hp', hlen, _, _⟩ :=
    update_orbits_spec hperm (preserved_true perm n) hfuel hp trivial
  exact ⟨p', hp', hlen⟩

theorem update_orbits_terminates_witness :
    IsPermutation [1, 2, 3, 4, 0] 5 ∧ ([-1, 0, -1, 4, 4] : List Int).length = 5 ∧ 5 ≤ 5 ∧
    ∃ p', update_orbits 5 [-1, 0, -1, 4, 4] [1, 2, 3, 4, 0] 5 = some p' ∧ p'.length = 5 :=
  ⟨by decide, by decide, by decide,
    update_orbits_terminates 5 [1, 2, 3, 4, 0] (by decide) [-1, 0, -1, 4, 4]
      (by decide) 5 (by decide)⟩

/-- C20 (the code at the failing input): the Python integer `-2147483649`, one below the
range of a C `int`, is converted by `PyInt_AsInt` without any error to the truncated value
`2147483647`. -/
theorem pyInt_AsInt_truncates :
    PyInt_AsInt (.int (-2147483649)) = .ok 2147483647 := by
  rfl

end Pysaucy
